import Mathlib

set_option maxRecDepth 100000

/-!
Verification development for the pattern-algebra engine: a shallow embedding
of the segment-level automaton pipeline (AST, segment matcher, NFA builder,
subset-construction determinizer, product intersection, complement,
emptiness/witness search, quick-reject filters, containment analyzer),
together with theorems settling the specification claims.

Strings are modelled as lists of UTF-16-style characters.  JavaScript RegExp
values are modelled by the inductive type Rx covering exactly the anchored
regex shapes the engine generates (literal runs, dot, dot-star, dot-plus and
character classes), plus composite intersection matchers.
-/

abbrev Str := List Char

/-- Convert a Lean string literal to the character-list representation. -/
def strL (s : String) : Str := s.data

/-- JavaScript regex dot: matches any character except line terminators. -/
def isDotChar (c : Char) : Bool :=
  !(c = '\n' || c = '\r' || c = '\u2028' || c = '\u2029')

/-- Characters escaped by the engine's escapeRegex helper. -/
def isRegexSpecial (c : Char) : Bool :=
  c = '.' || c = '*' || c = '+' || c = '?' || c = '^' || c = '$' ||
  c = '\x7b' || c = '\x7d' || c = '(' || c = ')' || c = '|' ||
  c = '[' || c = ']' || c = '\\'

/-- Escape special regex characters in a string (escapeRegex in the source). -/
def escapeRegex (s : Str) : Str :=
  (s.map (fun c => if isRegexSpecial c then ['\\', c] else [c])).flatten

/-- Escape a single character for a regex character class (escapeRegexChar). -/
def escapeRegexChar (c : Char) : Str :=
  if c = '^' || c = '-' || c = ']' || c = '\\' then ['\\', c] else [c]

/-- A character range inside a character class; the source fields are named
start and end (end is a reserved word here, hence rangeStart / rangeEnd). -/
structure CharRange where
  rangeStart : Char
  rangeEnd : Char
  deriving DecidableEq

/-- Character-class data: negation flag, explicit characters and ranges
(the fields of CharClassSegment shared with composite charclass parts). -/
structure CharClassSpec where
  negated : Bool
  chars : Str
  ranges : List CharRange
  deriving DecidableEq

/-- Parts of a WildcardSegment: literal runs, star, question. -/
inductive WildcardPart where
  | literal (value : Str)
  | star
  | question
  deriving DecidableEq

/-- Parts of a CompositeSegment: wildcard parts plus character classes. -/
inductive SegmentPart where
  | literal (value : Str)
  | star
  | question
  | charclass (spec : CharClassSpec)
  deriving DecidableEq

/-- Segment AST node: the five segment kinds of the pattern language. -/
inductive Segment where
  | literal (value : Str)
  | wildcard (pattern : Str) (parts : List WildcardPart)
  | globstar
  | charclass (spec : CharClassSpec)
  | composite (parts : List SegmentPart)
  deriving DecidableEq

/-- Pattern node: a sequence of segments or an alternation of branches. -/
inductive PatternNode where
  | sequence (segments : List Segment)
  | alternation (branches : List PatternNode)

/-- A parse error record; the message / position diagnostics are omitted and
only the stable error code is kept. -/
structure PatternError where
  code : Str
  deriving DecidableEq

/-- Parsed path pattern. -/
structure PathPattern where
  source : Str
  root : PatternNode
  isAbsolute : Bool
  isNegation : Bool
  errors : List PatternError

/-- Match a character against a character class (matchCharClass). -/
def matchCharClass (c : Char) (spec : CharClassSpec) : Bool :=
  let inChars := spec.chars.contains c
  let inRanges := spec.ranges.any
    (fun r => r.rangeStart.val ≤ c.val && c.val ≤ r.rangeEnd.val)
  let m := inChars || inRanges
  if spec.negated then !m else m

/-- Atoms of the anchored regexes generated by segmentToRegex, plus the
dot-plus regex used for globstar and for the determinizer's any symbol. -/
inductive RxAtom where
  | lit (value : Str)
  | dot
  | star
  | plusDot
  | cls (spec : CharClassSpec)
  deriving DecidableEq

/-- A generated regex: an anchored concatenation of atoms. -/
abbrev Rx := List RxAtom

/-- Render the character-class part of a regex source string. -/
def renderCls (spec : CharClassSpec) : Str :=
  '[' :: ((if spec.negated then ['^'] else []) ++
    (spec.chars.map escapeRegexChar).flatten ++
    (spec.ranges.map (fun r =>
      escapeRegexChar r.rangeStart ++ ['-'] ++ escapeRegexChar r.rangeEnd)).flatten ++
    [']'])

/-- Render one regex atom as JavaScript regex source text. -/
def renderAtom : RxAtom → Str
  | .lit v => escapeRegex v
  | .dot => ['.']
  | .star => ['.', '*']
  | .plusDot => ['.', '+']
  | .cls spec => renderCls spec

/-- The source text of a generated regex (the RegExp source property). -/
def rxSource (r : Rx) : Str :=
  '^' :: (r.map renderAtom).flatten ++ ['$']

/-- Suffixes of a string reachable by consuming zero or more dot-matching
characters; used to model star backtracking of the JavaScript regexes. -/
def dotSuffixes : Str → List Str
  | [] => [[]]
  | c :: cs => (c :: cs) :: (if isDotChar c then dotSuffixes cs else [])

/-- Execute a generated regex on a segment string (RegExp.test semantics,
anchored, dot excluding line terminators). -/
def rxTest : Rx → Str → Bool
  | [], s => s.isEmpty
  | .lit v :: rest, s => v.isPrefixOf s && rxTest rest (s.drop v.length)
  | .dot :: _, [] => false
  | .dot :: rest, c :: cs => isDotChar c && rxTest rest cs
  | .star :: rest, s => (dotSuffixes s).any (fun suf => rxTest rest suf)
  | .plusDot :: _, [] => false
  | .plusDot :: rest, c :: cs =>
      isDotChar c && (dotSuffixes cs).any (fun suf => rxTest rest suf)
  | .cls _ :: _, [] => false
  | .cls spec :: rest, c :: cs => matchCharClass c spec && rxTest rest cs

/-- A segment matcher: a generated regex, or the composite matcher produced
by createIntersectionPattern which tests both operands. -/
inductive SegmentMatcher where
  | rx (r : Rx)
  | and (a b : SegmentMatcher)
  deriving DecidableEq

/-- The test method of a segment matcher. -/
def mtest : SegmentMatcher → Str → Bool
  | .rx r, s => rxTest r s
  | .and a b, s => mtest a s && mtest b s

/-- The source property of a segment matcher. -/
def msource : SegmentMatcher → Str
  | .rx r => rxSource r
  | .and a b => '(' :: msource a ++ [')', '∩', '('] ++ msource b ++ [')']

/-- Recursive wildcard matching with backtracking (matchWildcardParts); the
position arguments of the source are modelled by consuming the string. -/
def matchWildcardParts : List WildcardPart → Str → Bool
  | [], s => s.isEmpty
  | .literal v :: rest, s => v.isPrefixOf s && matchWildcardParts rest (s.drop v.length)
  | .question :: _, [] => false
  | .question :: rest, _ :: cs => matchWildcardParts rest cs
  | .star :: rest, s =>
      if rest.isEmpty then true
      else s.tails.any (fun suf => matchWildcardParts rest suf)

/-- Recursive composite matching (matchCompositeParts). -/
def matchCompositeParts : List SegmentPart → Str → Bool
  | [], s => s.isEmpty
  | .literal v :: rest, s => v.isPrefixOf s && matchCompositeParts rest (s.drop v.length)
  | .question :: _, [] => false
  | .question :: rest, _ :: cs => matchCompositeParts rest cs
  | .star :: rest, s =>
      if rest.isEmpty then true
      else s.tails.any (fun suf => matchCompositeParts rest suf)
  | .charclass _ :: _, [] => false
  | .charclass spec :: rest, c :: cs =>
      matchCharClass c spec && matchCompositeParts rest cs

/-- Check if a path segment matches a segment pattern (matchSegment). -/
def matchSegment (segment : Str) (pattern : Segment) : Bool :=
  match pattern with
  | .literal v => segment = v
  | .globstar => true
  | .wildcard _ parts => matchWildcardParts parts segment
  | .charclass spec =>
      match segment with
      | [c] => matchCharClass c spec
      | _ => false
  | .composite parts => matchCompositeParts parts segment

/-- Build a regex from a segment pattern for automaton transitions
(segmentToRegex); literals return none and use exact comparison. -/
def segmentToRegex : Segment → Option Rx
  | .literal _ => none
  | .globstar => some [RxAtom.plusDot]
  | .wildcard _ parts =>
      some (parts.map (fun p =>
        match p with
        | .literal v => RxAtom.lit v
        | .star => RxAtom.star
        | .question => RxAtom.dot))
  | .charclass spec => some [RxAtom.cls spec]
  | .composite parts =>
      some (parts.map (fun p =>
        match p with
        | .literal v => RxAtom.lit v
        | .star => RxAtom.star
        | .question => RxAtom.dot
        | .charclass spec => RxAtom.cls spec))

/-- Automaton transition: one of the four tagged variants. -/
inductive AutomatonTransition where
  | literal (segment : Str) (target : Nat)
  | wildcard (pattern : SegmentMatcher) (patternSource : Str) (target : Nat)
  | globstar (selfLoop : Nat) (exit : Nat)
  | epsilon (target : Nat)
  deriving DecidableEq

/-- One automaton state: id (equal to its array index), transitions and the
accepting bit. -/
structure AutomatonState where
  id : Nat
  transitions : List AutomatonTransition
  accepting : Bool
  deriving DecidableEq

/-- A segment automaton. -/
structure SegmentAutomaton where
  states : List AutomatonState
  initialState : Nat
  acceptingStates : List Nat
  isDeterministic : Bool
  deriving DecidableEq

/-- Accepting bit of the state at an index (false when out of range). -/
def acceptingAt (a : SegmentAutomaton) (i : Nat) : Bool :=
  match a.states[i]? with
  | some st => st.accepting
  | none => false

/-- Targets contributed by a transition to the epsilon closure: epsilon
targets and globstar exits (a globstar can match zero segments). -/
def epsTargetsOfTransition : AutomatonTransition → List Nat
  | .epsilon t => [t]
  | .globstar _ e => [e]
  | _ => []

/-- Epsilon-closure targets of one state. -/
def epsTargetsOfState (a : SegmentAutomaton) (i : Nat) : Finset Nat :=
  match a.states[i]? with
  | some st => ((st.transitions.map epsTargetsOfTransition).flatten).toFinset
  | none => ∅

/-- One parallel step of epsilon-closure saturation. -/
def epsStep (a : SegmentAutomaton) (s : Finset Nat) : Finset Nat :=
  s.biUnion (fun i => epsTargetsOfState a i)

/-- All epsilon / globstar-exit targets mentioned anywhere in the automaton;
bounds how many elements saturation can ever add. -/
def allEpsTargets (a : SegmentAutomaton) : Finset Nat :=
  ((a.states.map
    (fun st => (st.transitions.map epsTargetsOfTransition).flatten)).flatten).toFinset

/-- Iterate a growth step n times; models the worklist saturation loops. -/
def saturate (f : Finset Nat → Finset Nat) : Nat → Finset Nat → Finset Nat
  | 0, s => s
  | n + 1, s => saturate f n (s ∪ f s)

/-- Epsilon closure of a set of states (epsilonClosure in the matcher): all
states reachable via epsilon transitions and globstar exit transitions. -/
def epsilonClosure (a : SegmentAutomaton) (states : Finset Nat) : Finset Nat :=
  saturate (epsStep a) ((allEpsTargets a).card + 1) states

/-- Check if a transition matches a segment (matchTransition). -/
def matchTransition (t : AutomatonTransition) (segment : Str) : Bool :=
  match t with
  | .literal s _ => s = segment
  | .wildcard p _ _ => mtest p segment
  | .globstar _ _ => true
  | .epsilon _ => false

/-- Target state after consuming a segment (getTransitionTarget). -/
def getTransitionTarget : AutomatonTransition → Option Nat
  | .literal _ t => some t
  | .wildcard _ _ t => some t
  | .globstar sl _ => some sl
  | .epsilon _ => none

/-- First literal transition whose segment equals the input. -/
def findLiteralTarget : List AutomatonTransition → Str → Option Nat
  | [], _ => none
  | .literal s tgt :: rest, seg =>
      if s = seg then some tgt else findLiteralTarget rest seg
  | _ :: rest, seg => findLiteralTarget rest seg

/-- First wildcard transition whose matcher accepts the input. -/
def findWildcardTarget : List AutomatonTransition → Str → Option Nat
  | [], _ => none
  | .wildcard p _ tgt :: rest, seg =>
      if mtest p seg then some tgt else findWildcardTarget rest seg
  | _ :: rest, seg => findWildcardTarget rest seg

/-- First globstar transition (returns its self-loop). -/
def findGlobstarTarget : List AutomatonTransition → Option Nat
  | [] => none
  | .globstar sl _ :: _ => some sl
  | _ :: rest => findGlobstarTarget rest

/-- Deterministic target for a segment, preferring literal over wildcard
over globstar transitions (getDeterministicTarget). -/
def getDeterministicTarget (transitions : List AutomatonTransition) (segment : Str) :
    Option Nat :=
  match findLiteralTarget transitions segment with
  | some t => some t
  | none =>
      match findWildcardTarget transitions segment with
      | some t => some t
      | none => findGlobstarTarget transitions

/-- Successor states of one state on one input segment: in deterministic mode
the priority rule, otherwise all matching transitions. -/
def stateMoves (a : SegmentAutomaton) (seg : Str) (i : Nat) : Finset Nat :=
  match a.states[i]? with
  | none => ∅
  | some st =>
      if a.isDeterministic then
        match getDeterministicTarget st.transitions seg with
        | some t => {t}
        | none => ∅
      else
        (st.transitions.map (fun t =>
          if matchTransition t seg then
            match getTransitionTarget t with
            | some tgt => ({tgt} : Finset Nat)
            | none => ∅
          else ∅)).foldl (fun x y => x ∪ y) ∅

/-- One input step of the set simulation, with closure applied after. -/
def nfaStep (a : SegmentAutomaton) (current : Finset Nat) (seg : Str) : Finset Nat :=
  epsilonClosure a (current.biUnion (stateMoves a seg))

/-- Main loop of simulateNFA, with the early exit on an empty state set. -/
def simulateGo (a : SegmentAutomaton) : List Str → Finset Nat → Bool
  | [], current => decide (∃ i ∈ current, acceptingAt a i = true)
  | seg :: rest, current =>
      let next := nfaStep a current seg
      if next = ∅ then false else simulateGo a rest next

/-- Simulate the automaton over a segment list (simulateNFA): set-based NFA
simulation, or the deterministic priority rule when the flag is set. -/
def simulateNFA (a : SegmentAutomaton) (segments : List Str) : Bool :=
  simulateGo a segments (epsilonClosure a {a.initialState})

/-- JavaScript String.split with a one-character separator (keeps empties). -/
def splitChar (sep : Char) : Str → List Str
  | [] => [[]]
  | c :: cs =>
      let rest := splitChar sep cs
      if c = sep then [] :: rest
      else
        match rest with
        | r :: rs => (c :: r) :: rs
        | [] => [[c]]

/-- Split a normalized path into segments (pathToSegments). -/
def pathToSegments (path : Str) : List Str :=
  if path = [] || path = ['/'] then []
  else
    let withoutLeadingSlash := match path with | '/' :: rest => rest | p => p
    let withoutTrailingSlash :=
      if withoutLeadingSlash.getLast? = some '/' then withoutLeadingSlash.dropLast
      else withoutLeadingSlash
    if withoutTrailingSlash = [] then []
    else splitChar '/' withoutTrailingSlash

/-- Join segments back into an absolute path (segmentsToPath). -/
def segmentsToPath (segments : List Str) : Str :=
  if segments = [] then ['/'] else '/' :: (List.intercalate ['/'] segments)

/-- Quick-reject filter data; requiredPrefix and requiredSuffix of the source
are named prefixReq and suffixReq here. -/
structure QuickRejectFilter where
  prefixReq : Option Str := none
  suffixReq : Option Str := none
  minLength : Option Nat := none
  requiredLiterals : Option (List Str) := none
  deriving DecidableEq

/-- Minimum character length of a segment (getSegmentMinLength). -/
def getSegmentMinLength : Segment → Nat
  | .literal v => v.length
  | .globstar => 0
  | .wildcard _ parts =>
      parts.foldl (fun acc p =>
        match p with
        | .literal v => acc + v.length
        | .question => acc + 1
        | .star => acc) 0
  | .charclass _ => 1
  | .composite parts =>
      parts.foldl (fun acc p =>
        match p with
        | .literal v => acc + v.length
        | .question => acc + 1
        | .charclass _ => acc + 1
        | .star => acc) 0

/-- Leading literal segment values (before the first non-literal). -/
def leadingLiterals : List Segment → List Str
  | .literal v :: rest => v :: leadingLiterals rest
  | _ => []

/-- Trailing literal segment values (after the last non-literal), in order. -/
def trailingLiterals (segs : List Segment) : List Str :=
  (leadingLiterals segs.reverse).reverse

/-- Is this segment a globstar? -/
def isGlobstarSeg : Segment → Bool
  | .globstar => true
  | _ => false

/-- Build quick-reject filters from a pattern (buildQuickRejectFilter):
sequence roots get prefix / suffix / literal / length filters, alternation
roots get the empty filter. -/
def buildQuickRejectFilter (pattern : PathPattern) : QuickRejectFilter :=
  match pattern.root with
  | .alternation _ => {}
  | .sequence segments =>
      let prefixParts := leadingLiterals segments
      let prefixVal : Option Str :=
        if prefixParts.length > 0 then some ('/' :: List.intercalate ['/'] prefixParts)
        else none
      let suffixParts := trailingLiterals segments
      let suffixVal : Option Str :=
        if suffixParts.length > 0 && suffixParts.length < segments.length then
          some ('/' :: List.intercalate ['/'] suffixParts)
        else none
      let literals := segments.filterMap (fun s =>
        match s with
        | .literal v => some v
        | _ => none)
      let litsVal : Option (List Str) := if literals.length > 0 then some literals else none
      let minLengthValue := segments.foldl (fun acc s => acc + getSegmentMinLength s + 1) 0
      let minVal : Option Nat := if minLengthValue > 1 then some minLengthValue else none
      { prefixReq := prefixVal, suffixReq := suffixVal,
        minLength := minVal, requiredLiterals := litsVal }

/-- Apply a quick-reject filter to a path (applyQuickReject). -/
def applyQuickReject (path : Str) (filter : QuickRejectFilter) : Bool :=
  (match filter.minLength with
   | some n => decide (n ≤ path.length)
   | none => true) &&
  (match filter.prefixReq with
   | some p => p.isPrefixOf path
   | none => true) &&
  (match filter.suffixReq with
   | some p => p.isSuffixOf path
   | none => true) &&
  (match filter.requiredLiterals with
   | some lits => lits.all (fun lit => (splitChar '/' path).contains lit)
   | none => true)

/-- The automaton builder state: the growing state array (the source also
keeps nextStateId, which always equals the array length). -/
abbrev Builder := List AutomatonState

/-- Create a new state (createState); returns the builder and the new id. -/
def createState (b : Builder) (accepting : Bool) : Builder × Nat :=
  (b ++ [{ id := b.length, transitions := [], accepting := accepting }], b.length)

/-- Append a transition to a state (addTransition). -/
def addTransition (b : Builder) (fromState : Nat) (t : AutomatonTransition) : Builder :=
  match b[fromState]? with
  | some st => b.set fromState { st with transitions := st.transitions ++ [t] }
  | none => b

/-- Build the automaton piece for a single segment (buildSegmentAutomaton). -/
def buildSegmentAutomaton (b : Builder) (segment : Segment)
    (startState endState : Nat) : Builder :=
  match segment with
  | .literal v => addTransition b startState (.literal v endState)
  | .globstar => addTransition b startState (.globstar startState endState)
  | seg =>
      match segmentToRegex seg with
      | some rx =>
          let src : Str :=
            match seg with
            | .wildcard p _ => p
            | _ => []
          addTransition b startState (.wildcard (.rx rx) src endState)
      | none => b

/-- Loop of buildSequenceAutomaton: one intermediate state between
consecutive segments, the last segment wired to the end state. -/
def buildSeqGo (b : Builder) (cur endState : Nat) : List Segment → Builder
  | [] => b
  | [g] => buildSegmentAutomaton b g cur endState
  | g :: g2 :: rest =>
      let created := createState b false
      buildSeqGo (buildSegmentAutomaton created.1 g cur created.2)
        created.2 endState (g2 :: rest)

/-- Build automaton for a segment sequence (buildSequenceAutomaton); the
empty sequence becomes a single epsilon transition. -/
def buildSequenceAutomaton (b : Builder) (segments : List Segment)
    (startState endState : Nat) : Builder :=
  match segments with
  | [] => addTransition b startState (.epsilon endState)
  | segs => buildSeqGo b startState endState segs

/-- Per-branch loop of buildAlternationAutomaton, parameterized over the
recursive node builder. -/
def buildBranchesWith (f : Builder → PatternNode → Nat → Nat → Builder)
    (b : Builder) (branches : List PatternNode) (startState endState : Nat) : Builder :=
  match branches with
  | [] => b
  | br :: rest =>
      let bs := createState b false
      let be := createState bs.1 false
      let b2 := addTransition be.1 startState (.epsilon bs.2)
      let b3 := f b2 br bs.2 be.2
      buildBranchesWith f (addTransition b3 be.2 (.epsilon endState)) rest startState endState

/-- Build automaton for a pattern node (buildNodeAutomaton); the fuel bounds
alternation nesting depth, which is at most two for parser output. -/
def buildNodeAutomaton : Nat → Builder → PatternNode → Nat → Nat → Builder
  | _, b, .sequence segs, s, e => buildSequenceAutomaton b segs s e
  | 0, b, .alternation _, _, _ => b
  | fuel + 1, b, .alternation branches, s, e =>
      buildBranchesWith (buildNodeAutomaton fuel) b branches s e

/-- Build a segment automaton from a pattern AST (buildAutomaton). -/
def buildAutomaton (pattern : PathPattern) : SegmentAutomaton :=
  let b0 := createState [] false
  let b1 := createState b0.1 true
  let builder := buildNodeAutomaton 1000 b1.1 pattern.root b0.2 b1.2
  { states := builder, initialState := b0.2,
    acceptingStates := [b1.2], isDeterministic := false }

/-- Minimum segments of a node (getNodeMinSegments); fueled like the
builder, and the minimum of an empty alternation is modelled as zero. -/
def getNodeMinSegments : Nat → PatternNode → Nat
  | _, .sequence segs => (segs.filter (fun s => !isGlobstarSeg s)).length
  | 0, .alternation _ => 0
  | fuel + 1, .alternation branches =>
      ((branches.map (getNodeMinSegments fuel)).min?).getD 0

/-- Maximum segments of a node (getNodeMaxSegments); none means unbounded. -/
def getNodeMaxSegments : Nat → PatternNode → Option Nat
  | _, .sequence segs =>
      if segs.any isGlobstarSeg then none else some segs.length
  | 0, .alternation _ => some 0
  | fuel + 1, .alternation branches =>
      let maxes := branches.map (getNodeMaxSegments fuel)
      if maxes.any (fun m => m.isNone) then none
      else some (((maxes.filterMap id).max?).getD 0)

/-- Minimum number of segments a pattern can match (getMinSegments). -/
def getMinSegments (pattern : PathPattern) : Nat :=
  getNodeMinSegments 1000 pattern.root

/-- Maximum number of segments, or none if unbounded (getMaxSegments). -/
def getMaxSegments (pattern : PathPattern) : Option Nat :=
  getNodeMaxSegments 1000 pattern.root

/-- A pattern is unbounded iff it has no maximum depth (isUnbounded). -/
def isUnbounded (pattern : PathPattern) : Bool :=
  (getMaxSegments pattern).isNone

/-- A compiled pattern. -/
structure CompiledPattern where
  source : Str
  ast : PathPattern
  quickReject : QuickRejectFilter
  automaton : SegmentAutomaton
  isUnbounded : Bool
  minSegments : Nat
  maxSegments : Option Nat

/-- Compile a pattern to matching form (compilePattern). -/
def compilePattern (pattern : PathPattern) : CompiledPattern :=
  { source := pattern.source
    ast := pattern
    quickReject := buildQuickRejectFilter pattern
    automaton := buildAutomaton pattern
    isUnbounded := isUnbounded pattern
    minSegments := getMinSegments pattern
    maxSegments := getMaxSegments pattern }

/-- Match against the underlying pattern without negation
(matchPathUnderlying): quick-reject, then depth bounds, then simulation. -/
def matchPathUnderlying (path : Str) (pattern : CompiledPattern) : Bool :=
  if !applyQuickReject path pattern.quickReject then false
  else
    let segments := pathToSegments path
    if segments.length < pattern.minSegments then false
    else
      match pattern.maxSegments with
      | some mx =>
          if segments.length > mx then false
          else simulateNFA pattern.automaton segments
      | none => simulateNFA pattern.automaton segments

/-- Test if a path matches a compiled pattern (matchPath); negation is the
final outer flip. -/
def matchPath (path : Str) (pattern : CompiledPattern) : Bool :=
  let m := matchPathUnderlying path pattern
  if pattern.ast.isNegation then !m else m

/-- Loop of matchSequenceRecursive: returns the number of segments consumed,
or none when there is no match; position indices follow the source. -/
def matchSequenceGo (segments : List Str) : Nat → List Segment → Option Nat
  | segIndex, [] => some segIndex
  | segIndex, p :: rest =>
      match p with
      | .globstar =>
          (List.range (segments.length - segIndex + 1)).findSome? (fun consume =>
            match matchSequenceGo segments (segIndex + consume) rest with
            | some r => if r = segments.length then some r else none
            | none => none)
      | pat =>
          if segments.length ≤ segIndex then none
          else if matchSegment (segments.getD segIndex []) pat then
            matchSequenceGo segments (segIndex + 1) rest
          else none

/-- Recursive pattern matching on segments (matchPatternNode); the fuel
bounds alternation nesting depth. -/
def matchPatternNode : Nat → List Str → Nat → PatternNode → Option Nat
  | _, segments, startIndex, .sequence segs => matchSequenceGo segments startIndex segs
  | 0, _, _, .alternation _ => none
  | fuel + 1, segments, startIndex, .alternation branches =>
      branches.findSome? (fun br => matchPatternNode fuel segments startIndex br)

/-- Match a path against a pattern AST directly (matchPathDirect). -/
def matchPathDirect (path : Str) (pattern : PathPattern) : Bool :=
  (matchPatternNode 1000 (pathToSegments path) 0 pattern.root).isSome

/-- Scan loop of containsTopLevelBraces, tracking the previous character and
the in-bracket flag exactly as the source does. -/
def containsTopLevelBracesGo : Option Char → Bool → Str → Bool
  | _, _, [] => false
  | prev, inB, c :: cs =>
      if prev = some '\\' then containsTopLevelBracesGo (some c) inB cs
      else if c = '[' && !inB then containsTopLevelBracesGo (some c) true cs
      else if c = ']' && inB then containsTopLevelBracesGo (some c) false cs
      else if c = '\x7b' && !inB then true
      else containsTopLevelBracesGo (some c) inB cs

/-- Check if a pattern contains top-level braces (containsTopLevelBraces). -/
def containsTopLevelBraces (pattern : Str) : Bool :=
  containsTopLevelBracesGo none false pattern

/-- Find the first top-level brace pair; returns the open index, the close
index and accumulated errors (the scan of expandBracesOnce). -/
def findTopBrace : Str → Nat → Option Char → Bool → Nat → Option Nat →
    List PatternError → (Option Nat × Option Nat × List PatternError)
  | [], _, _, _, _, bs, errs => (bs, none, errs)
  | c :: cs, i, prev, inB, depth, bs, errs =>
      if prev = some '\\' then findTopBrace cs (i + 1) (some c) inB depth bs errs
      else if c = '[' && !inB then findTopBrace cs (i + 1) (some c) true depth bs errs
      else if c = ']' && inB then findTopBrace cs (i + 1) (some c) false depth bs errs
      else if c = '\x7b' && !inB then
        let bs2 := if depth = 0 then some i else bs
        let errs2 := if depth ≥ 1 then errs ++ [⟨strL ("NESTED_BRACES")⟩] else errs
        findTopBrace cs (i + 1) (some c) inB (depth + 1) bs2 errs2
      else if c = '\x7d' && !inB then
        if depth = 1 then (bs, some i, errs)
        else if depth > 1 then findTopBrace cs (i + 1) (some c) inB (depth - 1) bs errs
        else findTopBrace cs (i + 1) (some c) inB depth bs errs
      else findTopBrace cs (i + 1) (some c) inB depth bs errs

/-- Loop of splitByComma: split at top-level commas only. -/
def splitByCommaGo : Str → Option Char → Bool → Nat → Str → List Str → List Str
  | [], _, _, _, cur, acc => acc ++ [cur]
  | c :: cs, prev, inB, depth, cur, acc =>
      if prev = some '\\' then splitByCommaGo cs (some c) inB depth (cur ++ [c]) acc
      else if c = '[' && !inB then splitByCommaGo cs (some c) true depth (cur ++ [c]) acc
      else if c = ']' && inB then splitByCommaGo cs (some c) false depth (cur ++ [c]) acc
      else if c = '\x7b' && !inB then splitByCommaGo cs (some c) inB (depth + 1) (cur ++ [c]) acc
      else if c = '\x7d' && !inB && depth > 0 then
        splitByCommaGo cs (some c) inB (depth - 1) (cur ++ [c]) acc
      else if c = ',' && depth = 0 && !inB then
        splitByCommaGo cs (some c) inB depth [] (acc ++ [cur])
      else splitByCommaGo cs (some c) inB depth (cur ++ [c]) acc

/-- Split brace content by top-level commas (splitByComma). -/
def splitByComma (content : Str) : List Str :=
  splitByCommaGo content none false 0 [] []

/-- Value of a digit run. -/
def digitsVal (ds : Str) : Nat :=
  ds.foldl (fun a c => a * 10 + (c.toNat - 48)) 0

/-- Match the anchored numeric-range regex of the brace expander: an integer,
two dots, an integer. -/
def numRangeMatch (s : Str) : Option (Int × Int) :=
  let p1 := match s with | '-' :: r => (true, r) | r => (false, r)
  let ds1 := p1.2.takeWhile Char.isDigit
  let rest2 := p1.2.drop ds1.length
  if ds1 = [] then none
  else
    match rest2 with
    | '.' :: '.' :: rest3 =>
        let p2 := match rest3 with | '-' :: r => (true, r) | r => (false, r)
        let ds2 := p2.2.takeWhile Char.isDigit
        if ds2 = [] || p2.2.drop ds2.length ≠ [] then none
        else
          let v1 : Int := if p1.1 then -(digitsVal ds1 : Int) else (digitsVal ds1 : Int)
          let v2 : Int := if p2.1 then -(digitsVal ds2 : Int) else (digitsVal ds2 : Int)
          some (v1, v2)
    | _ => none

/-- Render an integer in decimal, as JavaScript string conversion does. -/
def intToStr (i : Int) : Str :=
  if i < 0 then '-' :: strL (toString i.natAbs) else strL (toString i.toNat)

/-- Does the second string contain the first as a substring? -/
def containsSub (sub : Str) : Str → Bool
  | [] => sub.isPrefixOf []
  | c :: cs => sub.isPrefixOf (c :: cs) || containsSub sub cs

/-- Split a string on a non-empty separator substring. -/
def splitOnList (sep : Str) : Str → List Str
  | [] => [[]]
  | c :: cs =>
      if sep.isPrefixOf (c :: cs) && sep ≠ [] then
        [] :: splitOnList sep (cs.drop (sep.length - 1))
      else
        match splitOnList sep cs with
        | r :: rs => (c :: r) :: rs
        | [] => [[c]]
termination_by s => s.length
decreasing_by
  · simp only [List.length_drop, List.length_cons]
    omega
  · simp

/-- Expand braces one level (expandBracesOnce); the fuel bounds the
re-expansion recursion, which is shallow for all real patterns. -/
def expandBracesOnce : Nat → Str → List PatternError → (List Str × List PatternError)
  | 0, pattern, errs => ([pattern], errs)
  | fuel + 1, pattern, errs =>
      match findTopBrace pattern 0 none false 0 none errs with
      | (none, _, errs2) => ([pattern], errs2)
      | (some _, none, errs2) => ([pattern], errs2 ++ [⟨strL ("UNCLOSED_BRACE")⟩])
      | (some bs, some be, errs2) =>
          let prefixStr := pattern.take bs
          let braceContent := (pattern.drop (bs + 1)).take (be - bs - 1)
          let suffixStr := pattern.drop (be + 1)
          let alternatives := splitByComma braceContent
          let standard : List Str × List PatternError :=
            alternatives.foldl (fun acc alt =>
              let p := prefixStr ++ alt ++ suffixStr
              if containsTopLevelBraces p then
                let r := expandBracesOnce fuel p acc.2
                (acc.1 ++ r.1, r.2)
              else (acc.1 ++ [p], acc.2)) ([], errs2)
          if alternatives.length = 1 &&
              containsSub (strL ("..")) (alternatives.getD 0 []) then
            match numRangeMatch (alternatives.getD 0 []) with
            | some (vStart, vEnd) =>
                let step : Int := if vStart ≤ vEnd then 1 else -1
                let count := (vEnd - vStart).natAbs + 1
                if count > 50 then
                  let errs3 := errs2 ++ [⟨strL ("EXPANSION_LIMIT")⟩]
                  let truncated := (List.range 50).map
                    (fun i => intToStr (vStart + (i : Int) * step))
                  let joined := List.intercalate (strL ("|SPLIT|"))
                    (truncated.map (fun n => prefixStr ++ n ++ suffixStr))
                  let r := expandBracesOnce fuel joined errs3
                  ((r.1.map (splitOnList (strL ("|SPLIT|")))).flatten, r.2)
                else
                  let expanded := (List.range count).map
                    (fun i => prefixStr ++ intToStr (vStart + (i : Int) * step) ++ suffixStr)
                  if containsTopLevelBraces suffixStr then
                    expanded.foldl (fun acc p =>
                      let r := expandBracesOnce fuel p acc.2
                      (acc.1 ++ r.1, r.2)) ([], errs2)
                  else (expanded, errs2)
            | none => standard
          else standard

/-- Loop of splitBySlash: split on slashes outside brackets, dropping
empty parts. -/
def splitBySlashGo : Str → Option Char → Bool → Str → List Str → List Str
  | [], _, _, cur, acc => if cur ≠ [] then acc ++ [cur] else acc
  | c :: cs, prev, inB, cur, acc =>
      if prev = some '\\' then splitBySlashGo cs (some c) inB (cur ++ [c]) acc
      else if c = '[' && !inB then splitBySlashGo cs (some c) true (cur ++ [c]) acc
      else if c = ']' && inB then splitBySlashGo cs (some c) false (cur ++ [c]) acc
      else if c = '/' && !inB then
        splitBySlashGo cs (some c) inB [] (if cur ≠ [] then acc ++ [cur] else acc)
      else splitBySlashGo cs (some c) inB (cur ++ [c]) acc

/-- Split a pattern by forward slashes not inside brackets (splitBySlash). -/
def splitBySlash (pattern : Str) : List Str :=
  splitBySlashGo pattern none false [] []

/-- Check if a segment contains unescaped special characters
(hasUnescapedSpecial). -/
def hasUnescapedSpecial : Str → Str → Bool
  | [], _ => false
  | ['\\'], chars => chars.contains '\\'
  | '\\' :: _ :: rest, chars => hasUnescapedSpecial rest chars
  | c :: rest, chars => chars.contains c || hasUnescapedSpecial rest chars

/-- Scan for an unescaped double star inside a longer segment. -/
def hasDoubleStar : Str → Bool
  | [] => false
  | '\\' :: _ :: rest => hasDoubleStar rest
  | '*' :: '*' :: _ => true
  | _ :: rest => hasDoubleStar rest

/-- Unescape a literal segment (unescapeSegment). -/
def unescapeSegment : Str → Str
  | [] => []
  | '\\' :: c :: rest => c :: unescapeSegment rest
  | c :: rest => c :: unescapeSegment rest

/-- Loop of parseCharClass after negation and a leading literal bracket have
been handled; consumes characters up to the closing bracket. -/
def parseCharClassGo : Str → Bool → Str → List CharRange → List PatternError →
    (CharClassSpec × Str × List PatternError)
  | [], neg, cs, rs, errs =>
      ({ negated := neg, chars := cs, ranges := rs }, [],
        errs ++ [⟨strL ("UNCLOSED_BRACKET")⟩])
  | ']' :: rest, neg, cs, rs, errs =>
      let errs2 := if cs = [] && rs = [] then errs ++ [⟨strL ("EMPTY_CHARCLASS")⟩] else errs
      ({ negated := neg, chars := cs, ranges := rs }, rest, errs2)
  | '\\' :: c2 :: rest, neg, cs, rs, errs =>
      parseCharClassGo rest neg (cs ++ [c2]) rs errs
  | c :: '-' :: c2 :: rest, neg, cs, rs, errs =>
      if c2 ≠ ']' then
        let errs2 := if c2.val < c.val then errs ++ [⟨strL ("INVALID_RANGE")⟩] else errs
        parseCharClassGo rest neg cs (rs ++ [⟨c, c2⟩]) errs2
      else parseCharClassGo ('-' :: c2 :: rest) neg (cs ++ [c]) rs errs
  | c :: rest, neg, cs, rs, errs => parseCharClassGo rest neg (cs ++ [c]) rs errs

/-- Parse a character class (parseCharClass); takes the text after the
opening bracket and returns the spec and the remaining text. -/
def parseCharClass (s : Str) (errs : List PatternError) :
    CharClassSpec × Str × List PatternError :=
  let p1 := match s with
    | '!' :: r => (true, r)
    | '^' :: r => (true, r)
    | r => (false, r)
  let p2 := match p1.2 with
    | ']' :: r => (([']'] : Str), r)
    | r => (([] : Str), r)
  parseCharClassGo p2.2 p1.1 p2.1 [] errs

/-- Loop of parseSegmentParts: literal buffer plus star, question and
character-class parts; each step consumes at least one character, so the
fuel (one more than the segment length) never runs out. -/
def parseSegmentPartsGo : Nat → Str → Str → List PatternError →
    (List SegmentPart × List PatternError)
  | _, [], buf, errs =>
      (if buf = [] then [] else [SegmentPart.literal buf], errs)
  | 0, _, buf, errs =>
      (if buf = [] then [] else [SegmentPart.literal buf], errs)
  | _ + 1, ['\\'], buf, errs =>
      ([SegmentPart.literal (buf ++ ['\\'])], errs)
  | fuel + 1, '\\' :: c2 :: rest, buf, errs =>
      parseSegmentPartsGo fuel rest (buf ++ [c2]) errs
  | fuel + 1, '*' :: rest, buf, errs =>
      let r := parseSegmentPartsGo fuel rest [] errs
      ((if buf = [] then [] else [SegmentPart.literal buf]) ++ SegmentPart.star :: r.1, r.2)
  | fuel + 1, '?' :: rest, buf, errs =>
      let r := parseSegmentPartsGo fuel rest [] errs
      ((if buf = [] then [] else [SegmentPart.literal buf]) ++ SegmentPart.question :: r.1, r.2)
  | fuel + 1, '[' :: rest, buf, errs =>
      let cc := parseCharClass rest errs
      let r := parseSegmentPartsGo fuel cc.2.1 [] cc.2.2
      ((if buf = [] then [] else [SegmentPart.literal buf]) ++
        SegmentPart.charclass cc.1 :: r.1, r.2)
  | fuel + 1, c :: rest, buf, errs => parseSegmentPartsGo fuel rest (buf ++ [c]) errs

/-- Parse segment text into component parts (parseSegmentParts). -/
def parseSegmentParts (segment : Str) (errs : List PatternError) :
    List SegmentPart × List PatternError :=
  parseSegmentPartsGo (segment.length + 1) segment [] errs

/-- Convert a composite part to a wildcard part; the charclass case cannot
occur for bracket-free segments (the source throws there). -/
def toWildcardPart : SegmentPart → WildcardPart
  | .literal v => .literal v
  | .star => .star
  | .question => .question
  | .charclass _ => .literal []

/-- Parse a single segment string into a segment node (parseSegment). -/
def parseSegment (segment : Str) (errs : List PatternError) :
    Segment × List PatternError :=
  if segment = strL ("**") then (.globstar, errs)
  else
    let errs1 :=
      if hasUnescapedSpecial segment (strL ("*")) && hasDoubleStar segment then
        errs ++ [⟨strL ("INVALID_GLOBSTAR")⟩]
      else errs
    let hasWildcard := hasUnescapedSpecial segment (strL ("*?"))
    let hasBracket := hasUnescapedSpecial segment (strL ("["))
    if !hasWildcard && !hasBracket then
      (.literal (unescapeSegment segment), errs1)
    else
      let parts := parseSegmentParts segment errs1
      if !hasBracket then
        (.wildcard segment (parts.1.map toWildcardPart), parts.2)
      else
        (.composite parts.1, parts.2)

/-- Parse a segment sequence (parseSegmentSequence): strip the leading slash
or tilde, split by slashes, parse each segment. -/
def parseSegmentSequence (pattern : Str) (errs : List PatternError) :
    List Segment × List PatternError :=
  let toParse : Str :=
    match pattern with
    | '/' :: r => r
    | '~' :: '/' :: r => r
    | ['~'] => []
    | r => r
  if toParse = [] then ([], errs)
  else
    (splitBySlash toParse).foldl (fun acc seg =>
      let r := parseSegment seg acc.2
      (acc.1 ++ [r.1], r.2)) ([], errs)

/-- Parse a pattern string into an AST (parsePattern). -/
def parsePattern (source : Str) : PathPattern :=
  let p1 := match source with
    | '!' :: r => (true, r)
    | r => (false, r)
  let isNeg := p1.1
  let patternToParse := p1.2
  let isAbs := patternToParse.head? = some '/' || patternToParse.head? = some '~'
  if containsTopLevelBraces patternToParse then
    let r := expandBracesOnce 100 patternToParse []
    match r.1 with
    | [b] =>
        let s := parseSegmentSequence b r.2
        { source := source, root := .sequence s.1,
          isAbsolute := isAbs, isNegation := isNeg, errors := s.2 }
    | branches =>
        let folded := branches.foldl (fun acc b =>
          let s := parseSegmentSequence b acc.2
          (acc.1 ++ [PatternNode.sequence s.1], s.2)) ([], r.2)
        { source := source, root := .alternation folded.1,
          isAbsolute := isAbs, isNegation := isNeg, errors := folded.2 }
  else
    let s := parseSegmentSequence patternToParse []
    { source := source, root := .sequence s.1,
      isAbsolute := isAbs, isNegation := isNeg, errors := s.2 }

/-- The distinguished operational-limit error (AutomatonLimitError); the
human-readable message field is omitted. -/
structure AutomatonLimitError where
  code : Str
  limit : Nat
  actual : Nat
  deriving DecidableEq

/-- Default maximum number of DFA states (DEFAULT_MAX_DFA_STATES). -/
def DEFAULT_MAX_DFA_STATES : Nat := 10000

/-- Options for DFA construction; none means the default cap. -/
structure DeterminizeOptions where
  maxStates : Option Nat := none
  deriving DecidableEq

/-- Alphabet symbols collected by the determinizer.  The any symbol of the
source type is never placed in the symbol list; globstar self-loops are
handled by computeAnyTransition separately. -/
inductive AlphabetSymbol where
  | literal (value : Str)
  | wildcard (pattern : SegmentMatcher) (patternSource : Str)
  deriving DecidableEq

/-- One transition step of collectAlphabet: literals deduplicated by value,
wildcards deduplicated by patternSource falling back to the regex source. -/
def collectAlphabetStep (acc : List Str × List Str × List AlphabetSymbol)
    (t : AutomatonTransition) : List Str × List Str × List AlphabetSymbol :=
  match t with
  | .literal seg _ =>
      if acc.1.contains seg then acc
      else (acc.1 ++ [seg], acc.2.1, acc.2.2 ++ [.literal seg])
  | .wildcard p psrc _ =>
      let key := if psrc = [] then msource p else psrc
      if acc.2.1.contains key then acc
      else (acc.1, acc.2.1 ++ [key], acc.2.2 ++ [.wildcard p psrc])
  | _ => acc

/-- Collect all alphabet symbols from the automaton (collectAlphabet). -/
def collectAlphabet (a : SegmentAutomaton) : List AlphabetSymbol :=
  (a.states.foldl (fun acc st => st.transitions.foldl collectAlphabetStep acc)
    (([] : List Str), ([] : List Str), ([] : List AlphabetSymbol))).2.2

/-- Check if a transition matches a symbol (matchesSymbol): literals by
value, wildcards by pattern source only. -/
def matchesSymbol (t : AutomatonTransition) (symbol : AlphabetSymbol) : Bool :=
  match t, symbol with
  | .literal seg _, .literal v => seg = v
  | .wildcard _ psrc _, .wildcard _ symSrc => psrc = symSrc
  | _, _ => false

/-- Target state of a transition (getTarget in the determinizer). -/
def getTarget : AutomatonTransition → Nat
  | .literal _ t => t
  | .wildcard _ _ t => t
  | .globstar sl _ => sl
  | .epsilon t => t

/-- Move set on one symbol followed by epsilon closure (computeTransition). -/
def computeTransition (nfa : SegmentAutomaton) (fromStates : Finset Nat)
    (symbol : AlphabetSymbol) : Finset Nat :=
  epsilonClosure nfa (fromStates.biUnion (fun i =>
    match nfa.states[i]? with
    | some st =>
        ((st.transitions.filter (fun t => matchesSymbol t symbol)).map getTarget).toFinset
    | none => ∅))

/-- Globstar self-loop targets on any segment (computeAnyTransition). -/
def computeAnyTransition (nfa : SegmentAutomaton) (fromStates : Finset Nat) : Finset Nat :=
  epsilonClosure nfa (fromStates.biUnion (fun i =>
    match nfa.states[i]? with
    | some st =>
        (st.transitions.filterMap (fun t =>
          match t with
          | .globstar sl _ => some sl
          | _ => none)).toFinset
    | none => ∅))

/-- Is this wildcard source the catch-all shape the completion step looks
for (the check of an optional caret, dot, star, optional dollar)? -/
def isCatchAllSource (s : Str) : Bool :=
  s = strL (".*") || s = strL ("^.*") || s = strL (".*$") || s = strL ("^.*$")

/-- Does a state already carry a catch-all wildcard transition? -/
def hasCatchAll (st : AutomatonState) : Bool :=
  st.transitions.any (fun t =>
    match t with
    | .wildcard p _ _ => isCatchAllSource (msource p)
    | _ => false)

/-- Make a DFA complete by adding a sink state (makeComplete): states
without a catch-all get a catch-all wildcard transition to a fresh
non-accepting sink that loops to itself. -/
def makeComplete (dfa : SegmentAutomaton) : SegmentAutomaton :=
  let sinkStateId := dfa.states.length
  let sinkState : AutomatonState :=
    { id := sinkStateId, accepting := false,
      transitions := [.wildcard (.rx [.star]) (strL ("*")) sinkStateId] }
  let completedStates := dfa.states.map (fun st =>
    if hasCatchAll st then st
    else { st with transitions :=
            st.transitions ++ [.wildcard (.rx [.star]) (strL ("*")) sinkStateId] })
  { states := completedStates ++ [sinkState],
    initialState := dfa.initialState,
    acceptingStates := dfa.acceptingStates,
    isDeterministic := true }

/-- Growing subset-construction state: the state-set-to-id map (state sets
are canonical Finsets, replacing the sorted-key serialization) and the DFA
state array. -/
structure DetState where
  stateSetMap : List (Finset Nat × Nat)
  dfaStates : List AutomatonState

/-- Look up or create the DFA state of an NFA state set (getOrCreateState);
creating a state beyond the cap raises the DFA state limit error with the
attempted count. -/
def getOrCreateState (maxStates : Nat) (nfa : SegmentAutomaton) (ds : DetState)
    (nfaStateSet : Finset Nat) : Except AutomatonLimitError (Nat × DetState) :=
  match ds.stateSetMap.lookup nfaStateSet with
  | some id => .ok (id, ds)
  | none =>
      if maxStates ≤ ds.dfaStates.length then
        .error { code := strL ("DFA_STATE_LIMIT"), limit := maxStates,
                 actual := ds.dfaStates.length + 1 }
      else
        .ok (ds.dfaStates.length,
          { stateSetMap := ds.stateSetMap ++ [(nfaStateSet, ds.dfaStates.length)],
            dfaStates := ds.dfaStates ++
              [{ id := ds.dfaStates.length, transitions := [],
                 accepting := decide (∃ s ∈ nfaStateSet, acceptingAt nfa s = true) }] })

/-- The transition emitted for an alphabet symbol toward a DFA target. -/
def symbolToTransition : AlphabetSymbol → Nat → AutomatonTransition
  | .literal v, target => .literal v target
  | .wildcard p psrc, target => .wildcard p psrc target

/-- Per-symbol loop of the subset construction: compute the move set of each
symbol, allocate target states, record transitions and worklist pushes. -/
def processSymbols (maxStates : Nat) (nfa : SegmentAutomaton) (nfaStateSet : Finset Nat)
    (processed : Finset Nat) :
    List AlphabetSymbol → DetState → List AutomatonTransition → List (Nat × Finset Nat) →
    Except AutomatonLimitError (DetState × List AutomatonTransition × List (Nat × Finset Nat))
  | [], ds, transitions, pushes => .ok (ds, transitions, pushes)
  | symbol :: rest, ds, transitions, pushes =>
      if computeTransition nfa nfaStateSet symbol = ∅ then
        processSymbols maxStates nfa nfaStateSet processed rest ds transitions pushes
      else
        match getOrCreateState maxStates nfa ds (computeTransition nfa nfaStateSet symbol) with
        | .error e => .error e
        | .ok (targetDfaState, ds2) =>
            processSymbols maxStates nfa nfaStateSet processed rest ds2
              (transitions ++ [symbolToTransition symbol targetDfaState])
              (if decide (targetDfaState ∈ processed) then pushes
               else pushes ++ [(targetDfaState, computeTransition nfa nfaStateSet symbol)])

/-- Handle the any-segment transition of the current subset state (the
globstar self-loop handling after the symbol loop). -/
def processAny (maxStates : Nat) (nfa : SegmentAutomaton) (nfaStateSet : Finset Nat)
    (processed : Finset Nat) (ds : DetState) (transitions : List AutomatonTransition)
    (pushes : List (Nat × Finset Nat)) :
    Except AutomatonLimitError
      (DetState × List AutomatonTransition × List (Nat × Finset Nat)) :=
  if computeAnyTransition nfa nfaStateSet = ∅ then .ok (ds, transitions, pushes)
  else
    match getOrCreateState maxStates nfa ds (computeAnyTransition nfa nfaStateSet) with
    | .error e => .error e
    | .ok (tgt, ds3) =>
        .ok (ds3,
          transitions ++ [AutomatonTransition.wildcard (.rx [.plusDot]) (strL ("*")) tgt],
          if decide (tgt ∈ processed) then pushes
          else pushes ++ [(tgt, computeAnyTransition nfa nfaStateSet)])

/-- Replace the transition list of a state in the DFA state array. -/
def setStateTransitions (states : List AutomatonState) (i : Nat)
    (transitions : List AutomatonTransition) : List AutomatonState :=
  match states[i]? with
  | some st => states.set i { st with transitions := transitions }
  | none => states

/-- Worklist loop of the subset construction; the worklist is a stack with
its top at the head, matching the pop discipline of the source. -/
def determinizeLoop (maxStates : Nat) (nfa : SegmentAutomaton)
    (alphabet : List AlphabetSymbol) :
    Nat → List (Nat × Finset Nat) → Finset Nat → DetState →
    Except AutomatonLimitError DetState
  | 0, _, _, ds => .ok ds
  | _ + 1, [], _, ds => .ok ds
  | fuel + 1, (dfaStateId, nfaStateSet) :: rest, processed, ds =>
      if decide (dfaStateId ∈ processed) then
        determinizeLoop maxStates nfa alphabet fuel rest processed ds
      else
        match processSymbols maxStates nfa nfaStateSet (insert dfaStateId processed)
            alphabet ds [] [] with
        | .error e => .error e
        | .ok (ds2, transitions, pushes) =>
            match processAny maxStates nfa nfaStateSet (insert dfaStateId processed)
                ds2 transitions pushes with
            | .error e => .error e
            | .ok (ds4, transitions4, pushes4) =>
                determinizeLoop maxStates nfa alphabet fuel
                  (pushes4.reverse ++ rest) (insert dfaStateId processed)
                  { ds4 with dfaStates :=
                      setStateTransitions ds4.dfaStates dfaStateId transitions4 }

/-- Convert an NFA to a complete DFA using subset construction
(determinize); throws the state-limit error as an Except value.  Already
deterministic inputs are only completed. -/
def determinize (nfa : SegmentAutomaton) (options : DeterminizeOptions) :
    Except AutomatonLimitError SegmentAutomaton :=
  if nfa.isDeterministic then .ok (makeComplete nfa)
  else
    match getOrCreateState (options.maxStates.getD DEFAULT_MAX_DFA_STATES) nfa
        { stateSetMap := [], dfaStates := [] } (epsilonClosure nfa {nfa.initialState}) with
    | .error e => .error e
    | .ok (initialDfaState, ds0) =>
        match determinizeLoop (options.maxStates.getD DEFAULT_MAX_DFA_STATES) nfa
            (collectAlphabet nfa)
            ((options.maxStates.getD DEFAULT_MAX_DFA_STATES + 2) *
              ((collectAlphabet nfa).length + 2) + 2)
            [(initialDfaState, epsilonClosure nfa {nfa.initialState})] ∅ ds0 with
        | .error e => .error e
        | .ok ds =>
            .ok (makeComplete
              { states := ds.dfaStates, initialState := initialDfaState,
                acceptingStates :=
                  (ds.dfaStates.filter (fun s => s.accepting)).map (fun s => s.id),
                isDeterministic := true })

/-- Product construction mode. -/
inductive ProductMode where
  | intersection
  | union
  deriving DecidableEq

/-- Combined transition payload before its product target is allocated. -/
inductive TransitionWithoutTarget where
  | literal (segment : Str)
  | wildcard (pattern : SegmentMatcher) (patternSource : Str)
  deriving DecidableEq

/-- A combined transition together with its component targets. -/
structure CombinedTransition where
  transition : TransitionWithoutTarget
  targetA : Nat
  targetB : Nat
  deriving DecidableEq

/-- Composite matcher testing both patterns (createIntersectionPattern). -/
def createIntersectionPattern (patternA patternB : SegmentMatcher) : SegmentMatcher :=
  .and patternA patternB

/-- Product of globstar transitions (handleGlobstarProduct). -/
def handleGlobstarProduct (transA transB : AutomatonTransition) : Option CombinedTransition :=
  match transA, transB with
  | .globstar slA _, .globstar slB _ =>
      some { transition := .wildcard (.rx [.plusDot]) (strL ("**")),
             targetA := slA, targetB := slB }
  | .globstar slA _, .literal seg tB =>
      some { transition := .literal seg, targetA := slA, targetB := tB }
  | .globstar slA _, .wildcard p psrc tB =>
      some { transition := .wildcard p psrc, targetA := slA, targetB := tB }
  | .literal seg tA, .globstar slB _ =>
      some { transition := .literal seg, targetA := tA, targetB := slB }
  | .wildcard p psrc tA, .globstar slB _ =>
      some { transition := .wildcard p psrc, targetA := tA, targetB := slB }
  | _, _ => none

/-- Combine two transitions that can fire on the same input
(combineTransitions). -/
def combineTransitions (transA transB : AutomatonTransition) : Option CombinedTransition :=
  match transA, transB with
  | .epsilon _, _ => none
  | _, .epsilon _ => none
  | .literal segA tA, .literal segB tB =>
      if segA = segB then
        some { transition := .literal segA, targetA := tA, targetB := tB }
      else none
  | .literal segA tA, .wildcard pB _ tB =>
      if mtest pB segA then
        some { transition := .literal segA, targetA := tA, targetB := tB }
      else none
  | .wildcard pA _ tA, .literal segB tB =>
      if mtest pA segB then
        some { transition := .literal segB, targetA := tA, targetB := tB }
      else none
  | .wildcard pA psrcA tA, .wildcard pB psrcB tB =>
      some { transition := .wildcard (createIntersectionPattern pA pB)
               ('(' :: psrcA ++ [')', '∩', '('] ++ psrcB ++ [')']),
             targetA := tA, targetB := tB }
  | tA, tB => handleGlobstarProduct tA tB

/-- Growing product-construction state. -/
structure ProdState where
  pairToState : List ((Nat × Nat) × Nat)
  productStates : List AutomatonState

/-- Look up or create the product state of a state pair. -/
def prodGetOrCreate (mode : ProductMode) (a b : SegmentAutomaton) (ps : ProdState)
    (sa sb : Nat) : Nat × ProdState :=
  match ps.pairToState.lookup (sa, sb) with
  | some id => (id, ps)
  | none =>
      let id := ps.productStates.length
      let acceptA := acceptingAt a sa
      let acceptB := acceptingAt b sb
      let accepting :=
        match mode with
        | .intersection => acceptA && acceptB
        | .union => acceptA || acceptB
      (id, { pairToState := ps.pairToState ++ [((sa, sb), id)],
             productStates := ps.productStates ++
               [{ id := id, transitions := [], accepting := accepting }] })

/-- Attach a product target to a combined transition. -/
def attachTarget (t : TransitionWithoutTarget) (target : Nat) : AutomatonTransition :=
  match t with
  | .literal seg => .literal seg target
  | .wildcard p psrc => .wildcard p psrc target

/-- Combine one pair of transitions and fold it into the accumulator. -/
def prodCombineOne (mode : ProductMode) (a b : SegmentAutomaton)
    (processed : Finset (Nat × Nat))
    (acc : ProdState × List AutomatonTransition × List (Nat × Nat × Nat))
    (transA transB : AutomatonTransition) :
    ProdState × List AutomatonTransition × List (Nat × Nat × Nat) :=
  match combineTransitions transA transB with
  | none => acc
  | some combined =>
      let r := prodGetOrCreate mode a b acc.1 combined.targetA combined.targetB
      let transitions := acc.2.1 ++ [attachTarget combined.transition r.1]
      let pushes :=
        if decide ((combined.targetA, combined.targetB) ∈ processed) then acc.2.2
        else acc.2.2 ++ [(r.1, combined.targetA, combined.targetB)]
      (r.2, transitions, pushes)

/-- Worklist loop of the product construction (stack top at the head). -/
def productLoop (mode : ProductMode) (a b : SegmentAutomaton) :
    Nat → List (Nat × Nat × Nat) → Finset (Nat × Nat) → ProdState → ProdState
  | 0, _, _, ps => ps
  | _ + 1, [], _, ps => ps
  | fuel + 1, (stateId, sa, sb) :: rest, processed, ps =>
      if decide ((sa, sb) ∈ processed) then
        productLoop mode a b fuel rest processed ps
      else
        let processed2 := insert (sa, sb) processed
        let transListA := match a.states[sa]? with | some st => st.transitions | none => []
        let transListB := match b.states[sb]? with | some st => st.transitions | none => []
        let folded := transListA.foldl (fun acc transA =>
          transListB.foldl (fun acc2 transB =>
            prodCombineOne mode a b processed2 acc2 transA transB) acc)
          (ps, ([] : List AutomatonTransition), ([] : List (Nat × Nat × Nat)))
        let ps2 := folded.1
        let productStates3 :=
          match ps2.productStates[stateId]? with
          | some st => ps2.productStates.set stateId { st with transitions := folded.2.1 }
          | none => ps2.productStates
        productLoop mode a b fuel (folded.2.2.reverse ++ rest) processed2
          { ps2 with productStates := productStates3 }

/-- A worklist fuel bound comfortably above the number of reachable pairs. -/
def prodSizeBound (x : SegmentAutomaton) : Nat :=
  x.states.length + (x.states.map (fun st => st.transitions.length)).sum + 2

/-- Product construction for intersection or union (productConstruction). -/
def productConstruction (a b : SegmentAutomaton) (mode : ProductMode) : SegmentAutomaton :=
  let r0 := prodGetOrCreate mode a b { pairToState := [], productStates := [] }
    a.initialState b.initialState
  let fuel := prodSizeBound a * prodSizeBound b + 2
  let ps := productLoop mode a b fuel [(r0.1, a.initialState, b.initialState)] ∅ r0.2
  let acceptingStates := (ps.productStates.filter (fun s => s.accepting)).map (fun s => s.id)
  { states := ps.productStates,
    initialState := r0.1,
    acceptingStates := acceptingStates,
    isDeterministic := a.isDeterministic && b.isDeterministic }

/-- Intersection of two automata via product construction (intersect). -/
def intersect (a b : SegmentAutomaton) : SegmentAutomaton :=
  productConstruction a b .intersection

/-- Complement a DFA by flipping the accepting bits (complement); inputs
that are not deterministic are determinized first, which can fail with the
state-limit error. -/
def complement (automaton : SegmentAutomaton) : Except AutomatonLimitError SegmentAutomaton :=
  match (if automaton.isDeterministic then .ok automaton else determinize automaton {}) with
  | .error e => .error e
  | .ok dfa =>
      let complementedStates := dfa.states.map (fun st => { st with accepting := !st.accepting })
      let acceptingStates := (complementedStates.filter (fun s => s.accepting)).map (fun s => s.id)
      .ok { states := complementedStates,
            initialState := dfa.initialState,
            acceptingStates := acceptingStates,
            isDeterministic := true }

/-- Quick-reject merge mode. -/
inductive MergeMode where
  | intersection
  | union
  deriving DecidableEq

/-- Character-by-character common prefix of two strings. -/
def commonPrefixChars : Str → Str → Str
  | a :: as, b :: bs => if a = b then a :: commonPrefixChars as bs else []
  | _, _ => []

/-- Merge prefix constraints (the mergePrefix helper of pattern algebra). -/
def mergePrefixes (a b : Option Str) (mode : MergeMode) : Option Str :=
  match a, b with
  | none, b2 => if mode = .intersection then b2 else none
  | some a2, none => if mode = .intersection then some a2 else none
  | some a2, some b2 =>
      match mode with
      | .intersection =>
          if b2.isPrefixOf a2 then some a2
          else if a2.isPrefixOf b2 then some b2
          else if b2.length ≤ a2.length then some a2 else some b2
      | .union =>
          let common := commonPrefixChars a2 b2
          if common = [] then none else some common

/-- Merge suffix constraints (the mergeSuffix helper of pattern algebra). -/
def mergeSuffixes (a b : Option Str) (mode : MergeMode) : Option Str :=
  match a, b with
  | none, b2 => if mode = .intersection then b2 else none
  | some a2, none => if mode = .intersection then some a2 else none
  | some a2, some b2 =>
      match mode with
      | .intersection =>
          if b2.isSuffixOf a2 then some a2
          else if a2.isSuffixOf b2 then some b2
          else if b2.length ≤ a2.length then some a2 else some b2
      | .union =>
          let common := (commonPrefixChars a2.reverse b2.reverse).reverse
          if common = [] then none else some common

/-- Merge minimum-length constraints (mergeMinLength). -/
def mergeMinLength (a b : Option Nat) (mode : MergeMode) : Option Nat :=
  match a, b with
  | none, b2 => if mode = .intersection then b2 else none
  | some a2, none => if mode = .intersection then some a2 else none
  | some a2, some b2 =>
      match mode with
      | .intersection => some (max a2 b2)
      | .union => some (min a2 b2)

/-- Deduplicate keeping first occurrences (JavaScript Set insertion order). -/
def dedupFirst (l : List Str) : List Str :=
  l.foldl (fun acc x => if acc.contains x then acc else acc ++ [x]) []

/-- Merge required-literal constraints (mergeLiterals). -/
def mergeLiterals (a b : Option (List Str)) (mode : MergeMode) : Option (List Str) :=
  match a, b with
  | none, b2 => if mode = .intersection then b2 else none
  | some a2, none => if mode = .intersection then some a2 else none
  | some a2, some b2 =>
      match mode with
      | .intersection =>
          let combined := dedupFirst (a2 ++ b2)
          if combined.length > 0 then some combined else none
      | .union =>
          let common := a2.filter (fun lit => b2.contains lit)
          if common.length > 0 then some common else none

/-- Merge quick-reject filters for intersection (AND semantics). -/
def mergeQuickRejectForIntersection (a b : QuickRejectFilter) : QuickRejectFilter :=
  { prefixReq := mergePrefixes a.prefixReq b.prefixReq .intersection
    suffixReq := mergeSuffixes a.suffixReq b.suffixReq .intersection
    minLength := mergeMinLength a.minLength b.minLength .intersection
    requiredLiterals := mergeLiterals a.requiredLiterals b.requiredLiterals .intersection }

/-- Merge quick-reject filters for union (OR semantics). -/
def mergeQuickRejectForUnion (a b : QuickRejectFilter) : QuickRejectFilter :=
  { prefixReq := mergePrefixes a.prefixReq b.prefixReq .union
    suffixReq := mergeSuffixes a.suffixReq b.suffixReq .union
    minLength := mergeMinLength a.minLength b.minLength .union
    requiredLiterals := mergeLiterals a.requiredLiterals b.requiredLiterals .union }

/-- Maximum segments of an intersection (computeIntersectionMaxSegments). -/
def computeIntersectionMaxSegments (a b : Option Nat) : Option Nat :=
  match a, b with
  | none, b2 => b2
  | some a2, none => some a2
  | some a2, some b2 => some (min a2 b2)

/-- Synthetic AST for algebra results (createSyntheticAst): an alternation
node wrapping the operand roots; the operation tag is diagnostic only. -/
def createSyntheticAst (source : Str) (operation : Str)
    (operands : List PathPattern) : PathPattern :=
  let _ := operation
  { source := source
    root := .alternation (operands.map (fun p => p.root))
    isAbsolute := operands.any (fun p => p.isAbsolute)
    isNegation := false
    errors := [] }

/-- Intersection of two compiled patterns (patternIntersect): determinize
both automata, take the product, merge the quick-reject filters and depth
bounds. -/
def patternIntersect (a b : CompiledPattern) : Except AutomatonLimitError CompiledPattern :=
  match (if a.automaton.isDeterministic then .ok a.automaton
         else determinize a.automaton {}) with
  | .error e => .error e
  | .ok dfaA =>
      match (if b.automaton.isDeterministic then .ok b.automaton
             else determinize b.automaton {}) with
      | .error e => .error e
      | .ok dfaB =>
          let automaton := intersect dfaA dfaB
          let source := '(' :: a.source ++ [')', ' ', '∩', ' ', '('] ++ b.source ++ [')']
          let ast := createSyntheticAst source (strL ("intersection")) [a.ast, b.ast]
          let quickReject := mergeQuickRejectForIntersection a.quickReject b.quickReject
          .ok { source := source
                ast := ast
                quickReject := quickReject
                automaton := automaton
                isUnbounded := a.isUnbounded && b.isUnbounded
                minSegments := max a.minSegments b.minSegments
                maxSegments := computeIntersectionMaxSegments a.maxSegments b.maxSegments }

/-- Complement of a compiled pattern (patternComplement): determinize, flip
accepting states; no quick-reject filters and no depth bounds. -/
def patternComplement (a : CompiledPattern) : Except AutomatonLimitError CompiledPattern :=
  match (if a.automaton.isDeterministic then .ok a.automaton
         else determinize a.automaton {}) with
  | .error e => .error e
  | .ok dfa =>
      match complement dfa with
      | .error e => .error e
      | .ok automaton =>
          let source := '¬' :: '(' :: a.source ++ [')']
          let ast := createSyntheticAst source (strL ("complement")) [a.ast]
          .ok { source := source
                ast := ast
                quickReject := {}
                automaton := automaton
                isUnbounded := true
                minSegments := 0
                maxSegments := none }

/-- All target states of a transition (getTransitionTargets in emptiness). -/
def getTransitionTargets : AutomatonTransition → List Nat
  | .literal _ t => [t]
  | .wildcard _ _ t => [t]
  | .epsilon t => [t]
  | .globstar sl e => [sl, e]

/-- Ascending enumeration of a finite set of naturals (every element is at
most the sum, so the range covers the set); the model's canonical iteration
order for state sets. -/
def finsetAsc (s : Finset Nat) : List Nat :=
  (List.range (s.sum id + 1)).filter (fun i => decide (i ∈ s))

/-- Forward-reachability targets of one state. -/
def reachTargetsOfState (a : SegmentAutomaton) (i : Nat) : Finset Nat :=
  match a.states[i]? with
  | some st => ((st.transitions.map getTransitionTargets).flatten).toFinset
  | none => ∅

/-- One step of reachability saturation. -/
def reachStep (a : SegmentAutomaton) (s : Finset Nat) : Finset Nat :=
  s.biUnion (fun i => reachTargetsOfState a i)

/-- Every target mentioned in the automaton; bounds the saturation. -/
def allReachTargets (a : SegmentAutomaton) : Finset Nat :=
  ((a.states.map
    (fun st => (st.transitions.map getTransitionTargets).flatten)).flatten).toFinset

/-- All states reachable from the initial state (findReachableStates). -/
def findReachableStates (a : SegmentAutomaton) : Finset Nat :=
  saturate (reachStep a) ((allReachTargets a).card + 1) {a.initialState}

/-- Check if the automaton's language is empty (isEmpty): no accepting state
id is reachable from the initial state. -/
def isEmpty (a : SegmentAutomaton) : Bool :=
  a.acceptingStates.all (fun id => !(decide (id ∈ findReachableStates a)))

/-- Epsilon closure from a single state (the epsilonClosure helper of the
emptiness module). -/
def epsilonClosureFrom (a : SegmentAutomaton) (startState : Nat) : Finset Nat :=
  epsilonClosure a {startState}

/-- Generate a sample segment intended to match a wildcard
(generateMatchingSample); best effort, not verified against the matcher. -/
def generateMatchingSample (pattern : SegmentMatcher) (patternSource : Str) : Str :=
  if containsSub (strL (".ts")) patternSource then strL ("file.ts")
  else if containsSub (strL (".js")) patternSource then strL ("file.js")
  else if (strL ("*.")).isPrefixOf patternSource then
    strL ("sample") ++ patternSource.drop 1
  else if patternSource.getLast? = some '*' then
    patternSource.dropLast ++ strL ("sample")
  else if patternSource.head? = some '*' then
    strL ("sample") ++ patternSource.drop 1
  else
    match ([strL ("file"), strL ("dir"), strL ("foo"), strL ("bar"),
            strL ("test"), strL ("src"), strL ("index.ts")].find?
        (fun s => mtest pattern s)) with
    | some s => s
    | none => strL ("segment")

/-- One step of the witness search's enqueue fold: extend the accumulator
with the entries contributed by one transition out of the current state. -/
def pushEntries (a : SegmentAutomaton) (visited2 : Finset Nat) (path : List Str)
    (acc : List (Nat × List Str)) (t : AutomatonTransition) : List (Nat × List Str) :=
  match t with
  | .epsilon tgt =>
      if decide (tgt ∈ visited2) then acc else acc ++ [(tgt, path)]
  | .literal seg tgt =>
      if decide (tgt ∈ visited2) then acc else acc ++ [(tgt, path ++ [seg])]
  | .wildcard p psrc tgt =>
      if decide (tgt ∈ visited2) then acc
      else acc ++ [(tgt, path ++ [generateMatchingSample p psrc])]
  | .globstar sl ex =>
      let exits := (finsetAsc (epsilonClosureFrom a ex)).filterMap
        (fun s => if decide (s ∈ visited2) then none else some (s, path))
      let acc2 := acc ++ exits
      if decide (sl ∈ visited2) then acc2
      else acc2 ++ [(sl, path ++ [strL ("x")])]

/-- Breadth-first witness search (the loop of findWitness); the queue is
first-in first-out with its front at the head.  Globstar exit closures are
enqueued in ascending state order (the canonical order of the model). -/
def findWitnessBfs (a : SegmentAutomaton) :
    Nat → List (Nat × List Str) → Finset Nat → Option Str
  | 0, _, _ => none
  | _ + 1, [], _ => none
  | fuel + 1, (stateId, path) :: rest, visited =>
      if decide (stateId ∈ visited) then findWitnessBfs a fuel rest visited
      else
        let visited2 := insert stateId visited
        match a.states[stateId]? with
        | none => findWitnessBfs a fuel rest visited2
        | some st =>
            if st.accepting && path.length > 0 then
              some ('/' :: List.intercalate ['/'] path)
            else
              findWitnessBfs a fuel
                (rest ++ st.transitions.foldl (pushEntries a visited2 path) []) visited2

/-- A size bound used to pick the breadth-first search fuel. -/
def witnessBound (a : SegmentAutomaton) : Nat :=
  a.states.length + (a.states.map (fun st => st.transitions.length)).sum +
    (allReachTargets a).card + 2

/-- Find a witness path accepted by the automaton (findWitness): empty path
when the initial closure is accepting, otherwise breadth-first search over
transitions, synthesizing samples for wildcards. -/
def findWitness (a : SegmentAutomaton) : Option Str :=
  let initialClosure := epsilonClosureFrom a a.initialState
  if decide (∃ s ∈ initialClosure, acceptingAt a s = true) then some ['/']
  else
    let extras := ((finsetAsc initialClosure).filter
      (fun s => s ≠ a.initialState)).map (fun s => (s, ([] : List Str)))
    findWitnessBfs a (witnessBound a * witnessBound a * witnessBound a + 2)
      ((a.initialState, ([] : List Str)) :: extras) ∅

/-- Pattern relationship classification. -/
inductive PatternRelationship where
  | equal
  | subset
  | superset
  | overlapping
  | disjoint
  deriving DecidableEq

/-- Decimal rendering of a natural number. -/
def natToStr (n : Nat) : Str := strL (toString n)

/-- Generate a concrete value matching a segment (generateSegmentValue). -/
def generateSegmentValue (segment : Segment) (variation : Nat) : Str :=
  match segment with
  | .literal v => v
  | .globstar => strL ("subdir")
  | .wildcard pat _ =>
      if (strL (".ts")).isSuffixOf pat then
        strL ("file") ++ natToStr variation ++ strL (".ts")
      else if (strL (".js")).isSuffixOf pat then
        strL ("file") ++ natToStr variation ++ strL (".js")
      else if (strL ("test-")).isPrefixOf pat then
        strL ("test-") ++ natToStr variation
      else strL ("match") ++ natToStr variation
  | .charclass spec =>
      match spec.ranges with
      | r :: _ => [r.rangeStart]
      | [] =>
          match spec.chars with
          | c :: _ => [c]
          | [] => ['x']
  | .composite _ => strL ("composite") ++ natToStr variation

/-- Generate one path variation (generatePathVariation): the first globstar
expands to one-to-three directory segments. -/
def generatePathVariation (segments : List Segment) (variationIndex : Nat) : Str :=
  let folded := segments.foldl (fun acc seg =>
    match seg, acc.2 with
    | .globstar, false =>
        let extraCount := 1 + variationIndex % 3
        (acc.1 ++ (List.range extraCount).map (fun j => strL ("dir") ++ natToStr j), true)
    | s, used =>
        (acc.1 ++ [generateSegmentValue s (if used then 0 else variationIndex)], used))
    (([] : List Str), false)
  '/' :: List.intercalate ['/'] folded.1

/-- Generate sample paths from a segment sequence
(generatePathsFromSequence): the base path plus deduplicated variations. -/
def generatePathsFromSequence (segments : List Segment) (count : Nat) : List Str :=
  let basePath := '/' :: List.intercalate ['/']
    (segments.map (fun s => generateSegmentValue s 0))
  (List.range count).foldl (fun acc i =>
    if i = 0 then acc
    else if count ≤ acc.length then acc
    else
      let v := generatePathVariation segments i
      if acc.contains v then acc else acc ++ [v]) [basePath]

/-- Generate test paths matching a pattern (generateTestPaths); alternation
branches are sequences for all parser output, and other branch shapes
contribute nothing. -/
def generateTestPaths (pattern : CompiledPattern) (count : Nat) : List Str :=
  match pattern.ast.root with
  | .sequence segs => (generatePathsFromSequence segs count).take count
  | .alternation branches =>
      let per := if branches.length = 0 then 0
        else (count + branches.length - 1) / branches.length
      ((branches.map (fun br =>
        match br with
        | .sequence segs => generatePathsFromSequence segs per
        | .alternation _ => [])).flatten).take count

/-- Generate a path of a given depth (generateDeepPath). -/
def generateDeepPath (pattern : CompiledPattern) (depth : Nat) : Str :=
  let segments :=
    match pattern.ast.root with
    | .sequence segs =>
        segs.foldl (fun acc seg =>
          match seg with
          | .globstar =>
              acc ++ (List.range ((depth - 1) - acc.length)).map (fun _ => strL ("deep"))
          | s => acc ++ [generateSegmentValue s 0]) []
    | .alternation _ => []
  let segments2 := segments ++
    (List.range (depth - segments.length)).map (fun _ => strL ("extra"))
  '/' :: List.intercalate ['/'] segments2

/-- Structural containment check (checkContainmentStructural): sample-based
subset tests with the unbounded-depth strengthening. -/
def checkContainmentStructural (a b : CompiledPattern) :
    Bool × Bool × Option Str × Option Str :=
  let aPaths := generateTestPaths a 20
  let bPaths := generateTestPaths b 20
  let cA := aPaths.find? (fun path => !matchPath path b)
  let cB := bPaths.find? (fun path => !matchPath path a)
  let forward : Bool × Option Str :=
    if cA.isNone then
      if a.isUnbounded && !b.isUnbounded then
        (false, some (generateDeepPath a ((b.maxSegments.getD 0) + 1)))
      else (true, none)
    else (false, cA)
  let backward : Bool × Option Str :=
    if cB.isNone then
      if b.isUnbounded && !a.isUnbounded then
        (false, some (generateDeepPath b ((a.maxSegments.getD 0) + 1)))
      else (true, none)
    else (false, cB)
  (forward.1, backward.1, forward.2, backward.2)

/-- Extract base name and extension from a suffix (extractFileInfo). -/
def extractFileInfo (suffix : Str) : Str × Str :=
  if suffix = [] then ([], [])
  else
    match suffix.reverse.findIdx? (fun c => c = '.') with
    | some k =>
        let lastDot := suffix.length - 1 - k
        if lastDot > 0 then (suffix.take lastDot, suffix.drop lastDot)
        else (suffix, [])
    | none => (suffix, [])

/-- Drop a single leading slash. -/
def dropLeadSlash : Str → Str
  | '/' :: r => r
  | r => r

/-- Generate candidate overlap paths mixing both patterns' quick-reject
constraints (generateCombinedPaths). -/
def generateCombinedPaths (a b : CompiledPattern) (count : Nat) : List Str :=
  let aPre := dropLeadSlash (a.quickReject.prefixReq.getD [])
  let bPre := dropLeadSlash (b.quickReject.prefixReq.getD [])
  let aSuf := dropLeadSlash (a.quickReject.suffixReq.getD [])
  let bSuf := dropLeadSlash (b.quickReject.suffixReq.getD [])
  let prefixes0 := [aPre, bPre].filter (fun s => s ≠ [])
  let prefixes := if prefixes0 = [] then [([] : Str)] else prefixes0
  let infoA := extractFileInfo aSuf
  let infoB := extractFileInfo bSuf
  let basenames := ([if infoA.1 = [] then strL ("index") else infoA.1,
    if infoB.1 = [] then strL ("index") else infoB.1,
    strL ("file"), strL ("test")]).filter (fun s => s ≠ [])
  let extensions := ([infoA.2, infoB.2, strL (".ts"), strL (".js")]).filter
    (fun s => s ≠ [])
  let allTriples := (prefixes.map (fun pre =>
    (basenames.map (fun base =>
      extensions.map (fun ext => (pre, base, ext)))).flatten)).flatten
  let paths := allTriples.foldl (fun acc t =>
    if count ≤ acc.length then acc
    else
      let filename := t.2.1 ++ t.2.2
      let path := if t.1 ≠ [] then '/' :: t.1 ++ '/' :: filename else '/' :: filename
      let acc2 := if acc.contains path then acc else acc ++ [path]
      if t.1 ≠ [] then
        let deepPath := '/' :: t.1 ++ strL ("/sub/") ++ filename
        if acc2.contains deepPath then acc2 else acc2 ++ [deepPath]
      else acc2) []
  paths.take count

/-- Do the two patterns overlap on any sampled path (checkHasOverlap)? -/
def checkHasOverlap (a b : CompiledPattern) : Bool :=
  (generateTestPaths a 10).any (fun p => matchPath p b) ||
  (generateTestPaths b 10).any (fun p => matchPath p a) ||
  (generateCombinedPaths a b 10).any (fun p => matchPath p a && matchPath p b)

/-- Containment result; the structured explanation of the source is
diagnostic only and is not modelled. -/
structure ContainmentResult where
  patternA : Str
  patternB : Str
  isSubset : Bool
  isSuperset : Bool
  isEqual : Bool
  hasOverlap : Bool
  relationship : PatternRelationship
  counterexample : Option Str
  reverseCounterexample : Option Str
  deriving DecidableEq

/-- Check containment of two compiled patterns (checkContainment). -/
def checkContainment (a b : CompiledPattern) : ContainmentResult :=
  let s := checkContainmentStructural a b
  let isSubset := s.1
  let isSuperset := s.2.1
  let isEqual := isSubset && isSuperset
  let hasOverlap := checkHasOverlap a b
  let relationship : PatternRelationship :=
    if isEqual then .equal
    else if isSubset then .subset
    else if isSuperset then .superset
    else if !hasOverlap then .disjoint
    else .overlapping
  { patternA := a.source, patternB := b.source,
    isSubset := isSubset, isSuperset := isSuperset, isEqual := isEqual,
    hasOverlap := hasOverlap, relationship := relationship,
    counterexample := s.2.2.1, reverseCounterexample := s.2.2.2 }

/-- A default state used only as a lookup fallback in concrete statements. -/
def emptyState : AutomatonState := { id := 0, transitions := [], accepting := false }

/-- The compiled alternation pattern of the intersection / complement /
determinize counterexamples. -/
def patMix : CompiledPattern := compilePattern (parsePattern (strL ("{a/x,*/y}")))

/-- The compiled match-everything pattern. -/
def patAll : CompiledPattern := compilePattern (parsePattern (strL ("**")))

/-- The pattern intersection of the two patterns above (its construction
succeeds; the error arm is a dummy). -/
def patMixAll : CompiledPattern :=
  match patternIntersect patMix patAll with
  | .ok r => r
  | .error _ => patMix

/-- The pattern complement of the alternation pattern. -/
def patMixComp : CompiledPattern :=
  match patternComplement patMix with
  | .ok r => r
  | .error _ => patMix

/-- The determinized automaton of the alternation pattern. -/
def dfaMix : SegmentAutomaton :=
  match determinize patMix.automaton {} with
  | .ok d => d
  | .error _ => patMix.automaton

/-- Determinized automaton of the single-wildcard pattern star-dot-ts. -/
def dfaStarTs : SegmentAutomaton :=
  match determinize (buildAutomaton (parsePattern (strL ("*.ts")))) {} with
  | .ok d => d
  | .error _ => buildAutomaton (parsePattern (strL ("*.ts")))

/-- Determinized automaton of the literal pattern a.ts. -/
def dfaLitATs : SegmentAutomaton :=
  match determinize (buildAutomaton (parsePattern (strL ("a.ts")))) {} with
  | .ok d => d
  | .error _ => buildAutomaton (parsePattern (strL ("a.ts")))

/-- Product of the two determinized automata above. -/
def prodStarLit : SegmentAutomaton := intersect dfaStarTs dfaLitATs

/-- The NFA of the five-way alternation used by the state-limit scenario. -/
def nfaBrace : SegmentAutomaton :=
  buildAutomaton (parsePattern (strL ("{a,b,c,d,e}/*.ts")))

/-- The compiled globstar pattern of the quick-reject counterexample. -/
def patGlob : CompiledPattern := compilePattern (parsePattern (strL ("a/**")))

/-- Automaton of the wildcard pattern whose synthesized witness is bogus. -/
def autZQ : SegmentAutomaton := (compilePattern (parsePattern (strL ("z*q")))).automaton

/-- Automaton of a two-literal pattern (an honest witness input). -/
def autLitAB : SegmentAutomaton := (compilePattern (parsePattern (strL ("a/b")))).automaton

/-- An automaton with an empty language (no accepting states at all). -/
def autEmptyLang : SegmentAutomaton :=
  { states := [{ id := 0, transitions := [], accepting := false }],
    initialState := 0, acceptingStates := [], isDeterministic := false }

/-- The containment result of the subset scenario. -/
def cont9 : ContainmentResult :=
  checkContainment (compilePattern (parsePattern (strL ("src/index.ts"))))
    (compilePattern (parsePattern (strL ("src/*.ts"))))

/-- A small automaton already flagged deterministic. -/
def autDetSmall : SegmentAutomaton :=
  { states := [{ id := 0, transitions := [.literal (strL ("a")) 1], accepting := false },
               { id := 1, transitions := [], accepting := true }],
    initialState := 0, acceptingStates := [1], isDeterministic := true }

/-- Is a transition a wildcard transition? -/
def isWildcardTrans : AutomatonTransition → Bool
  | .wildcard _ _ _ => true
  | _ => false

/-- The root is a sequence without globstars, or an alternation (whose
quick-reject filter is empty). -/
def rootGlobstarFree (p : PathPattern) : Bool :=
  match p.root with
  | .sequence segs => segs.all (fun s => !isGlobstarSeg s)
  | .alternation _ => true

/-- A well-formed path segment: non-empty and slash-free. -/
abbrev goodSeg (s : Str) : Prop := s ≠ [] ∧ '/' ∉ s

/-- All literal transition labels of the automaton are well-formed path
segments. -/
def litSegsWellFormed (a : SegmentAutomaton) : Prop :=
  ∀ st ∈ a.states, ∀ t ∈ st.transitions, ∀ seg tgt,
    t = AutomatonTransition.literal seg tgt → goodSeg seg

/-- The automaton has no wildcard transitions. -/
def noWildcardTrans (a : SegmentAutomaton) : Prop :=
  ∀ st ∈ a.states, ∀ t ∈ st.transitions, ¬isWildcardTrans t = true

/-- The accepting-state id list covers every state whose accepting bit is
set (the declared invariant tying the two representations together). -/
def acceptingConsistent (a : SegmentAutomaton) : Prop :=
  ∀ i st, a.states[i]? = some st → st.accepting = true → i ∈ a.acceptingStates

/-- Executable sufficient check for acceptingConsistent. -/
def accConsB (a : SegmentAutomaton) : Bool :=
  (List.range a.states.length).all (fun i =>
    match a.states[i]? with
    | some st => !st.accepting || a.acceptingStates.contains i
    | none => true)

/-- Executable check for noWildcardTrans. -/
def noWildB (a : SegmentAutomaton) : Bool :=
  a.states.all (fun st => st.transitions.all (fun t => !isWildcardTrans t))

/-- Executable check for litSegsWellFormed. -/
def litSegsOkB (a : SegmentAutomaton) : Bool :=
  a.states.all (fun st => st.transitions.all (fun t =>
    match t with
    | .literal seg _ => !decide (seg = []) && !seg.contains '/'
    | _ => true))

/-- Append a list of transitions to a state; addTransition generalized to a
batch, the unit used by the builder's closed form. -/
def addEdge (b : Builder) (i : Nat) (es : List AutomatonTransition) : Builder :=
  match b[i]? with
  | some st => b.set i { st with transitions := st.transitions ++ es }
  | none => b

/-- The transitions buildSegmentAutomaton adds from the current state for one
segment (none when the segment yields no regex). -/
def edgeT (startState endState : Nat) : Segment → List AutomatonTransition
  | .literal v => [.literal v endState]
  | .globstar => [.globstar startState endState]
  | seg =>
      match segmentToRegex seg with
      | some rx =>
          [.wildcard (.rx rx)
            (match seg with | .wildcard p _ => p | _ => []) endState]
      | none => []

/-- The intermediate states buildSeqGo appends for the remaining segments of
a sequence: state L + j carries the edge of the j-th remaining segment and
feeds the next intermediate state, the last one the end state. -/
def chainTail (L endState : Nat) : List Segment → List AutomatonState
  | [] => []
  | g :: rest =>
      { id := L,
        transitions := edgeT L (if rest.isEmpty then endState else L + 1) g,
        accepting := false } :: chainTail (L + 1) endState rest

/-- Closed form of buildAutomaton on a non-empty segment sequence: a chain
from state 0 through states 2, 3, ... into the accepting state 1. -/
def chainAut (g : Segment) (gs : List Segment) : SegmentAutomaton :=
  { states :=
      { id := 0, transitions := edgeT 0 (if gs.isEmpty then 1 else 2) g,
        accepting := false } ::
      { id := 1, transitions := [], accepting := true } ::
      chainTail 2 1 gs,
    initialState := 0, acceptingStates := [1], isDeterministic := false }

/-- The chain state holding position i of an n-segment sequence. -/
def statePos (n i : Nat) : Nat :=
  if i = 0 then 0 else if i = n then 1 else i + 1

/-- Acceptance test of the single transition built for one sequence segment:
exact comparison for literals, the generated regex otherwise. -/
def segMatchE (p : Segment) (s : Str) : Bool :=
  match p with
  | .literal v => decide (v = s)
  | .globstar => true
  | p =>
      match segmentToRegex p with
      | some rx => rxTest rx s
      | none => false

/-- Minimum number of characters one regex atom must consume. -/
def atomMin : RxAtom → Nat
  | .lit v => v.length
  | .dot => 1
  | .star => 0
  | .plusDot => 1
  | .cls _ => 1

/-- Minimum length of a string accepted by a generated regex. -/
def rxMinLen (r : Rx) : Nat := (r.map atomMin).sum

/-- Minimum characters one wildcard part must consume. -/
def wildPartMin : WildcardPart → Nat
  | .literal v => v.length
  | .question => 1
  | .star => 0

/-- Minimum characters one composite part must consume. -/
def compPartMin : SegmentPart → Nat
  | .literal v => v.length
  | .question => 1
  | .charclass _ => 1
  | .star => 0

/-- The state set of the set simulation after consuming a segment list,
starting from an arbitrary current set. -/
def runFrom (a : SegmentAutomaton) (cur : Finset Nat) (segs : List Str) : Finset Nat :=
  segs.foldl (nfaStep a) cur

/-- The simulation state set reached from the initial closure. -/
def runNFA (a : SegmentAutomaton) (segs : List Str) : Finset Nat :=
  runFrom a (epsilonClosure a {a.initialState}) segs

/-! Saturation theory: the worklist closures are modelled as bounded
iteration of a growth step; these lemmas show the result contains the seed,
is closed under the step, and is minimal among closed supersets. -/

theorem saturate_supset (f : Finset Nat → Finset Nat) :
    ∀ (n : Nat) (s : Finset Nat), s ⊆ saturate f n s := by
  intro n
  induction n with
  | zero => intro s; exact fun x hx => hx
  | succ n ih =>
      intro s
      exact fun x hx => ih (s ∪ f s) (Finset.mem_union_left _ hx)

theorem saturate_succ_out (f : Finset Nat → Finset Nat) :
    ∀ (n : Nat) (s : Finset Nat),
      saturate f (n + 1) s = saturate f n s ∪ f (saturate f n s) := by
  intro n
  induction n with
  | zero => intro s; rfl
  | succ n ih =>
      intro s
      show saturate f (n + 1) (s ∪ f s) = _
      rw [ih (s ∪ f s)]
      rfl

theorem saturate_mono_step (f : Finset Nat → Finset Nat) (n : Nat) (s : Finset Nat) :
    saturate f n s ⊆ saturate f (n + 1) s := by
  rw [saturate_succ_out]
  exact Finset.subset_union_left

theorem saturate_stable (f : Finset Nat → Finset Nat) (s : Finset Nat) (k : Nat)
    (hk : f (saturate f k s) ⊆ saturate f k s) :
    ∀ m, k ≤ m → saturate f m s = saturate f k s := by
  intro m hm
  induction m with
  | zero => cases Nat.le_zero.mp hm; rfl
  | succ m ih =>
      rcases Nat.lt_or_ge k (m + 1) with h | h
      · have hkm : k ≤ m := Nat.lt_succ_iff.mp h
        rw [saturate_succ_out, ih hkm, Finset.union_eq_left.mpr hk]
      · have : k = m + 1 := Nat.le_antisymm hm h
        rw [this]

theorem saturate_reaches_fixpoint (f : Finset Nat → Finset Nat) (T : Finset Nat)
    (hbound : ∀ x, f x ⊆ T) (s : Finset Nat) :
    ∃ k, k ≤ T.card ∧ saturate f k s = saturate f (k + 1) s := by
  by_contra hnone
  push_neg at hnone
  have grow : ∀ k, k ≤ T.card + 1 → k ≤ ((saturate f k s) ∩ T).card := by
    intro k
    induction k with
    | zero => intro _; exact Nat.zero_le _
    | succ k ih =>
        intro hk
        have hk' : k ≤ T.card := Nat.lt_succ_iff.mp (Nat.lt_of_lt_of_le (Nat.lt_succ_self k) hk)
        have hne := hnone k hk'
        have hsub : saturate f k s ⊆ saturate f (k + 1) s := saturate_mono_step f k s
        have hss : saturate f k s ⊂ saturate f (k + 1) s :=
          Finset.ssubset_iff_subset_ne.mpr ⟨hsub, hne⟩
        obtain ⟨x, hxin, hxout⟩ := Finset.exists_of_ssubset hss
        have hxT : x ∈ T := by
          rw [saturate_succ_out] at hxin
          rcases Finset.mem_union.mp hxin with h | h
          · exact absurd h hxout
          · exact hbound _ h
        have hss2 : (saturate f k s) ∩ T ⊂ (saturate f (k + 1) s) ∩ T := by
          refine Finset.ssubset_iff_subset_ne.mpr ⟨Finset.inter_subset_inter hsub (fun y hy => hy), ?_⟩
          intro heq
          have : x ∈ (saturate f k s) ∩ T := by
            rw [heq]; exact Finset.mem_inter.mpr ⟨hxin, hxT⟩
          exact hxout (Finset.mem_inter.mp this).1
        have := Finset.card_lt_card hss2
        have hik := ih (Nat.le_of_succ_le hk)
        omega
  have h1 := grow (T.card + 1) (Nat.le_refl _)
  have h2 : ((saturate f (T.card + 1) s) ∩ T).card ≤ T.card :=
    Finset.card_le_card (Finset.inter_subset_right)
  omega

theorem saturate_closed (f : Finset Nat → Finset Nat) (T : Finset Nat)
    (hbound : ∀ x, f x ⊆ T) (s : Finset Nat) :
    f (saturate f (T.card + 1) s) ⊆ saturate f (T.card + 1) s := by
  obtain ⟨k, hk, heq⟩ := saturate_reaches_fixpoint f T hbound s
  have hclosed : f (saturate f k s) ⊆ saturate f k s := by
    intro x hx
    have hx2 : x ∈ saturate f (k + 1) s := by
      rw [saturate_succ_out]
      exact Finset.mem_union_right _ hx
    rwa [← heq] at hx2
  have hfix := saturate_stable f s k hclosed (T.card + 1) (Nat.le_succ_of_le hk)
  rw [hfix]
  exact hclosed

theorem saturate_min (f : Finset Nat → Finset Nat)
    (hmono : ∀ x y, x ⊆ y → f x ⊆ f y) (c : Finset Nat) (hc : f c ⊆ c) :
    ∀ (n : Nat) (s : Finset Nat), s ⊆ c → saturate f n s ⊆ c := by
  intro n
  induction n with
  | zero => intro s hs; exact hs
  | succ n ih =>
      intro s hs
      exact ih (s ∪ f s) (Finset.union_subset hs (Finset.Subset.trans (hmono s c hs) hc))

/-! Closure instances of the saturation theory. -/

theorem epsTargetsOfState_subset (a : SegmentAutomaton) (i : Nat) :
    epsTargetsOfState a i ⊆ allEpsTargets a := by
  unfold epsTargetsOfState allEpsTargets
  cases h : a.states[i]? with
  | none => intro x hx; simp at hx
  | some st =>
      intro x hx
      rw [List.mem_toFinset] at hx ⊢
      rw [List.mem_flatten]
      refine ⟨(st.transitions.map epsTargetsOfTransition).flatten, ?_, hx⟩
      exact List.mem_map_of_mem _ (List.getElem?_mem h)

theorem epsStep_mono (a : SegmentAutomaton) :
    ∀ x y, x ⊆ y → epsStep a x ⊆ epsStep a y := by
  intro x y hxy
  exact Finset.biUnion_subset_biUnion_of_subset_left _ hxy

theorem epsStep_bound (a : SegmentAutomaton) :
    ∀ x, epsStep a x ⊆ allEpsTargets a := by
  intro x
  exact Finset.biUnion_subset.mpr (fun i _ => epsTargetsOfState_subset a i)

theorem subset_epsilonClosure (a : SegmentAutomaton) (s : Finset Nat) :
    s ⊆ epsilonClosure a s :=
  saturate_supset _ _ s

theorem epsilonClosure_closed (a : SegmentAutomaton) (s : Finset Nat) :
    epsStep a (epsilonClosure a s) ⊆ epsilonClosure a s :=
  saturate_closed _ (allEpsTargets a) (epsStep_bound a) s

theorem epsilonClosure_min (a : SegmentAutomaton) (c : Finset Nat)
    (hc : epsStep a c ⊆ c) (s : Finset Nat) (hs : s ⊆ c) :
    epsilonClosure a s ⊆ c :=
  saturate_min _ (epsStep_mono a) c hc _ s hs

theorem reachTargetsOfState_subset (a : SegmentAutomaton) (i : Nat) :
    reachTargetsOfState a i ⊆ allReachTargets a := by
  unfold reachTargetsOfState allReachTargets
  cases h : a.states[i]? with
  | none => intro x hx; simp at hx
  | some st =>
      intro x hx
      rw [List.mem_toFinset] at hx ⊢
      rw [List.mem_flatten]
      refine ⟨(st.transitions.map getTransitionTargets).flatten, ?_, hx⟩
      exact List.mem_map_of_mem _ (List.getElem?_mem h)

theorem reachStep_mono (a : SegmentAutomaton) :
    ∀ x y, x ⊆ y → reachStep a x ⊆ reachStep a y := by
  intro x y hxy
  exact Finset.biUnion_subset_biUnion_of_subset_left _ hxy

theorem reachStep_bound (a : SegmentAutomaton) :
    ∀ x, reachStep a x ⊆ allReachTargets a := by
  intro x
  exact Finset.biUnion_subset.mpr (fun i _ => reachTargetsOfState_subset a i)

theorem initial_mem_findReachableStates (a : SegmentAutomaton) :
    a.initialState ∈ findReachableStates a :=
  saturate_supset _ _ {a.initialState} (Finset.mem_singleton_self _)

theorem findReachableStates_closed (a : SegmentAutomaton) :
    reachStep a (findReachableStates a) ⊆ findReachableStates a :=
  saturate_closed _ (allReachTargets a) (reachStep_bound a) _

theorem epsTargetsOfTransition_subset (t : AutomatonTransition) :
    ∀ x ∈ epsTargetsOfTransition t, x ∈ getTransitionTargets t := by
  intro x hx
  cases t <;> simp [epsTargetsOfTransition, getTransitionTargets] at hx ⊢ <;> simp [hx]

theorem epsTargetsOfState_subset_reach (a : SegmentAutomaton) (i : Nat) :
    epsTargetsOfState a i ⊆ reachTargetsOfState a i := by
  unfold epsTargetsOfState reachTargetsOfState
  cases h : a.states[i]? with
  | none => intro x hx; simp at hx
  | some st =>
      intro x hx
      rw [List.mem_toFinset] at hx ⊢
      rw [List.mem_flatten] at hx ⊢
      obtain ⟨l, hl, hxl⟩ := hx
      obtain ⟨t, ht, rfl⟩ := List.mem_map.mp hl
      exact ⟨getTransitionTargets t, List.mem_map_of_mem _ ht,
        epsTargetsOfTransition_subset t x hxl⟩

theorem epsStep_subset_reachStep (a : SegmentAutomaton) (s : Finset Nat) :
    epsStep a s ⊆ reachStep a s := by
  intro x hx
  rw [epsStep, Finset.mem_biUnion] at hx
  obtain ⟨i, hi, hxi⟩ := hx
  rw [reachStep, Finset.mem_biUnion]
  exact ⟨i, hi, epsTargetsOfState_subset_reach a i hxi⟩

theorem findReachableStates_epsClosed (a : SegmentAutomaton) :
    epsStep a (findReachableStates a) ⊆ findReachableStates a :=
  Finset.Subset.trans (epsStep_subset_reachStep a _) (findReachableStates_closed a)

/-! Completion lemmas and claim C10. -/

theorem makeComplete_states_eq (dfa : SegmentAutomaton) :
    (makeComplete dfa).states =
      dfa.states.map (fun st =>
        if hasCatchAll st then st
        else { st with transitions := st.transitions ++
          [.wildcard (.rx [.star]) (strL ("*")) dfa.states.length] }) ++
      [{ id := dfa.states.length, accepting := false,
         transitions := [.wildcard (.rx [.star]) (strL ("*")) dfa.states.length] }] := rfl

theorem makeComplete_length (dfa : SegmentAutomaton) :
    (makeComplete dfa).states.length = dfa.states.length + 1 := by
  rw [makeComplete_states_eq]
  simp

theorem makeComplete_preserves (dfa : SegmentAutomaton) (i : Nat) (st0 : AutomatonState)
    (h : dfa.states[i]? = some st0) :
    ∃ st1, (makeComplete dfa).states[i]? = some st1 ∧
      st1.id = st0.id ∧ st1.accepting = st0.accepting ∧
      ∃ extra, st1.transitions = st0.transitions ++ extra := by
  have hi : i < dfa.states.length := by
    by_contra hge
    rw [List.getElem?_eq_none (Nat.le_of_not_lt hge)] at h
    exact Option.noConfusion h
  rw [makeComplete_states_eq]
  have hlen : i < (dfa.states.map (fun st =>
      if hasCatchAll st then st
      else { st with transitions := st.transitions ++
        [.wildcard (.rx [.star]) (strL ("*")) dfa.states.length] })).length := by
    simpa using hi
  rw [List.getElem?_append_left hlen, List.getElem?_map, h]
  by_cases hc : hasCatchAll st0
  · refine ⟨st0, ?_, rfl, rfl, [], by simp⟩
    simp [hc]
  · refine ⟨{ st0 with transitions := st0.transitions ++
        [.wildcard (.rx [.star]) (strL ("*")) dfa.states.length] }, ?_, rfl, rfl,
      [.wildcard (.rx [.star]) (strL ("*")) dfa.states.length], rfl⟩
    simp [hc]

/-- Claim C10: for an input whose isDeterministic flag is already set,
determinize skips subset construction and only completes the automaton: it
never consults the state cap (so it never raises the DFA state limit for
any options value), returns one added sink state, and preserves the
existing states' ids, accepting bits and transitions (each state keeps its
transition list, possibly extended by the completion catch-all). -/
theorem claim_C10_deterministic_passthrough (nfa : SegmentAutomaton)
    (opts : DeterminizeOptions) (hdet : nfa.isDeterministic = true) :
    determinize nfa opts = Except.ok (makeComplete nfa) ∧
    (makeComplete nfa).states.length = nfa.states.length + 1 ∧
    (∀ (i : Nat) (st0 : AutomatonState), nfa.states[i]? = some st0 →
      ∃ st1 : AutomatonState, (makeComplete nfa).states[i]? = some st1 ∧
        st1.id = st0.id ∧ st1.accepting = st0.accepting ∧
        ∃ extra, st1.transitions = st0.transitions ++ extra) ∧
    (makeComplete nfa).initialState = nfa.initialState ∧
    (makeComplete nfa).acceptingStates = nfa.acceptingStates := by
  refine ⟨?_, makeComplete_length nfa, ?_, rfl, rfl⟩
  · unfold determinize
    rw [hdet]
    simp
  · intro i st0 h
    exact makeComplete_preserves nfa i st0 h

/-- Witness for claim C10 at a concrete deterministic automaton, with a
cap smaller than the state count: no error is raised. -/
theorem claim_C10_witness :
    determinize autDetSmall { maxStates := some 0 } =
      Except.ok (makeComplete autDetSmall) :=
  (claim_C10_deterministic_passthrough autDetSmall { maxStates := some 0 } rfl).1

/-! State-limit error lemmas and claim C6. -/

theorem getOrCreateState_error_shape (maxStates : Nat) (nfa : SegmentAutomaton)
    (ds : DetState) (nset : Finset Nat) (e : AutomatonLimitError)
    (hinv : ds.dfaStates.length ≤ maxStates)
    (h : getOrCreateState maxStates nfa ds nset = .error e) :
    e.code = strL ("DFA_STATE_LIMIT") ∧ e.limit = maxStates ∧ e.actual = maxStates + 1 := by
  unfold getOrCreateState at h
  split at h
  · simp at h
  · split at h
    next hc =>
      have he := (Except.error.injEq _ _).mp h
      subst he
      refine ⟨rfl, rfl, ?_⟩
      have heq : ds.dfaStates.length = maxStates := Nat.le_antisymm hinv hc
      simp [heq]
    next hc => simp at h

theorem getOrCreateState_ok_inv (maxStates : Nat) (nfa : SegmentAutomaton)
    (ds : DetState) (nset : Finset Nat) (r : Nat × DetState)
    (hinv : ds.dfaStates.length ≤ maxStates)
    (h : getOrCreateState maxStates nfa ds nset = .ok r) :
    r.2.dfaStates.length ≤ maxStates := by
  unfold getOrCreateState at h
  split at h
  · have he := (Except.ok.injEq _ _).mp h
    subst he
    exact hinv
  · split at h
    next hc => simp at h
    next hc =>
      have he := (Except.ok.injEq _ _).mp h
      subst he
      simp only [List.length_append, List.length_cons, List.length_nil]
      omega

theorem processSymbols_error_shape (maxStates : Nat) (nfa : SegmentAutomaton)
    (nset : Finset Nat) (processed : Finset Nat) :
    ∀ (syms : List AlphabetSymbol) (ds : DetState)
      (transitions : List AutomatonTransition) (pushes : List (Nat × Finset Nat))
      (e : AutomatonLimitError),
      ds.dfaStates.length ≤ maxStates →
      processSymbols maxStates nfa nset processed syms ds transitions pushes = .error e →
      e.code = strL ("DFA_STATE_LIMIT") ∧ e.limit = maxStates ∧ e.actual = maxStates + 1 := by
  intro syms
  induction syms with
  | nil => intro ds transitions pushes e _ h; simp [processSymbols] at h
  | cons symbol rest ih =>
      intro ds transitions pushes e hinv h
      unfold processSymbols at h
      split at h
      · exact ih ds transitions pushes e hinv h
      · split at h
        next e2 hg =>
          have he := (Except.error.injEq _ _).mp h
          subst he
          exact getOrCreateState_error_shape maxStates nfa ds _ _ hinv hg
        next tgt ds2 hg =>
          exact ih ds2 _ _ e
            (getOrCreateState_ok_inv maxStates nfa ds _ (tgt, ds2) hinv hg) h

theorem processSymbols_ok_inv (maxStates : Nat) (nfa : SegmentAutomaton)
    (nset : Finset Nat) (processed : Finset Nat) :
    ∀ (syms : List AlphabetSymbol) (ds : DetState)
      (transitions : List AutomatonTransition) (pushes : List (Nat × Finset Nat))
      (r : DetState × List AutomatonTransition × List (Nat × Finset Nat)),
      ds.dfaStates.length ≤ maxStates →
      processSymbols maxStates nfa nset processed syms ds transitions pushes = .ok r →
      r.1.dfaStates.length ≤ maxStates := by
  intro syms
  induction syms with
  | nil =>
      intro ds transitions pushes r hinv h
      simp only [processSymbols] at h
      have he := (Except.ok.injEq _ _).mp h
      subst he
      exact hinv
  | cons symbol rest ih =>
      intro ds transitions pushes r hinv h
      unfold processSymbols at h
      split at h
      · exact ih ds transitions pushes r hinv h
      · split at h
        next e2 hg => simp at h
        next tgt ds2 hg =>
          exact ih ds2 _ _ r
            (getOrCreateState_ok_inv maxStates nfa ds _ (tgt, ds2) hinv hg) h

theorem processAny_error_shape (maxStates : Nat) (nfa : SegmentAutomaton)
    (nset processed : Finset Nat) (ds : DetState)
    (transitions : List AutomatonTransition) (pushes : List (Nat × Finset Nat))
    (e : AutomatonLimitError)
    (hinv : ds.dfaStates.length ≤ maxStates)
    (h : processAny maxStates nfa nset processed ds transitions pushes = .error e) :
    e.code = strL ("DFA_STATE_LIMIT") ∧ e.limit = maxStates ∧ e.actual = maxStates + 1 := by
  unfold processAny at h
  split at h
  · simp at h
  · split at h
    next e2 hg =>
      have he := (Except.error.injEq _ _).mp h
      subst he
      exact getOrCreateState_error_shape maxStates nfa ds _ _ hinv hg
    next tgt ds3 hg => simp at h

theorem processAny_ok_inv (maxStates : Nat) (nfa : SegmentAutomaton)
    (nset processed : Finset Nat) (ds : DetState)
    (transitions : List AutomatonTransition) (pushes : List (Nat × Finset Nat))
    (r : DetState × List AutomatonTransition × List (Nat × Finset Nat))
    (hinv : ds.dfaStates.length ≤ maxStates)
    (h : processAny maxStates nfa nset processed ds transitions pushes = .ok r) :
    r.1.dfaStates.length ≤ maxStates := by
  unfold processAny at h
  split at h
  · have he := (Except.ok.injEq _ _).mp h
    subst he
    exact hinv
  · split at h
    next e2 hg => simp at h
    next tgt ds3 hg =>
      have he := (Except.ok.injEq _ _).mp h
      subst he
      exact getOrCreateState_ok_inv maxStates nfa ds _ (tgt, ds3) hinv hg

theorem setStateTransitions_length (states : List AutomatonState) (i : Nat)
    (transitions : List AutomatonTransition) :
    (setStateTransitions states i transitions).length = states.length := by
  unfold setStateTransitions
  split
  · exact List.length_set states i _
  · rfl

theorem determinizeLoop_error_shape (maxStates : Nat) (nfa : SegmentAutomaton)
    (alphabet : List AlphabetSymbol) :
    ∀ (fuel : Nat) (worklist : List (Nat × Finset Nat)) (processed : Finset Nat)
      (ds : DetState) (e : AutomatonLimitError),
      ds.dfaStates.length ≤ maxStates →
      determinizeLoop maxStates nfa alphabet fuel worklist processed ds = .error e →
      e.code = strL ("DFA_STATE_LIMIT") ∧ e.limit = maxStates ∧ e.actual = maxStates + 1 := by
  intro fuel
  induction fuel with
  | zero => intro worklist processed ds e _ h; simp [determinizeLoop] at h
  | succ fuel ih =>
      intro worklist processed ds e hinv h
      match worklist with
      | [] => simp [determinizeLoop] at h
      | (dfaStateId, nfaStateSet) :: rest =>
          unfold determinizeLoop at h
          split at h
          · exact ih rest processed ds e hinv h
          · split at h
            next e2 hps =>
              have he := (Except.error.injEq _ _).mp h
              subst he
              exact processSymbols_error_shape maxStates nfa nfaStateSet _ alphabet ds [] [] _ hinv hps
            next ds2 transitions pushes hps =>
              have hinv2 : ds2.dfaStates.length ≤ maxStates :=
                processSymbols_ok_inv maxStates nfa nfaStateSet _ alphabet ds [] []
                  (ds2, transitions, pushes) hinv hps
              split at h
              next e2 hpa =>
                have he := (Except.error.injEq _ _).mp h
                subst he
                exact processAny_error_shape maxStates nfa nfaStateSet _ ds2 transitions pushes _ hinv2 hpa
              next ds4 transitions4 pushes4 hpa =>
                have hinv4 : ds4.dfaStates.length ≤ maxStates :=
                  processAny_ok_inv maxStates nfa nfaStateSet _ ds2 transitions pushes
                    (ds4, transitions4, pushes4) hinv2 hpa
                refine ih _ _ _ e ?_ h
                simpa [setStateTransitions_length] using hinv4

/-- Claim C6 (general part): whenever determinize fails, the error carries
the DFA state limit code, the configured cap as its limit field, and one
more than the cap as its attempted count. -/
theorem determinize_error_shape (nfa : SegmentAutomaton) (opts : DeterminizeOptions)
    (e : AutomatonLimitError) (h : determinize nfa opts = .error e) :
    e.code = strL ("DFA_STATE_LIMIT") ∧
    e.limit = opts.maxStates.getD DEFAULT_MAX_DFA_STATES ∧
    e.actual = e.limit + 1 ∧ e.limit < e.actual := by
  unfold determinize at h
  split at h
  · simp at h
  · split at h
    next e2 hg =>
      have he := (Except.error.injEq _ _).mp h
      subst he
      have := getOrCreateState_error_shape (opts.maxStates.getD DEFAULT_MAX_DFA_STATES) nfa
        { stateSetMap := [], dfaStates := [] } _ _ (by simp) hg
      exact ⟨this.1, this.2.1, by omega, by omega⟩
    next initId ds0 hg =>
      split at h
      next e2 hl =>
        have he := (Except.error.injEq _ _).mp h
        subst he
        have hinv : ds0.dfaStates.length ≤ opts.maxStates.getD DEFAULT_MAX_DFA_STATES :=
          getOrCreateState_ok_inv _ nfa { stateSetMap := [], dfaStates := [] } _
            (initId, ds0) (by simp) hg
        have := determinizeLoop_error_shape _ nfa _ _ _ _ _ _ hinv hl
        exact ⟨this.1, this.2.1, by omega, by omega⟩
      next ds hl => simp at h

/-- Claim C6: if subset construction would exceed the configured maxStates
cap, determinize fails with a distinguished DFA state limit error whose
limit field is the configured cap and whose actual field is the attempted
count, one past and hence exceeding the cap; in particular, determinizing
the five-way alternation pattern with a cap of two raises this error with
limit two and actual three. -/
theorem claim_C6_state_limit :
    (∀ (nfa : SegmentAutomaton) (opts : DeterminizeOptions) (e : AutomatonLimitError),
        determinize nfa opts = .error e →
        e.code = strL ("DFA_STATE_LIMIT") ∧
        e.limit = opts.maxStates.getD DEFAULT_MAX_DFA_STATES ∧
        e.actual = e.limit + 1 ∧ e.limit < e.actual) ∧
    determinize nfaBrace { maxStates := some 2 } =
      .error { code := strL ("DFA_STATE_LIMIT"), limit := 2, actual := 3 } := by
  refine ⟨determinize_error_shape, ?_⟩
  rfl

/-- Witness for claim C6 at the concrete five-way alternation input. -/
theorem claim_C6_witness :
    ({ code := strL ("DFA_STATE_LIMIT"), limit := 2, actual := 3 } :
        AutomatonLimitError).code = strL ("DFA_STATE_LIMIT") ∧
    ({ code := strL ("DFA_STATE_LIMIT"), limit := 2, actual := 3 } :
        AutomatonLimitError).limit =
      ({ maxStates := some 2 } : DeterminizeOptions).maxStates.getD DEFAULT_MAX_DFA_STATES ∧
    ({ code := strL ("DFA_STATE_LIMIT"), limit := 2, actual := 3 } :
        AutomatonLimitError).actual =
      ({ code := strL ("DFA_STATE_LIMIT"), limit := 2, actual := 3 } :
        AutomatonLimitError).limit + 1 ∧
    ({ code := strL ("DFA_STATE_LIMIT"), limit := 2, actual := 3 } :
        AutomatonLimitError).limit <
      ({ code := strL ("DFA_STATE_LIMIT"), limit := 2, actual := 3 } :
        AutomatonLimitError).actual :=
  claim_C6_state_limit.1 nfaBrace { maxStates := some 2 } _ claim_C6_state_limit.2

/-! Catch-all wildcard semantics and claim C5. -/

theorem escapeRegex_cons (c : Char) (cs : Str) :
    escapeRegex (c :: cs) =
      (if isRegexSpecial c then ['\\', c] else [c]) ++ escapeRegex cs := by
  simp [escapeRegex]

theorem escapeRegex_eq_nil (v : Str) (h : escapeRegex v = []) : v = [] := by
  cases v with
  | nil => rfl
  | cons a as =>
      rw [escapeRegex_cons] at h
      by_cases hs : isRegexSpecial a
      · rw [if_pos hs] at h; simp at h
      · rw [if_neg hs] at h; simp at h

theorem dotSuffixes_nil_mem (s : Str) (hs : ∀ c ∈ s, isDotChar c = true) :
    ([] : Str) ∈ dotSuffixes s := by
  induction s with
  | nil => simp [dotSuffixes]
  | cons c cs ih =>
      have hc := hs c (by simp)
      rw [dotSuffixes, if_pos hc]
      exact List.mem_cons_of_mem _ (ih (fun d hd => hs d (List.mem_cons_of_mem _ hd)))

theorem rxTest_dotstar (seg : Str) (hseg : ∀ c ∈ seg, isDotChar c = true) :
    rxTest [RxAtom.star] seg = true := by
  rw [rxTest, List.any_eq_true]
  exact ⟨[], dotSuffixes_nil_mem seg hseg, rfl⟩

theorem renderFlat_nil_accepts (r : Rx) (h : (r.map renderAtom).flatten = []) :
    rxTest r [] = true := by
  induction r with
  | nil => rfl
  | cons atom rest ih =>
      rw [List.map_cons, List.flatten_cons, List.append_eq_nil] at h
      obtain ⟨h1, h2⟩ := h
      match atom with
      | .lit v =>
          have hv : v = [] := escapeRegex_eq_nil v h1
          subst hv
          rw [rxTest]
          simp only [List.isPrefixOf, Bool.true_and]
          simpa using ih h2
      | .dot => simp [renderAtom] at h1
      | .star => simp [renderAtom] at h1
      | .plusDot => simp [renderAtom] at h1
      | .cls spec => simp [renderAtom, renderCls] at h1

theorem renderFlat_ne_star (r : Rx) :
    ¬((r.map renderAtom).flatten = ['*']) := by
  induction r with
  | nil => simp
  | cons atom rest ih =>
      intro h
      rw [List.map_cons, List.flatten_cons] at h
      match atom with
      | .lit v =>
          cases v with
          | nil =>
              refine ih ?_
              simpa [renderAtom, escapeRegex] using h
          | cons a as =>
              rw [show renderAtom (.lit (a :: as)) = escapeRegex (a :: as) from rfl,
                escapeRegex_cons] at h
              by_cases hs : isRegexSpecial a
              · rw [if_pos hs] at h
                simp only [List.cons_append, List.append_assoc] at h
                have := (List.cons.injEq _ _ _ _).mp h
                exact absurd this.1 (by decide)
              · rw [if_neg hs] at h
                simp only [List.cons_append, List.nil_append] at h
                have := (List.cons.injEq _ _ _ _).mp h
                rw [this.1] at hs
                exact hs (by decide)
      | .dot =>
          simp only [renderAtom, List.cons_append, List.nil_append] at h
          have := (List.cons.injEq _ _ _ _).mp h
          exact absurd this.1 (by decide)
      | .star =>
          simp only [renderAtom, List.cons_append, List.nil_append] at h
          have := (List.cons.injEq _ _ _ _).mp h
          exact absurd this.1 (by decide)
      | .plusDot =>
          simp only [renderAtom, List.cons_append, List.nil_append] at h
          have := (List.cons.injEq _ _ _ _).mp h
          exact absurd this.1 (by decide)
      | .cls spec =>
          simp only [renderAtom, renderCls, List.cons_append, List.nil_append] at h
          have := (List.cons.injEq _ _ _ _).mp h
          exact absurd this.1 (by decide)

theorem renderFlat_dotstar (r : Rx) (h : (r.map renderAtom).flatten = ['.', '*']) :
    ∀ (s : Str), (∀ c ∈ s, isDotChar c = true) → rxTest r s = true := by
  induction r with
  | nil => simp at h
  | cons atom rest ih =>
      intro s hs
      rw [List.map_cons, List.flatten_cons] at h
      match atom with
      | .lit v =>
          cases v with
          | nil =>
              have h2 : (rest.map renderAtom).flatten = ['.', '*'] := by
                simpa [renderAtom, escapeRegex] using h
              have := ih h2 s hs
              rw [rxTest]
              simp only [List.isPrefixOf, Bool.true_and]
              simpa using this
          | cons a as =>
              exfalso
              rw [show renderAtom (.lit (a :: as)) = escapeRegex (a :: as) from rfl,
                escapeRegex_cons] at h
              by_cases hsp : isRegexSpecial a
              · rw [if_pos hsp] at h
                simp only [List.cons_append, List.append_assoc] at h
                have := (List.cons.injEq _ _ _ _).mp h
                exact absurd this.1 (by decide)
              · rw [if_neg hsp] at h
                simp only [List.cons_append, List.nil_append] at h
                have := (List.cons.injEq _ _ _ _).mp h
                rw [this.1] at hsp
                exact hsp (by decide)
      | .dot =>
          exfalso
          simp only [renderAtom, List.cons_append, List.nil_append] at h
          have := (List.cons.injEq _ _ _ _).mp h
          exact renderFlat_ne_star rest this.2
      | .star =>
          have h2 : (rest.map renderAtom).flatten = [] := by
            simp only [renderAtom, List.cons_append, List.nil_append] at h
            have := (List.cons.injEq _ _ _ _).mp h
            have := (List.cons.injEq _ _ _ _).mp this.2
            exact this.2
          rw [rxTest, List.any_eq_true]
          exact ⟨[], dotSuffixes_nil_mem s hs, renderFlat_nil_accepts rest h2⟩
      | .plusDot =>
          exfalso
          simp only [renderAtom, List.cons_append, List.nil_append] at h
          have := (List.cons.injEq _ _ _ _).mp h
          have := (List.cons.injEq _ _ _ _).mp this.2
          exact absurd this.1 (by decide)
      | .cls spec =>
          exfalso
          simp only [renderAtom, renderCls, List.cons_append, List.nil_append] at h
          have := (List.cons.injEq _ _ _ _).mp h
          exact absurd this.1 (by decide)

theorem catchAllSource_matches (m : SegmentMatcher)
    (h : isCatchAllSource (msource m) = true) :
    ∀ s, (∀ c ∈ s, isDotChar c = true) → mtest m s = true := by
  match m with
  | .and a b =>
      exfalso
      rw [isCatchAllSource] at h
      simp only [msource, strL, Bool.or_eq_true, decide_eq_true_eq] at h
      rcases h with ((h | h) | h) | h <;>
        · have := (List.cons.injEq _ _ _ _).mp h
          exact absurd this.1 (by decide)
  | .rx r =>
      intro s hs
      rw [isCatchAllSource] at h
      simp only [msource, rxSource, strL, Bool.or_eq_true, decide_eq_true_eq] at h
      rcases h with ((h | h) | h) | h
      · exact absurd ((List.cons.injEq _ _ _ _).mp h).1 (by decide)
      · exfalso
        have htail : (r.map renderAtom).flatten ++ ['$'] = ['.', '*'] :=
          ((List.cons.injEq _ _ _ _).mp h).2
        have hlast : ((r.map renderAtom).flatten ++ ['$']).getLast? = some '$' :=
          List.getLast?_concat _
        rw [htail] at hlast
        simp at hlast
      · exact absurd ((List.cons.injEq _ _ _ _).mp h).1 (by decide)
      · have htail : (r.map renderAtom).flatten ++ ['$'] = ['.', '*'] ++ ['$'] :=
          ((List.cons.injEq _ _ _ _).mp h).2
        have hflat : (r.map renderAtom).flatten = ['.', '*'] :=
          List.append_cancel_right htail
        exact renderFlat_dotstar r hflat s hs

theorem makeComplete_complete (x : SegmentAutomaton) (st : AutomatonState)
    (hst : st ∈ (makeComplete x).states) (seg : Str)
    (hseg : ∀ c ∈ seg, isDotChar c = true) :
    ∃ t ∈ st.transitions, matchTransition t seg = true := by
  rw [makeComplete_states_eq] at hst
  rcases List.mem_append.mp hst with hmem | hsink
  · obtain ⟨st0, hst0, rfl⟩ := List.mem_map.mp hmem
    by_cases hc : hasCatchAll st0
    · rw [if_pos hc]
      rw [hasCatchAll, List.any_eq_true] at hc
      obtain ⟨t, ht, htc⟩ := hc
      refine ⟨t, ht, ?_⟩
      match t, htc with
      | .wildcard p psrc tgt, htc =>
          exact catchAllSource_matches p htc seg hseg
    · rw [if_neg hc]
      refine ⟨.wildcard (.rx [.star]) (strL ("*")) x.states.length, by simp, ?_⟩
      show mtest (.rx [.star]) seg = true
      exact rxTest_dotstar seg hseg
  · rw [List.mem_singleton] at hsink
    subst hsink
    refine ⟨.wildcard (.rx [.star]) (strL ("*")) x.states.length, by simp, ?_⟩
    show mtest (.rx [.star]) seg = true
    exact rxTest_dotstar seg hseg

theorem determinize_ok_makeComplete (nfa : SegmentAutomaton)
    (opts : DeterminizeOptions) (d : SegmentAutomaton)
    (h : determinize nfa opts = .ok d) : ∃ x, d = makeComplete x := by
  unfold determinize at h
  split at h
  · exact ⟨nfa, ((Except.ok.injEq _ _).mp h).symm⟩
  · split at h
    · simp at h
    next initId ds0 hg =>
      split at h
      · simp at h
      next ds hl =>
        exact ⟨_, ((Except.ok.injEq _ _).mp h).symm⟩

/-- Claim C5 (amended): the "exactly one applicable transition" property
fails (the counterexample theorem exhibits several applicable transitions
in a determinize output and in an intersect product, and zero applicable
transitions on a segment containing a line terminator).  What holds is
completeness of determinize outputs: from any state of any successful
determinize result, any segment made of dot-matchable characters has at
least one applicable transition. -/
theorem claim_C5_amended (nfa : SegmentAutomaton) (opts : DeterminizeOptions)
    (d : SegmentAutomaton) (hok : determinize nfa opts = .ok d)
    (st : AutomatonState) (hst : st ∈ d.states) (seg : Str)
    (hseg : ∀ c ∈ seg, isDotChar c = true) :
    ∃ t ∈ st.transitions, matchTransition t seg = true := by
  obtain ⟨x, rfl⟩ := determinize_ok_makeComplete nfa opts d hok
  exact makeComplete_complete x st hst seg hseg

/-- Counterexample to claim C5 as stated: in the determinized automaton of
the star-dot-ts pattern the initial state has two transitions applicable to
the segment a.ts; the intersection product of that automaton with the
determinized literal a.ts automaton has four transitions applicable to
a.ts from its initial state, despite its deterministic flag; and the sink
state has zero applicable transitions on a segment containing a newline. -/
theorem claim_C5_counterexample :
    dfaStarTs.isDeterministic = true ∧
    ((dfaStarTs.states.getD 0 emptyState).transitions.countP
      (fun t => matchTransition t (strL ("a.ts")))) = 2 ∧
    prodStarLit.isDeterministic = true ∧
    ((prodStarLit.states.getD 0 emptyState).transitions.countP
      (fun t => matchTransition t (strL ("a.ts")))) = 4 ∧
    ((dfaStarTs.states.getD 2 emptyState).transitions.countP
      (fun t => matchTransition t (strL ("a\nb")))) = 0 := by
  refine ⟨rfl, ?_, rfl, ?_, ?_⟩ <;> decide

/-- Witness for the amended claim C5 at a concrete determinize output. -/
theorem claim_C5_witness :
    ∃ t ∈ (dfaStarTs.states.getD 0 emptyState).transitions,
      matchTransition t (strL ("q")) = true :=
  claim_C5_amended (buildAutomaton (parsePattern (strL ("*.ts")))) {} dfaStarTs rfl
    (dfaStarTs.states.getD 0 emptyState) (by decide) (strL ("q")) (by decide)

/-- Claim C1 evaluated at a failing input: on path slash-a-slash-y, both the
alternation pattern (branch star-slash-y) and the match-everything pattern
match, but the pattern intersection built from them rejects (the determinize
step loses the wildcard branch on the literal symbol a, and the
deterministic matcher then follows the broken literal transition). -/
theorem claim_C1_intersection_failure :
    (patternIntersect patMix patAll).isOk = true ∧
    matchPath (strL ("/a/y")) patMix = true ∧
    matchPath (strL ("/a/y")) patAll = true ∧
    matchPath (strL ("/a/y")) patMixAll = false := by
  refine ⟨?_, ?_, ?_, ?_⟩ <;> decide

/-- Claim C2 evaluated at a failing input: path slash-a-slash-y is built
from the pattern's literal segment alphabet, the pattern matches it, and
the pattern complement also matches it, instead of rejecting it. -/
theorem claim_C2_complement_failure :
    (patternComplement patMix).isOk = true ∧
    matchPath (strL ("/a/y")) patMix = true ∧
    matchPath (strL ("/a/y")) patMixComp = true := by
  refine ⟨?_, ?_, ?_⟩ <;> decide

/-- Claim C3 evaluated at a failing input: determinize succeeds on the NFA
of the alternation pattern and sets the deterministic flag, but the
resulting DFA rejects the segment sequence a, y that the NFA accepts. -/
theorem claim_C3_determinize_failure :
    (determinize patMix.automaton {}).isOk = true ∧
    dfaMix.isDeterministic = true ∧
    simulateNFA patMix.automaton [strL ("a"), strL ("y")] = true ∧
    simulateNFA dfaMix [strL ("a"), strL ("y")] = false := by
  refine ⟨?_, ?_, ?_, ?_⟩ <;> decide

/-- Claim C4 evaluated at a failing input: the direct matcher's base case
returns the consumed index without requiring all path segments to be
consumed, so the single-literal pattern direct-matches the two-segment
path slash-a-slash-b while compiled matching rejects it. -/
theorem claim_C4_direct_divergence :
    matchPath (strL ("/a/b")) (compilePattern (parsePattern (strL ("a")))) = false ∧
    matchPathDirect (strL ("/a/b")) (parsePattern (strL ("a"))) = true := by
  refine ⟨?_, ?_⟩ <;> decide

/-- Counterexample to claim C7 as stated: for the pattern a-slash-globstar,
the automaton accepts the single segment a within the depth bounds, yet the
quick-reject filter rejects the path slash-a (its minimum-length heuristic
counts one separator per globstar); the direct matcher also accepts. -/
theorem claim_C7_counterexample :
    simulateNFA patGlob.automaton [strL ("a")] = true ∧
    patGlob.minSegments ≤ 1 ∧
    patGlob.maxSegments = none ∧
    applyQuickReject (strL ("/a")) patGlob.quickReject = false ∧
    matchPath (strL ("/a")) patGlob = false ∧
    matchPathDirect (strL ("/a")) patGlob.ast = true := by
  refine ⟨?_, ?_, ?_, ?_, ?_, ?_⟩ <;> decide

/-- Counterexample to claim C8 as stated: the automaton of the wildcard
pattern z-star-q has a non-empty language, findWitness returns the path
slash-segment, but the automaton rejects that path (the synthesized sample
does not satisfy the wildcard matcher). -/
theorem claim_C8_counterexample :
    isEmpty autZQ = false ∧
    findWitness autZQ = some (strL ("/segment")) ∧
    simulateNFA autZQ (pathToSegments (strL ("/segment"))) = false := by
  refine ⟨?_, ?_, ?_⟩ <;> decide

/-- Claim C9: checkContainment on the compiled patterns src/index.ts and
src/star-dot-ts reports the subset relationship, with isSubset true and
isSuperset false. -/
theorem claim_C9_containment_subset :
    cont9.relationship = PatternRelationship.subset ∧
    cont9.isSubset = true ∧ cont9.isSuperset = false := by
  refine ⟨?_, ?_, ?_⟩ <;> decide

/-! Chain closed form: what the builder produces on a non-empty globstar-free
segment sequence, and the simulation inversion it supports. -/

theorem set_self_of_getElem? :
    ∀ (l : List AutomatonState) (i : Nat) (st : AutomatonState),
      l[i]? = some st → l.set i st = l := by
  intro l
  induction l with
  | nil => intro i st h; simp at h
  | cons x xs ih =>
      intro i st h
      cases i with
      | zero =>
          simp only [List.getElem?_cons_zero, Option.some.injEq] at h
          simp [h]
      | succ n =>
          simp only [List.getElem?_cons_succ] at h
          simp [ih n st h]

theorem addEdge_nil (b : Builder) (i : Nat) : addEdge b i [] = b := by
  unfold addEdge
  cases h : b[i]? with
  | none => rfl
  | some st =>
      simp only [List.append_nil]
      exact set_self_of_getElem? b i st h

theorem addEdge_length (b : Builder) (i : Nat) (es : List AutomatonTransition) :
    (addEdge b i es).length = b.length := by
  unfold addEdge
  cases h : b[i]? with
  | none => rfl
  | some st => exact List.length_set b i _

theorem buildSegmentAutomaton_eq (b : Builder) (seg : Segment) (s e : Nat) :
    buildSegmentAutomaton b seg s e = addEdge b s (edgeT s e seg) := by
  cases seg with
  | literal v => rfl
  | globstar => rfl
  | wildcard p parts => rfl
  | charclass spec => rfl
  | composite parts => rfl

theorem addEdge_append_left (b c : Builder) (i : Nat) (h : i < b.length)
    (es : List AutomatonTransition) :
    addEdge (b ++ c) i es = addEdge b i es ++ c := by
  unfold addEdge
  rw [List.getElem?_append_left h]
  cases hb : b[i]? with
  | none => rfl
  | some st => exact List.set_append_left i _ h

theorem addEdge_append_last (b : Builder) (st : AutomatonState)
    (es : List AutomatonTransition) :
    addEdge (b ++ [st]) b.length es =
      b ++ [{ st with transitions := st.transitions ++ es }] := by
  unfold addEdge
  rw [List.getElem?_concat_length]
  show List.set (b ++ [st]) b.length
      { id := st.id, transitions := st.transitions ++ es, accepting := st.accepting } =
    b ++ [{ id := st.id, transitions := st.transitions ++ es, accepting := st.accepting }]
  rw [List.set_append_right _ _ (Nat.le_refl _)]
  simp

theorem buildSeqGo_closed :
    ∀ (gs : List Segment) (g : Segment) (b : Builder) (cur e : Nat),
      cur < b.length →
      buildSeqGo b cur e (g :: gs) =
        addEdge b cur (edgeT cur (if gs.isEmpty then e else b.length) g) ++
          chainTail b.length e gs := by
  intro gs
  induction gs with
  | nil =>
      intro g b cur e hcur
      show buildSegmentAutomaton b g cur e = _
      rw [buildSegmentAutomaton_eq]
      simp [chainTail]
  | cons g2 rest ih =>
      intro g b cur e hcur
      show buildSeqGo
          (buildSegmentAutomaton
            (b ++ [({ id := b.length, transitions := [], accepting := false } :
              AutomatonState)]) g cur b.length)
          b.length e (g2 :: rest) = _
      rw [buildSegmentAutomaton_eq,
        addEdge_append_left b _ cur hcur]
      have hlen : (addEdge b cur (edgeT cur b.length g) ++
          [({ id := b.length, transitions := [], accepting := false } :
            AutomatonState)]).length =
          b.length + 1 := by
        simp [addEdge_length]
      rw [ih g2 _ b.length e (by omega)]
      rw [hlen]
      have hmid := addEdge_append_last (addEdge b cur (edgeT cur b.length g))
        { id := b.length, transitions := [], accepting := false }
        (edgeT b.length (if rest.isEmpty then e else b.length + 1) g2)
      rw [addEdge_length] at hmid
      rw [hmid]
      simp [chainTail]

theorem buildAutomaton_seq (p : PathPattern) (g : Segment) (gs : List Segment)
    (hroot : p.root = .sequence (g :: gs)) :
    buildAutomaton p = chainAut g gs := by
  have h1 : buildAutomaton p =
      { states := buildSeqGo
          [{ id := 0, transitions := [], accepting := false },
           { id := 1, transitions := [], accepting := true }] 0 1 (g :: gs),
        initialState := 0, acceptingStates := [1], isDeterministic := false } := by
    unfold buildAutomaton
    rw [hroot]
    rfl
  rw [h1, buildSeqGo_closed gs g _ 0 1 (by decide)]
  rfl

theorem chainTail_getElem? :
    ∀ (gs : List Segment) (L e j : Nat), j < gs.length →
      (chainTail L e gs)[j]? =
        some { id := L + j,
               transitions := edgeT (L + j)
                 (if j + 1 = gs.length then e else L + j + 1)
                 (gs.getD j .globstar),
               accepting := false } := by
  intro gs
  induction gs with
  | nil => intro L e j hj; simp at hj
  | cons g rest ih =>
      intro L e j hj
      cases j with
      | zero =>
          cases rest with
          | nil => simp [chainTail]
          | cons r rs => simp [chainTail]
      | succ k =>
          have hk : k < rest.length := by
            simp only [List.length_cons] at hj
            omega
          rw [chainTail]
          rw [List.getElem?_cons_succ]
          rw [ih (L + 1) e k hk]
          have h1 : L + 1 + k = L + (k + 1) := by omega
          by_cases hc : k + 1 = rest.length
          · rw [if_pos hc, if_pos (by simp only [List.length_cons]; omega)]
            simp [h1]
          · rw [if_neg hc, if_neg (by simp only [List.length_cons]; omega)]
            have h2 : L + 1 + k + 1 = L + (k + 1) + 1 := by omega
            simp [h1, h2]

theorem edgeT_single (c t : Nat) (p : Segment) (hp : isGlobstarSeg p = false) :
    ∃ tr, edgeT c t p = [tr] ∧ getTransitionTarget tr = some t ∧
      epsTargetsOfTransition tr = [] ∧
      ∀ s, matchTransition tr s = segMatchE p s := by
  cases p with
  | literal v => exact ⟨_, rfl, rfl, rfl, fun s => rfl⟩
  | globstar => simp [isGlobstarSeg] at hp
  | wildcard q parts => exact ⟨_, rfl, rfl, rfl, fun s => rfl⟩
  | charclass spec => exact ⟨_, rfl, rfl, rfl, fun s => rfl⟩
  | composite parts => exact ⟨_, rfl, rfl, rfl, fun s => rfl⟩

theorem chainTail_no_eps :
    ∀ (gs : List Segment) (L e : Nat), (∀ s ∈ gs, isGlobstarSeg s = false) →
      ∀ st ∈ chainTail L e gs, ∀ tr ∈ st.transitions,
        epsTargetsOfTransition tr = [] := by
  intro gs
  induction gs with
  | nil => intro L e _ st hst; simp [chainTail] at hst
  | cons g rest ih =>
      intro L e hfree st hst
      rw [chainTail] at hst
      rcases List.mem_cons.mp hst with h | h
      · subst h
        intro tr htr
        obtain ⟨tr0, he, _, _, _⟩ :=
          edgeT_single L (if rest.isEmpty then e else L + 1) g
            (hfree g (List.mem_cons_self _ _))
        rw [he] at htr
        rcases List.mem_singleton.mp htr with rfl
        obtain ⟨tr1, he1, _, heps, _⟩ :=
          edgeT_single L (if rest.isEmpty then e else L + 1) g
            (hfree g (List.mem_cons_self _ _))
        rw [he1] at he
        rcases List.cons.injEq .. ▸ he with ⟨rfl, _⟩
        exact heps
      · exact ih (L + 1) e (fun s hs => hfree s (List.mem_cons_of_mem _ hs)) st h

theorem chainAut_no_eps (g : Segment) (gs : List Segment)
    (hfree : ∀ s ∈ (g :: gs), isGlobstarSeg s = false) :
    ∀ st ∈ (chainAut g gs).states, ∀ tr ∈ st.transitions,
      epsTargetsOfTransition tr = [] := by
  intro st hst
  rcases List.mem_cons.mp hst with h | h
  · subst h
    intro tr htr
    obtain ⟨tr0, he, _, heps, _⟩ :=
      edgeT_single 0 (if gs.isEmpty then 1 else 2) g
        (hfree g (List.mem_cons_self _ _))
    rw [he] at htr
    rcases List.mem_singleton.mp htr with rfl
    exact heps
  · rcases List.mem_cons.mp h with h2 | h2
    · subst h2
      intro tr htr
      simp at htr
    · exact chainTail_no_eps gs 2 1
        (fun s hs => hfree s (List.mem_cons_of_mem _ hs)) st h2 

theorem saturate_id_of_empty (f : Finset Nat → Finset Nat)
    (hf : ∀ s, f s = ∅) : ∀ (n : Nat) (s : Finset Nat), saturate f n s = s := by
  intro n
  induction n with
  | zero => intro s; rfl
  | succ n ih =>
      intro s
      rw [saturate, hf, Finset.union_empty]
      exact ih s

theorem epsStep_eq_empty (a : SegmentAutomaton)
    (h : ∀ st ∈ a.states, ∀ tr ∈ st.transitions, epsTargetsOfTransition tr = [])
    (s : Finset Nat) : epsStep a s = ∅ := by
  unfold epsStep
  apply Finset.eq_empty_of_forall_not_mem
  intro x hx
  rw [Finset.mem_biUnion] at hx
  obtain ⟨i, _, hxi⟩ := hx
  unfold epsTargetsOfState at hxi
  cases hi : a.states[i]? with
  | none => rw [hi] at hxi; simp at hxi
  | some st =>
      rw [hi] at hxi
      rw [List.mem_toFinset, List.mem_flatten] at hxi
      obtain ⟨l, hl, hxl⟩ := hxi
      obtain ⟨tr, htr, rfl⟩ := List.mem_map.mp hl
      rw [h st (List.getElem?_mem hi) tr htr] at hxl
      simp at hxl

theorem epsilonClosure_id (a : SegmentAutomaton)
    (h : ∀ st ∈ a.states, ∀ tr ∈ st.transitions, epsTargetsOfTransition tr = [])
    (s : Finset Nat) : epsilonClosure a s = s :=
  saturate_id_of_empty _ (epsStep_eq_empty a h) _ s

theorem stateMoves_of_empty (a : SegmentAutomaton) (i : Nat) (st : AutomatonState)
    (hst : a.states[i]? = some st) (htr : st.transitions = []) (seg : Str) :
    stateMoves a seg i = ∅ := by
  unfold stateMoves
  rw [hst]
  cases hdet : a.isDeterministic with
  | true => simp [htr, getDeterministicTarget, findLiteralTarget, findWildcardTarget,
      findGlobstarTarget]
  | false => simp [htr]

theorem stateMoves_of_single (a : SegmentAutomaton) (i : Nat) (st : AutomatonState)
    (hdet : a.isDeterministic = false) (hst : a.states[i]? = some st)
    (tr : AutomatonTransition) (htr : st.transitions = [tr]) (seg : Str) :
    stateMoves a seg i =
      if matchTransition tr seg = true then
        (match getTransitionTarget tr with
         | some x => ({x} : Finset Nat)
         | none => (∅ : Finset Nat))
      else ∅ := by
  unfold stateMoves
  rw [hst, hdet]
  simp only [htr, Bool.false_eq_true, if_false, List.map_cons, List.map_nil,
    List.foldl_cons, List.foldl_nil, Finset.empty_union]

theorem stateMoves_single_tgt (a : SegmentAutomaton) (i : Nat) (st : AutomatonState)
    (hdet : a.isDeterministic = false) (hst : a.states[i]? = some st)
    (tr : AutomatonTransition) (htr : st.transitions = [tr]) (x : Nat)
    (htgt : getTransitionTarget tr = some x) (seg : Str) :
    stateMoves a seg i = if matchTransition tr seg = true then {x} else ∅ := by
  rw [stateMoves_of_single a i st hdet hst tr htr seg, htgt]

theorem getD_mem_of_lt : ∀ (l : List Segment) (i : Nat), i < l.length →
    l.getD i .globstar ∈ l := by
  intro l
  induction l with
  | nil => intro i h; simp at h
  | cons x xs ih =>
      intro i h
      cases i with
      | zero => simp [List.getD]
      | succ k =>
          simp only [List.getD_cons_succ]
          refine List.mem_cons_of_mem _ (ih k ?_)
          simp only [List.length_cons] at h
          omega

theorem drop_eq_getD_cons : ∀ (l : List Segment) (i : Nat), i < l.length →
    l.drop i = l.getD i .globstar :: l.drop (i + 1) := by
  intro l
  induction l with
  | nil => intro i h; simp at h
  | cons x xs ih =>
      intro i h
      cases i with
      | zero => simp [List.getD]
      | succ k =>
          simp only [List.drop_succ_cons, List.getD_cons_succ]
          refine ih k ?_
          simp only [List.length_cons] at h
          omega

theorem chainAut_statePos (g : Segment) (gs : List Segment) (i : Nat)
    (hi : i < gs.length + 1) :
    (chainAut g gs).states[statePos (gs.length + 1) i]? =
      some { id := statePos (gs.length + 1) i,
             transitions :=
               edgeT (statePos (gs.length + 1) i)
                 (statePos (gs.length + 1) (i + 1)) ((g :: gs).getD i .globstar),
             accepting := false } := by
  cases i with
  | zero =>
      have h0 : statePos (gs.length + 1) 0 = 0 := by simp [statePos]
      have h1 : statePos (gs.length + 1) 1 = if gs.isEmpty then 1 else 2 := by
        cases gs with
        | nil => simp [statePos]
        | cons r rs =>
            show statePos (rs.length + 1 + 1) 1 = 2
            unfold statePos
            rw [if_neg (by omega), if_neg (by omega)]
      rw [h0, h1]
      rfl
  | succ k =>
      have hk : k < gs.length := by omega
      have hp : statePos (gs.length + 1) (k + 1) = k + 2 := by
        unfold statePos
        rw [if_neg (by omega), if_neg (by omega)]
      rw [hp]
      have hs : ((chainAut g gs).states)[k + 2]? = (chainTail 2 1 gs)[k]? := by
        simp [chainAut]
      rw [hs, chainTail_getElem? gs 2 1 k hk]
      have hD : (g :: gs).getD (k + 1) Segment.globstar = gs.getD k Segment.globstar := rfl
      rw [hD]
      have hid : 2 + k = k + 2 := by omega
      by_cases hc : k + 1 = gs.length
      · rw [if_pos hc]
        have hq : statePos (gs.length + 1) (k + 1 + 1) = 1 := by
          unfold statePos
          rw [if_neg (by omega)]
          rw [if_pos (by omega)]
        rw [hid]
        rw [hq]
      · rw [if_neg hc]
        have hq : statePos (gs.length + 1) (k + 1 + 1) = k + 3 := by
          unfold statePos
          rw [if_neg (by omega)]
          rw [if_neg (by omega)]
        rw [hid]
        rw [show k + 2 + 1 = k + 3 from by omega]
        rw [hq]

theorem chainAut_state1 (g : Segment) (gs : List Segment) :
    (chainAut g gs).states[1]? =
      some { id := 1, transitions := [], accepting := true } := by
  simp [chainAut]

theorem chain_sim_inv (g : Segment) (gs : List Segment)
    (hfree : ∀ s ∈ (g :: gs), isGlobstarSeg s = false) :
    ∀ (segs : List Str) (i : Nat), i ≤ gs.length + 1 →
      simulateGo (chainAut g gs) segs {statePos (gs.length + 1) i} = true →
      List.Forall₂ (fun p s => segMatchE p s = true) ((g :: gs).drop i) segs := by
  intro segs
  induction segs with
  | nil =>
      intro i hi hsim
      rw [simulateGo] at hsim
      have hex := of_decide_eq_true hsim
      obtain ⟨j, hj, hacc⟩ := hex
      rw [Finset.mem_singleton] at hj
      subst hj
      by_cases hin : i = gs.length + 1
      · subst hin
        have hd : (g :: gs).drop (gs.length + 1) = [] := by
          apply List.drop_eq_nil_of_le
          simp
        rw [hd]
        exact List.Forall₂.nil
      · exfalso
        have hilt : i < gs.length + 1 := by omega
        have hlook := chainAut_statePos g gs i hilt
        simp [acceptingAt, hlook] at hacc
  | cons s rest ih =>
      intro i hi hsim
      simp only [simulateGo] at hsim
      by_cases hin : i = gs.length + 1
      · exfalso
        subst hin
        have hpos : statePos (gs.length + 1) (gs.length + 1) = 1 := by
          unfold statePos
          rw [if_neg (by omega), if_pos rfl]
        rw [hpos] at hsim
        have hmv : nfaStep (chainAut g gs) {1} s = ∅ := by
          unfold nfaStep
          rw [Finset.singleton_biUnion,
            stateMoves_of_empty (chainAut g gs) 1
              { id := 1, transitions := [], accepting := true }
              (chainAut_state1 g gs) rfl s]
          exact epsilonClosure_id _ (chainAut_no_eps g gs hfree) ∅
        rw [hmv] at hsim
        simp at hsim
      · have hilt : i < gs.length + 1 := by omega
        have hlook := chainAut_statePos g gs i hilt
        obtain ⟨tr, he, htgt, _, hmatch⟩ :=
          edgeT_single (statePos (gs.length + 1) i)
            (statePos (gs.length + 1) (i + 1)) ((g :: gs).getD i .globstar)
            (hfree _ (getD_mem_of_lt _ i (by simp only [List.length_cons]; omega)))
        have hmovs := stateMoves_single_tgt (chainAut g gs) _ _ rfl hlook tr he
          (statePos (gs.length + 1) (i + 1)) htgt s
        have hstep : nfaStep (chainAut g gs) {statePos (gs.length + 1) i} s =
            stateMoves (chainAut g gs) s (statePos (gs.length + 1) i) := by
          unfold nfaStep
          rw [Finset.singleton_biUnion,
            epsilonClosure_id _ (chainAut_no_eps g gs hfree)]
        rw [hstep, hmovs] at hsim
        by_cases hm : matchTransition tr s = true
        · rw [if_pos hm] at hsim
          rw [if_neg (Finset.singleton_ne_empty _)] at hsim
          have hf2 := ih (i + 1) (by omega) hsim
          have hdrop : (g :: gs).drop i =
              (g :: gs).getD i .globstar :: (g :: gs).drop (i + 1) :=
            drop_eq_getD_cons _ i (by simp only [List.length_cons]; omega)
          rw [hdrop]
          refine List.Forall₂.cons ?_ hf2
          rw [← hmatch s]
          exact hm
        · rw [if_neg hm] at hsim
          simp at hsim

theorem chainAut_accept_forall (g : Segment) (gs : List Segment)
    (hfree : ∀ s ∈ (g :: gs), isGlobstarSeg s = false)
    (segs : List Str)
    (hsim : simulateNFA (chainAut g gs) segs = true) :
    List.Forall₂ (fun p s => segMatchE p s = true) (g :: gs) segs := by
  have h0 : statePos (gs.length + 1) 0 = 0 := by simp [statePos]
  have hini : epsilonClosure (chainAut g gs) {(chainAut g gs).initialState} =
      {statePos (gs.length + 1) 0} := by
    rw [epsilonClosure_id _ (chainAut_no_eps g gs hfree), h0]
    rfl
  unfold simulateNFA at hsim
  rw [hini] at hsim
  have hres := chain_sim_inv g gs hfree segs 0 (by omega) hsim
  simpa using hres

/-! Minimum-length soundness of the generated regexes. -/

theorem isPrefixOf_length_le : ∀ (v s : Str), v.isPrefixOf s = true → v.length ≤ s.length := by
  intro v
  induction v with
  | nil => intro s _; simp
  | cons c cs ih =>
      intro s h
      cases s with
      | nil => simp [List.isPrefixOf] at h
      | cons d ds =>
          simp only [List.isPrefixOf, Bool.and_eq_true] at h
          simp only [List.length_cons]
          exact Nat.succ_le_succ (ih ds h.2)

theorem dotSuffixes_length : ∀ (s suf : Str), suf ∈ dotSuffixes s → suf.length ≤ s.length := by
  intro s
  induction s with
  | nil =>
      intro suf h
      rw [dotSuffixes, List.mem_singleton] at h
      simp [h]
  | cons c cs ih =>
      intro suf h
      rw [dotSuffixes] at h
      rcases List.mem_cons.mp h with h1 | h1
      · simp [h1]
      · by_cases hd : isDotChar c = true
        · rw [if_pos hd] at h1
          have := ih suf h1
          simp only [List.length_cons]
          omega
        · rw [if_neg hd] at h1
          simp at h1

theorem rxMinLen_cons (atom : RxAtom) (rest : Rx) :
    rxMinLen (atom :: rest) = atomMin atom + rxMinLen rest := by
  simp [rxMinLen]

theorem rxTest_minLen : ∀ (r : Rx) (s : Str), rxTest r s = true → rxMinLen r ≤ s.length := by
  intro r
  induction r with
  | nil => intro s h; simp [rxMinLen]
  | cons atom rest ih =>
      intro s h
      rw [rxMinLen_cons]
      cases atom with
      | lit v =>
          rw [rxTest, Bool.and_eq_true] at h
          have h1 := isPrefixOf_length_le v s h.1
          have h2 := ih _ h.2
          rw [List.length_drop] at h2
          simp only [atomMin]
          omega
      | dot =>
          cases s with
          | nil => rw [rxTest] at h; simp at h
          | cons c cs =>
              rw [rxTest, Bool.and_eq_true] at h
              have h2 := ih cs h.2
              simp only [atomMin, List.length_cons]
              omega
      | star =>
          rw [rxTest] at h
          rcases List.any_eq_true.mp h with ⟨suf, hsuf, htest⟩
          have h1 := dotSuffixes_length s suf hsuf
          have h2 := ih suf htest
          simp only [atomMin]
          omega
      | plusDot =>
          cases s with
          | nil => rw [rxTest] at h; simp at h
          | cons c cs =>
              rw [rxTest, Bool.and_eq_true] at h
              rcases List.any_eq_true.mp h.2 with ⟨suf, hsuf, htest⟩
              have h1 := dotSuffixes_length cs suf hsuf
              have h2 := ih suf htest
              simp only [atomMin, List.length_cons]
              omega
      | cls spec =>
          cases s with
          | nil => rw [rxTest] at h; simp at h
          | cons c cs =>
              rw [rxTest, Bool.and_eq_true] at h
              have h2 := ih cs h.2
              simp only [atomMin, List.length_cons]
              omega

theorem foldl_min_wild : ∀ (parts : List WildcardPart) (acc : Nat),
    parts.foldl (fun acc p =>
      match p with
      | .literal v => acc + v.length
      | .question => acc + 1
      | .star => acc) acc = acc + (parts.map wildPartMin).sum := by
  intro parts
  induction parts with
  | nil => intro acc; simp
  | cons p rest ih =>
      intro acc
      rw [List.foldl_cons, ih]
      cases p <;> simp [wildPartMin] <;> omega

theorem foldl_min_comp : ∀ (parts : List SegmentPart) (acc : Nat),
    parts.foldl (fun acc p =>
      match p with
      | .literal v => acc + v.length
      | .question => acc + 1
      | .charclass _ => acc + 1
      | .star => acc) acc = acc + (parts.map compPartMin).sum := by
  intro parts
  induction parts with
  | nil => intro acc; simp
  | cons p rest ih =>
      intro acc
      rw [List.foldl_cons, ih]
      cases p <;> simp [compPartMin] <;> omega

theorem rxMinLen_wildMap (parts : List WildcardPart) :
    rxMinLen (parts.map (fun p =>
      match p with
      | .literal v => RxAtom.lit v
      | .star => RxAtom.star
      | .question => RxAtom.dot)) = (parts.map wildPartMin).sum := by
  induction parts with
  | nil => rfl
  | cons p rest ih =>
      rw [List.map_cons, rxMinLen_cons, List.map_cons, List.sum_cons, ih]
      cases p <;> simp [wildPartMin, atomMin]

theorem rxMinLen_compMap (parts : List SegmentPart) :
    rxMinLen (parts.map (fun p =>
      match p with
      | .literal v => RxAtom.lit v
      | .star => RxAtom.star
      | .question => RxAtom.dot
      | .charclass spec => RxAtom.cls spec)) = (parts.map compPartMin).sum := by
  induction parts with
  | nil => rfl
  | cons p rest ih =>
      rw [List.map_cons, rxMinLen_cons, List.map_cons, List.sum_cons, ih]
      cases p <;> simp [compPartMin, atomMin]

theorem segMatchE_minLen (p : Segment) (s : Str) (h : segMatchE p s = true) :
    getSegmentMinLength p ≤ s.length := by
  cases p with
  | literal v =>
      rw [segMatchE, decide_eq_true_iff] at h
      subst h
      simp [getSegmentMinLength]
  | globstar => simp [getSegmentMinLength]
  | wildcard q parts =>
      have hrx : rxTest (parts.map (fun p =>
          match p with
          | .literal v => RxAtom.lit v
          | .star => RxAtom.star
          | .question => RxAtom.dot)) s = true := h
      have h1 := rxTest_minLen _ _ hrx
      rw [rxMinLen_wildMap] at h1
      rw [getSegmentMinLength, foldl_min_wild]
      omega
  | charclass spec =>
      cases s with
      | nil =>
          have hf : segMatchE (.charclass spec) ([] : Str) = false := rfl
          rw [hf] at h
          simp at h
      | cons c cs => simp [getSegmentMinLength]
  | composite parts =>
      have hrx : rxTest (parts.map (fun p =>
          match p with
          | .literal v => RxAtom.lit v
          | .star => RxAtom.star
          | .question => RxAtom.dot
          | .charclass spec => RxAtom.cls spec)) s = true := h
      have h1 := rxTest_minLen _ _ hrx
      rw [rxMinLen_compMap] at h1
      rw [getSegmentMinLength, foldl_min_comp]
      omega

/-! Segment list facts connecting the chain matching to the filter fields. -/

theorem lead_take : ∀ (ps : List Segment) (segs : List Str),
    List.Forall₂ (fun p s => segMatchE p s = true) ps segs →
    segs.take (leadingLiterals ps).length = leadingLiterals ps := by
  intro ps
  induction ps with
  | nil => intro segs h; simp [leadingLiterals]
  | cons p rest ih =>
      intro segs h
      cases h with
      | cons hps hrest =>
          cases p with
          | literal v =>
              rw [segMatchE, decide_eq_true_iff] at hps
              subst hps
              simp only [leadingLiterals, List.length_cons, List.take_succ_cons]
              rw [ih _ hrest]
          | globstar => simp [leadingLiterals]
          | wildcard q parts => simp [leadingLiterals]
          | charclass spec => simp [leadingLiterals]
          | composite parts => simp [leadingLiterals]

theorem leadingLiterals_length_le : ∀ (ps : List Segment),
    (leadingLiterals ps).length ≤ ps.length := by
  intro ps
  induction ps with
  | nil => simp [leadingLiterals]
  | cons p rest ih =>
      cases p with
      | literal v => simp only [leadingLiterals, List.length_cons]; omega
      | globstar => simp [leadingLiterals]
      | wildcard q parts => simp [leadingLiterals]
      | charclass spec => simp [leadingLiterals]
      | composite parts => simp [leadingLiterals]

theorem lit_mem_segs : ∀ (ps : List Segment) (segs : List Str),
    List.Forall₂ (fun p s => segMatchE p s = true) ps segs →
    ∀ v, Segment.literal v ∈ ps → v ∈ segs := by
  intro ps
  induction ps with
  | nil => intro segs h v hv; simp at hv
  | cons p rest ih =>
      intro segs h v hv
      cases h with
      | cons hps hrest =>
          rcases List.mem_cons.mp hv with h1 | h1
          · rw [← h1] at hps
            rw [segMatchE, decide_eq_true_iff] at hps
            subst hps
            exact List.mem_cons_self _ _
          · exact List.mem_cons_of_mem _ (ih _ hrest v h1)

theorem minLen_sum : ∀ (ps : List Segment) (segs : List Str),
    List.Forall₂ (fun p s => segMatchE p s = true) ps segs →
    (ps.map (fun p => getSegmentMinLength p + 1)).sum ≤
      (segs.map (fun s => s.length + 1)).sum := by
  intro ps
  induction ps with
  | nil => intro segs h; cases h; simp
  | cons p rest ih =>
      intro segs h
      cases h with
      | cons hps hrest =>
          simp only [List.map_cons, List.sum_cons]
          have h1 := segMatchE_minLen p _ hps
          have h2 := ih _ hrest
          omega

theorem minLengthValue_eq : ∀ (ps : List Segment) (acc : Nat),
    ps.foldl (fun acc s => acc + getSegmentMinLength s + 1) acc =
      acc + (ps.map (fun p => getSegmentMinLength p + 1)).sum := by
  intro ps
  induction ps with
  | nil => intro acc; simp
  | cons p rest ih =>
      intro acc
      rw [List.foldl_cons, ih]
      simp only [List.map_cons, List.sum_cons]
      omega

theorem interc_single (s : Str) : List.intercalate ['/'] [s] = s := by
  simp [List.intercalate]

theorem interc_cons2 (s t : Str) (rest : List Str) :
    List.intercalate ['/'] (s :: t :: rest) =
      s ++ '/' :: List.intercalate ['/'] (t :: rest) := by
  simp [List.intercalate]

theorem interc_length : ∀ (segs : List Str), segs ≠ [] →
    (List.intercalate ['/'] segs).length + 1 =
      (segs.map (fun s => s.length + 1)).sum := by
  intro segs
  induction segs with
  | nil => intro h; exact absurd rfl h
  | cons s rest ih =>
      intro _
      cases rest with
      | nil => simp [interc_single]
      | cons t rs =>
          rw [interc_cons2]
          have h1 := ih (by simp)
          simp only [List.length_append, List.length_cons, List.map_cons,
            List.sum_cons] at h1 ⊢
          omega

theorem interc_append (l₁ l₂ : List Str) (h₁ : l₁ ≠ []) (h₂ : l₂ ≠ []) :
    List.intercalate ['/'] (l₁ ++ l₂) =
      List.intercalate ['/'] l₁ ++ '/' :: List.intercalate ['/'] l₂ := by
  induction l₁ with
  | nil => exact absurd rfl h₁
  | cons s rest ih =>
      cases rest with
      | nil =>
          cases l₂ with
          | nil => exact absurd rfl h₂
          | cons t rs =>
              rw [List.singleton_append, interc_cons2, interc_single]
      | cons t rs =>
          have h3 := ih (by simp)
          rw [List.cons_append] at h3
          rw [List.cons_append, List.cons_append,
            interc_cons2 s t (rs ++ l₂), h3, interc_cons2 s t rs]
          simp

theorem isPrefixOf_append (p r : Str) : p.isPrefixOf (p ++ r) = true := by
  induction p with
  | nil => simp [List.isPrefixOf]
  | cons c cs ih => simp [List.isPrefixOf, ih]

theorem isSuffixOf_append (p r : Str) : r.isSuffixOf (p ++ r) = true := by
  rw [List.isSuffixOf, List.reverse_append]
  exact isPrefixOf_append r.reverse p.reverse

theorem splitChar_no_sep : ∀ (s : Str), '/' ∉ s → splitChar '/' s = [s] := by
  intro s
  induction s with
  | nil => intro _; rfl
  | cons c cs ih =>
      intro h
      rw [splitChar]
      have hc : ¬ c = '/' := by
        intro e
        exact h (by rw [e]; exact List.mem_cons_self _ _)
      rw [if_neg hc, ih (fun hm => h (List.mem_cons_of_mem _ hm))]

theorem splitChar_sep_append : ∀ (s t : Str), '/' ∉ s →
    splitChar '/' (s ++ '/' :: t) = s :: splitChar '/' t := by
  intro s
  induction s with
  | nil =>
      intro t _
      rw [List.nil_append, splitChar, if_pos rfl]
  | cons c cs ih =>
      intro t h
      rw [List.cons_append, splitChar]
      have hc : ¬ c = '/' := by
        intro e
        exact h (by rw [e]; exact List.mem_cons_self _ _)
      rw [if_neg hc, ih t (fun hm => h (List.mem_cons_of_mem _ hm))]

theorem splitChar_interc : ∀ (segs : List Str), segs ≠ [] →
    (∀ s ∈ segs, '/' ∉ s) →
    splitChar '/' (List.intercalate ['/'] segs) = segs := by
  intro segs
  induction segs with
  | nil => intro h; exact absurd rfl h
  | cons s rest ih =>
      intro _ hgood
      cases rest with
      | nil =>
          rw [interc_single]
          exact splitChar_no_sep s (hgood s (List.mem_cons_self _ _))
      | cons t rs =>
          rw [interc_cons2, splitChar_sep_append s _ (hgood s (List.mem_cons_self _ _)),
              ih (by simp) (fun x hx => hgood x (List.mem_cons_of_mem _ hx))]

theorem contains_of_mem {α : Type} [BEq α] [LawfulBEq α] (l : List α) (x : α)
    (h : x ∈ l) : l.contains x = true :=
  List.elem_iff.mpr h

/-- Claim C7 (amended): the quick-reject filter is sound for every pattern
whose root is an alternation (empty filter) or a globstar-free sequence: it
never rejects the rendered path of a well-formed segment sequence that the
compiled automaton's simulation accepts within the pattern's depth bounds.
(The original claim fails for globstar sequences, whose minimum-length
heuristic counts a separator for globstars matching zero segments.) -/
theorem claim_C7_amended (p : PathPattern) (segs : List Str)
    (hroot : rootGlobstarFree p = true)
    (hgood : ∀ s ∈ segs, goodSeg s)
    (hmin : (compilePattern p).minSegments ≤ segs.length)
    (hmax : ∀ mx, (compilePattern p).maxSegments = some mx → segs.length ≤ mx)
    (hsim : simulateNFA (compilePattern p).automaton segs = true) :
    applyQuickReject (segmentsToPath segs) (compilePattern p).quickReject = true := by
  have hqr : (compilePattern p).quickReject = buildQuickRejectFilter p := rfl
  rw [hqr]
  cases hr : p.root with
  | alternation bs =>
      have hfilt : buildQuickRejectFilter p = {} := by
        unfold buildQuickRejectFilter
        rw [hr]
      rw [hfilt]
      rfl
  | sequence ps =>
      cases ps with
      | nil =>
          have hfilt : buildQuickRejectFilter p = {} := by
            unfold buildQuickRejectFilter
            rw [hr]
            rfl
          rw [hfilt]
          rfl
      | cons g gs =>
          have hfree : ∀ s ∈ (g :: gs), isGlobstarSeg s = false := by
            simp only [rootGlobstarFree, hr, List.all_eq_true] at hroot
            intro s hs
            have h1 := hroot s hs
            simp at h1
            exact h1
          have hA : (compilePattern p).automaton = chainAut g gs :=
            buildAutomaton_seq p g gs hr
          rw [hA] at hsim
          have hf := chainAut_accept_forall g gs hfree segs hsim
          have hlen : (g :: gs).length = segs.length := List.Forall₂.length_eq hf
          have hsegs_ne : segs ≠ [] := by
            intro e
            rw [e] at hlen
            simp at hlen
          have hpath : segmentsToPath segs = '/' :: List.intercalate ['/'] segs := by
            rw [segmentsToPath, if_neg hsegs_ne]
          rw [hpath]
          have hfilt : buildQuickRejectFilter p =
              { prefixReq :=
                  if (leadingLiterals (g :: gs)).length > 0 then
                    some ('/' :: List.intercalate ['/'] (leadingLiterals (g :: gs)))
                  else none,
                suffixReq :=
                  if (trailingLiterals (g :: gs)).length > 0 &&
                      (trailingLiterals (g :: gs)).length < (g :: gs).length then
                    some ('/' :: List.intercalate ['/'] (trailingLiterals (g :: gs)))
                  else none,
                minLength :=
                  if ((g :: gs).foldl (fun acc s => acc + getSegmentMinLength s + 1) 0) > 1 then
                    some ((g :: gs).foldl (fun acc s => acc + getSegmentMinLength s + 1) 0)
                  else none,
                requiredLiterals :=
                  if ((g :: gs).filterMap (fun s =>
                      match s with
                      | .literal v => some v
                      | _ => none)).length > 0 then
                    some ((g :: gs).filterMap (fun s =>
                      match s with
                      | .literal v => some v
                      | _ => none))
                  else none } := by
            unfold buildQuickRejectFilter
            rw [hr]
          rw [hfilt, applyQuickReject]
          refine Bool.and_eq_true_iff.mpr ⟨Bool.and_eq_true_iff.mpr
            ⟨Bool.and_eq_true_iff.mpr ⟨?_, ?_⟩, ?_⟩, ?_⟩
          · by_cases hM : ((g :: gs).foldl
                (fun acc s => acc + getSegmentMinLength s + 1) 0) > 1
            · rw [if_pos hM]
              refine decide_eq_true ?_
              rw [minLengthValue_eq]
              have h1 := minLen_sum (g :: gs) segs hf
              have h2 := interc_length segs hsegs_ne
              simp only [List.length_cons]
              omega
            · rw [if_neg hM]
          · by_cases hL : (leadingLiterals (g :: gs)).length > 0
            · rw [if_pos hL]
              have htake := lead_take (g :: gs) segs hf
              have hk_le : (leadingLiterals (g :: gs)).length ≤ segs.length := by
                have := leadingLiterals_length_le (g :: gs)
                omega
              by_cases hkfull : (leadingLiterals (g :: gs)).length = segs.length
              · have hLL : leadingLiterals (g :: gs) = segs := by
                  rw [← htake, hkfull, List.take_length]
                show (('/' :: List.intercalate ['/'] (leadingLiterals (g :: gs))).isPrefixOf
                  ('/' :: List.intercalate ['/'] segs)) = true
                rw [hLL]
                have h1 := isPrefixOf_append ('/' :: List.intercalate ['/'] segs) []
                rw [List.append_nil] at h1
                exact h1
              · have hklt : (leadingLiterals (g :: gs)).length < segs.length := by omega
                have hdropne : segs.drop (leadingLiterals (g :: gs)).length ≠ [] := by
                  apply List.length_pos.mp
                  rw [List.length_drop]
                  omega
                have hLLne : leadingLiterals (g :: gs) ≠ [] := by
                  apply List.length_pos.mp
                  omega
                have hsplit : List.intercalate ['/'] segs =
                    List.intercalate ['/'] (leadingLiterals (g :: gs)) ++
                      '/' :: List.intercalate ['/']
                        (segs.drop (leadingLiterals (g :: gs)).length) := by
                  conv_lhs => rw [← List.take_append_drop
                    (leadingLiterals (g :: gs)).length segs]
                  rw [interc_append _ _ (by rw [htake]; exact hLLne) hdropne, htake]
                show (('/' :: List.intercalate ['/'] (leadingLiterals (g :: gs))).isPrefixOf
                  ('/' :: List.intercalate ['/'] segs)) = true
                rw [hsplit, ← List.cons_append]
                exact isPrefixOf_append _ _
            · rw [if_neg hL]
          · by_cases hS : ((trailingLiterals (g :: gs)).length > 0 &&
                (trailingLiterals (g :: gs)).length < (g :: gs).length) = true
            · rw [if_pos hS]
              rw [Bool.and_eq_true, decide_eq_true_iff, decide_eq_true_iff] at hS
              obtain ⟨hTpos, hTlt⟩ := hS
              have hfr := List.forall₂_reverse_iff.mpr hf
              have htakeR := lead_take ((g :: gs).reverse) segs.reverse hfr
              have hTL : trailingLiterals (g :: gs) =
                  (leadingLiterals ((g :: gs).reverse)).reverse := rfl
              have hTlen : (trailingLiterals (g :: gs)).length =
                  (leadingLiterals ((g :: gs).reverse)).length := by
                rw [hTL, List.length_reverse]
              have hsegs_eq : segs =
                  (segs.reverse.drop (leadingLiterals ((g :: gs).reverse)).length).reverse ++
                    trailingLiterals (g :: gs) := by
                rw [hTL]
                conv_lhs => rw [← List.reverse_reverse segs]
                conv_lhs => rw [← List.take_append_drop
                  (leadingLiterals ((g :: gs).reverse)).length segs.reverse]
                rw [List.reverse_append, htakeR]
              have hD_ne :
                  (segs.reverse.drop (leadingLiterals ((g :: gs).reverse)).length).reverse
                    ≠ [] := by
                apply List.length_pos.mp
                rw [List.length_reverse, List.length_drop, List.length_reverse]
                omega
              have hTL_ne : trailingLiterals (g :: gs) ≠ [] := by
                apply List.length_pos.mp
                omega
              show (('/' :: List.intercalate ['/'] (trailingLiterals (g :: gs))).isSuffixOf
                ('/' :: List.intercalate ['/'] segs)) = true
              conv_lhs => rw [hsegs_eq]
              rw [interc_append _ _ hD_ne hTL_ne, ← List.cons_append]
              exact isSuffixOf_append _ _
            · rw [if_neg hS]
          · by_cases hR : ((g :: gs).filterMap (fun s =>
                match s with
                | .literal v => some v
                | _ => none)).length > 0
            · rw [if_pos hR]
              refine List.all_eq_true.mpr ?_
              intro lit hlit
              obtain ⟨pseg, hpmem, hfm⟩ := List.mem_filterMap.mp hlit
              have hsplitp : splitChar '/' ('/' :: List.intercalate ['/'] segs) =
                  [] :: segs := by
                rw [splitChar, if_pos rfl,
                  splitChar_interc segs hsegs_ne (fun s hs => (hgood s hs).2)]
              rw [hsplitp]
              cases pseg with
              | literal v =>
                  simp only [Option.some.injEq] at hfm
                  subst hfm
                  exact contains_of_mem _ _
                    (List.mem_cons_of_mem _ (lit_mem_segs (g :: gs) segs hf v hpmem))
              | globstar => simp at hfm
              | wildcard q parts => simp at hfm
              | charclass spec => simp at hfm
              | composite parts => simp at hfm
            · rw [if_neg hR]

/-- Witness for the amended claim C7: the pattern src/star/index.ts and the
accepted segment sequence src, lib, index.ts exercise all four filters. -/
theorem claim_C7_witness :
    applyQuickReject
      (segmentsToPath [strL ("src"), strL ("lib"), strL ("index.ts")])
      (compilePattern (parsePattern (strL ("src/*/index.ts")))).quickReject = true :=
  claim_C7_amended (parsePattern (strL ("src/*/index.ts")))
    [strL ("src"), strL ("lib"), strL ("index.ts")]
    (by decide) (by decide) (by decide)
    (by
      intro mx hmx
      rw [show (compilePattern (parsePattern (strL ("src/*/index.ts")))).maxSegments =
        some 3 from by decide] at hmx
      injection hmx with h
      rw [← h]
      decide)
    (by decide)

/-! Witness-search soundness: run sets and their closure properties. -/

theorem saturate_empty_of (f : Finset Nat → Finset Nat) (hf : f ∅ = ∅) :
    ∀ n, saturate f n ∅ = ∅ := by
  intro n
  induction n with
  | zero => rfl
  | succ n ih =>
      rw [saturate, hf, Finset.union_empty]
      exact ih

theorem epsilonClosure_empty (a : SegmentAutomaton) : epsilonClosure a ∅ = ∅ := by
  unfold epsilonClosure
  apply saturate_empty_of
  ext x
  simp [epsStep]

theorem nfaStep_empty (a : SegmentAutomaton) (seg : Str) : nfaStep a ∅ seg = ∅ := by
  unfold nfaStep
  rw [show (∅ : Finset Nat).biUnion (stateMoves a seg) = ∅ from by ext x; simp]
  exact epsilonClosure_empty a

theorem runFrom_empty (a : SegmentAutomaton) : ∀ segs, runFrom a ∅ segs = ∅ := by
  intro segs
  induction segs with
  | nil => rfl
  | cons s rest ih =>
      show runFrom a (nfaStep a ∅ s) rest = ∅
      rw [nfaStep_empty]
      exact ih

theorem runFrom_append_one (a : SegmentAutomaton) (cur : Finset Nat)
    (segs : List Str) (s : Str) :
    runFrom a cur (segs ++ [s]) = nfaStep a (runFrom a cur segs) s := by
  unfold runFrom
  rw [List.foldl_append]
  rfl

theorem simulateGo_of_accept (a : SegmentAutomaton) :
    ∀ (segs : List Str) (cur : Finset Nat),
      (∃ i ∈ runFrom a cur segs, acceptingAt a i = true) →
      simulateGo a segs cur = true := by
  intro segs
  induction segs with
  | nil =>
      intro cur h
      rw [simulateGo]
      exact decide_eq_true h
  | cons s rest ih =>
      intro cur h
      simp only [simulateGo]
      by_cases he : nfaStep a cur s = ∅
      · exfalso
        have hrf : runFrom a cur (s :: rest) = ∅ := by
          show runFrom a (nfaStep a cur s) rest = ∅
          rw [he]
          exact runFrom_empty a rest
        rw [hrf] at h
        obtain ⟨i, hi, _⟩ := h
        simp at hi
      · rw [if_neg he]
        exact ih (nfaStep a cur s) h

theorem runFrom_closure_form (a : SegmentAutomaton) :
    ∀ (segs : List Str) (X : Finset Nat),
      ∃ Y, runFrom a (epsilonClosure a X) segs = epsilonClosure a Y := by
  intro segs
  induction segs with
  | nil => intro X; exact ⟨X, rfl⟩
  | cons s rest ih =>
      intro X
      show ∃ Y, runFrom a (nfaStep a (epsilonClosure a X) s) rest = epsilonClosure a Y
      have h1 : nfaStep a (epsilonClosure a X) s =
          epsilonClosure a ((epsilonClosure a X).biUnion (stateMoves a s)) := rfl
      rw [h1]
      exact ih _

theorem runNFA_epsClosed (a : SegmentAutomaton) (segs : List Str) :
    epsStep a (runNFA a segs) ⊆ runNFA a segs := by
  obtain ⟨Y, hY⟩ := runFrom_closure_form a segs {a.initialState}
  show epsStep a (runFrom a (epsilonClosure a {a.initialState}) segs) ⊆
    runFrom a (epsilonClosure a {a.initialState}) segs
  rw [hY]
  exact epsilonClosure_closed a Y

theorem mem_epsTargetsOfState (a : SegmentAutomaton) (i : Nat) (st : AutomatonState)
    (hst : a.states[i]? = some st) (t : AutomatonTransition) (ht : t ∈ st.transitions)
    (x : Nat) (hx : x ∈ epsTargetsOfTransition t) : x ∈ epsTargetsOfState a i := by
  unfold epsTargetsOfState
  rw [hst]
  show x ∈ ((st.transitions.map epsTargetsOfTransition).flatten).toFinset
  rw [List.mem_toFinset, List.mem_flatten]
  exact ⟨epsTargetsOfTransition t, List.mem_map_of_mem _ ht, hx⟩

theorem runNFA_eps_mem (a : SegmentAutomaton) (segs : List Str) (i : Nat)
    (st : AutomatonState) (hst : a.states[i]? = some st) (t : AutomatonTransition)
    (ht : t ∈ st.transitions) (hi : i ∈ runNFA a segs) (x : Nat)
    (hx : x ∈ epsTargetsOfTransition t) : x ∈ runNFA a segs := by
  apply runNFA_epsClosed a segs
  exact Finset.mem_biUnion.mpr ⟨i, hi, mem_epsTargetsOfState a i st hst t ht x hx⟩

theorem runNFA_closure_sub (a : SegmentAutomaton) (segs : List Str) (x : Nat)
    (hx : x ∈ runNFA a segs) : epsilonClosure a {x} ⊆ runNFA a segs :=
  epsilonClosure_min a _ (runNFA_epsClosed a segs) _
    (Finset.singleton_subset_iff.mpr hx)

theorem mem_foldl_union :
    ∀ (l : List (Finset Nat)) (init : Finset Nat) (x : Nat),
      (x ∈ init ∨ ∃ y ∈ l, x ∈ y) →
      x ∈ l.foldl (fun u v => u ∪ v) init := by
  intro l
  induction l with
  | nil =>
      intro init x h
      rcases h with h | h
      · exact h
      · obtain ⟨y, hy, _⟩ := h
        simp at hy
  | cons z zs ih =>
      intro init x h
      rw [List.foldl_cons]
      apply ih
      rcases h with h | h
      · exact Or.inl (Finset.mem_union_left _ h)
      · obtain ⟨y, hy, hxy⟩ := h
        rcases List.mem_cons.mp hy with h1 | h1
        · subst h1
          exact Or.inl (Finset.mem_union_right _ hxy)
        · exact Or.inr ⟨y, h1, hxy⟩

theorem mem_stateMoves (a : SegmentAutomaton) (hdet : a.isDeterministic = false)
    (i : Nat) (st : AutomatonState) (hst : a.states[i]? = some st)
    (t : AutomatonTransition) (ht : t ∈ st.transitions) (s : Str)
    (hm : matchTransition t s = true) (x : Nat)
    (htgt : getTransitionTarget t = some x) : x ∈ stateMoves a s i := by
  unfold stateMoves
  rw [hst, hdet]
  simp only [Bool.false_eq_true, if_false]
  apply mem_foldl_union
  right
  refine ⟨if matchTransition t s = true then
      (match getTransitionTarget t with
       | some tgt => ({tgt} : Finset Nat)
       | none => (∅ : Finset Nat))
    else ∅, List.mem_map_of_mem _ ht, ?_⟩
  rw [if_pos hm, htgt]
  exact Finset.mem_singleton_self x

theorem runNFA_step_mem (a : SegmentAutomaton) (segs : List Str) (i : Nat)
    (hi : i ∈ runNFA a segs) (s : Str) (x : Nat) (hx : x ∈ stateMoves a s i) :
    x ∈ runNFA a (segs ++ [s]) := by
  have h1 : runNFA a (segs ++ [s]) = nfaStep a (runNFA a segs) s :=
    runFrom_append_one a _ segs s
  rw [h1]
  unfold nfaStep
  apply subset_epsilonClosure
  exact Finset.mem_biUnion.mpr ⟨i, hi, hx⟩

theorem mem_of_finsetAsc (s : Finset Nat) (x : Nat) (hx : x ∈ finsetAsc s) : x ∈ s := by
  unfold finsetAsc at hx
  rw [List.mem_filter] at hx
  exact of_decide_eq_true hx.2

theorem target_reach (a : SegmentAutomaton) (i : Nat) (st : AutomatonState)
    (hst : a.states[i]? = some st) (t : AutomatonTransition) (ht : t ∈ st.transitions)
    (hi : i ∈ findReachableStates a) (x : Nat) (hx : x ∈ getTransitionTargets t) :
    x ∈ findReachableStates a := by
  apply findReachableStates_closed a
  refine Finset.mem_biUnion.mpr ⟨i, hi, ?_⟩
  unfold reachTargetsOfState
  rw [hst]
  show x ∈ ((st.transitions.map getTransitionTargets).flatten).toFinset
  rw [List.mem_toFinset, List.mem_flatten]
  exact ⟨getTransitionTargets t, List.mem_map_of_mem _ ht, hx⟩

theorem reach_closure_sub (a : SegmentAutomaton) (x : Nat)
    (hx : x ∈ findReachableStates a) :
    epsilonClosure a {x} ⊆ findReachableStates a :=
  epsilonClosure_min a _ (findReachableStates_epsClosed a) _
    (Finset.singleton_subset_iff.mpr hx)

theorem foldl_preserve {α β : Type} (f : β → α → β) (P : β → Prop) :
    ∀ (l : List α) (Q : α → Prop), (∀ x ∈ l, Q x) →
      (∀ b x, Q x → P b → P (f b x)) → ∀ b, P b → P (l.foldl f b) := by
  intro l
  induction l with
  | nil => intro Q hQ hstep b hb; exact hb
  | cons x xs ih =>
      intro Q hQ hstep b hb
      rw [List.foldl_cons]
      exact ih Q (fun y hy => hQ y (List.mem_cons_of_mem _ hy)) hstep (f b x)
        (hstep b x (hQ x (List.mem_cons_self _ _)) hb)

theorem interc_getLast : ∀ (segs : List Str), segs ≠ [] →
    (∀ s ∈ segs, goodSeg s) →
    ∃ c, (List.intercalate ['/'] segs).getLast? = some c ∧ c ≠ '/' := by
  intro segs
  induction segs with
  | nil => intro h; exact absurd rfl h
  | cons s rest ih =>
      intro _ hgood
      cases rest with
      | nil =>
          rw [interc_single]
          have hs := hgood s (List.mem_cons_self _ _)
          refine ⟨s.getLast hs.1, List.getLast?_eq_getLast s hs.1, ?_⟩
          intro e
          exact hs.2 (e ▸ List.getLast_mem hs.1)
      | cons t rs =>
          obtain ⟨c, hc, hcne⟩ := ih (by simp)
            (fun x hx => hgood x (List.mem_cons_of_mem _ hx))
          rw [interc_cons2]
          refine ⟨c, ?_, hcne⟩
          have hXne : List.intercalate ['/'] (t :: rs) ≠ [] := by
            intro e
            rw [e] at hc
            simp at hc
          rw [List.getLast?_append_cons]
          cases hX : List.intercalate ['/'] (t :: rs) with
          | nil => exact absurd hX hXne
          | cons x xs =>
              rw [List.getLast?_cons_cons, ← hX]
              exact hc

theorem pathToSegments_round (segs : List Str) (hne : segs ≠ [])
    (hgood : ∀ s ∈ segs, goodSeg s) :
    pathToSegments ('/' :: List.intercalate ['/'] segs) = segs := by
  obtain ⟨c, hc, hcne⟩ := interc_getLast segs hne hgood
  have hXne : List.intercalate ['/'] segs ≠ [] := by
    intro e
    rw [e] at hc
    simp at hc
  have hcond : ¬ ((decide (('/' :: List.intercalate ['/'] segs) = []) ||
      decide (('/' :: List.intercalate ['/'] segs) = ['/'])) = true) := by
    simp only [Bool.or_eq_true, decide_eq_true_iff]
    rintro (h | h)
    · simp at h
    · rw [List.cons.injEq] at h
      exact hXne h.2
  unfold pathToSegments
  rw [if_neg hcond]
  show (if (if (List.intercalate ['/'] segs).getLast? = some '/' then
        (List.intercalate ['/'] segs).dropLast
      else List.intercalate ['/'] segs) = [] then ([] : List Str)
    else splitChar '/' (if (List.intercalate ['/'] segs).getLast? = some '/' then
        (List.intercalate ['/'] segs).dropLast
      else List.intercalate ['/'] segs)) = segs
  rw [if_neg (show ¬ ((List.intercalate ['/'] segs).getLast? = some '/') from by
    rw [hc]
    simp only [Option.some.injEq]
    exact hcne)]
  rw [if_neg hXne]
  exact splitChar_interc segs hne (fun s hs => (hgood s hs).2)

theorem pushEntries_sound (a : SegmentAutomaton) (hdet : a.isDeterministic = false)
    (hnw : noWildcardTrans a) (hlit : litSegsWellFormed a)
    (stId : Nat) (st : AutomatonState) (hst : a.states[stId]? = some st)
    (path : List Str) (hmem : stId ∈ runNFA a path) (hpath : ∀ s ∈ path, goodSeg s)
    (v2 : Finset Nat) :
    ∀ (acc : List (Nat × List Str)) (t : AutomatonTransition), t ∈ st.transitions →
      (∀ e ∈ acc, e.1 ∈ runNFA a e.2 ∧ ∀ s ∈ e.2, goodSeg s) →
      ∀ e ∈ pushEntries a v2 path acc t,
        e.1 ∈ runNFA a e.2 ∧ ∀ s ∈ e.2, goodSeg s := by
  intro acc t ht hacc e he
  have hstmem : st ∈ a.states := List.getElem?_mem hst
  cases t with
  | epsilon tgt =>
      rw [pushEntries] at he
      split at he
      · exact hacc e he
      · rcases List.mem_append.mp he with h | h
        · exact hacc e h
        · rw [List.mem_singleton] at h
          subst h
          exact ⟨runNFA_eps_mem a path stId st hst _ ht hmem tgt
            (by simp [epsTargetsOfTransition]), hpath⟩
  | literal seg tgt =>
      rw [pushEntries] at he
      split at he
      · exact hacc e he
      · rcases List.mem_append.mp he with h | h
        · exact hacc e h
        · rw [List.mem_singleton] at h
          subst h
          constructor
          · apply runNFA_step_mem a path stId hmem seg tgt
            exact mem_stateMoves a hdet stId st hst _ ht seg
              (by simp [matchTransition]) tgt rfl
          · intro s hs
            rcases List.mem_append.mp hs with h1 | h1
            · exact hpath s h1
            · rw [List.mem_singleton] at h1
              subst h1
              exact hlit st hstmem _ ht s tgt rfl
  | wildcard q psrc tgt =>
      exact absurd rfl (hnw st hstmem _ ht)
  | globstar sl ex =>
      simp only [pushEntries] at he
      have hexm : ex ∈ runNFA a path :=
        runNFA_eps_mem a path stId st hst _ ht hmem ex
          (by simp [epsTargetsOfTransition])
      have hexit : ∀ e2 ∈ (finsetAsc (epsilonClosureFrom a ex)).filterMap
          (fun s => if decide (s ∈ v2) then none else some (s, path)),
          e2.1 ∈ runNFA a e2.2 ∧ ∀ s ∈ e2.2, goodSeg s := by
        intro e2 he2
        obtain ⟨s0, hs0, heq⟩ := List.mem_filterMap.mp he2
        by_cases hv : decide (s0 ∈ v2) = true
        · rw [if_pos hv] at heq
          simp at heq
        · rw [if_neg hv, Option.some.injEq] at heq
          subst heq
          exact ⟨runNFA_closure_sub a path ex hexm (mem_of_finsetAsc _ s0 hs0), hpath⟩
      split at he
      · rcases List.mem_append.mp he with h | h
        · exact hacc e h
        · exact hexit e h
      · rcases List.mem_append.mp he with h | h
        · rcases List.mem_append.mp h with h2 | h2
          · exact hacc e h2
          · exact hexit e h2
        · rw [List.mem_singleton] at h
          subst h
          constructor
          · apply runNFA_step_mem a path stId hmem (strL ("x")) sl
            exact mem_stateMoves a hdet stId st hst _ ht (strL ("x")) rfl sl rfl
          · intro s hs
            rcases List.mem_append.mp hs with h1 | h1
            · exact hpath s h1
            · rw [List.mem_singleton] at h1
              subst h1
              exact ⟨by decide, by decide⟩

theorem pushEntries_reach (a : SegmentAutomaton)
    (stId : Nat) (st : AutomatonState) (hst : a.states[stId]? = some st)
    (hreach : stId ∈ findReachableStates a) (path : List Str) (v2 : Finset Nat) :
    ∀ (acc : List (Nat × List Str)) (t : AutomatonTransition), t ∈ st.transitions →
      (∀ e ∈ acc, e.1 ∈ findReachableStates a) →
      ∀ e ∈ pushEntries a v2 path acc t, e.1 ∈ findReachableStates a := by
  intro acc t ht hacc e he
  cases t with
  | epsilon tgt =>
      rw [pushEntries] at he
      split at he
      · exact hacc e he
      · rcases List.mem_append.mp he with h | h
        · exact hacc e h
        · rw [List.mem_singleton] at h
          subst h
          exact target_reach a stId st hst _ ht hreach tgt
            (by simp [getTransitionTargets])
  | literal seg tgt =>
      rw [pushEntries] at he
      split at he
      · exact hacc e he
      · rcases List.mem_append.mp he with h | h
        · exact hacc e h
        · rw [List.mem_singleton] at h
          subst h
          exact target_reach a stId st hst _ ht hreach tgt
            (by simp [getTransitionTargets])
  | wildcard q psrc tgt =>
      rw [pushEntries] at he
      split at he
      · exact hacc e he
      · rcases List.mem_append.mp he with h | h
        · exact hacc e h
        · rw [List.mem_singleton] at h
          subst h
          exact target_reach a stId st hst _ ht hreach tgt
            (by simp [getTransitionTargets])
  | globstar sl ex =>
      simp only [pushEntries] at he
      have hexr : ex ∈ findReachableStates a :=
        target_reach a stId st hst _ ht hreach ex (by simp [getTransitionTargets])
      have hexit : ∀ e2 ∈ (finsetAsc (epsilonClosureFrom a ex)).filterMap
          (fun s => if decide (s ∈ v2) then none else some (s, path)),
          e2.1 ∈ findReachableStates a := by
        intro e2 he2
        obtain ⟨s0, hs0, heq⟩ := List.mem_filterMap.mp he2
        by_cases hv : decide (s0 ∈ v2) = true
        · rw [if_pos hv] at heq
          simp at heq
        · rw [if_neg hv, Option.some.injEq] at heq
          subst heq
          exact reach_closure_sub a ex hexr (mem_of_finsetAsc _ s0 hs0)
      split at he
      · rcases List.mem_append.mp he with h | h
        · exact hacc e h
        · exact hexit e h
      · rcases List.mem_append.mp he with h | h
        · rcases List.mem_append.mp h with h2 | h2
          · exact hacc e h2
          · exact hexit e h2
        · rw [List.mem_singleton] at h
          subst h
          exact target_reach a stId st hst _ ht hreach sl
            (by simp [getTransitionTargets])

theorem bfs_sound (a : SegmentAutomaton) (hdet : a.isDeterministic = false)
    (hnw : noWildcardTrans a) (hlit : litSegsWellFormed a) :
    ∀ (fuel : Nat) (q : List (Nat × List Str)) (visited : Finset Nat),
      (∀ e ∈ q, e.1 ∈ runNFA a e.2 ∧ ∀ s ∈ e.2, goodSeg s) →
      ∀ w, findWitnessBfs a fuel q visited = some w →
      ∃ segs, w = '/' :: List.intercalate ['/'] segs ∧ segs ≠ [] ∧
        (∀ s ∈ segs, goodSeg s) ∧ simulateNFA a segs = true := by
  intro fuel
  induction fuel with
  | zero =>
      intro q visited hq w hw
      simp [findWitnessBfs] at hw
  | succ fuel ih =>
      intro q visited hq w hw
      cases q with
      | nil => simp [findWitnessBfs] at hw
      | cons entry rest =>
          obtain ⟨stateId, path⟩ := entry
          simp only [findWitnessBfs] at hw
          split at hw
          next hvis =>
            exact ih rest visited (fun e he => hq e (List.mem_cons_of_mem _ he)) w hw
          next hvis =>
            split at hw
            next hnone =>
              exact ih rest _ (fun e he => hq e (List.mem_cons_of_mem _ he)) w hw
            next st hsome =>
              have hhead := hq (stateId, path) (List.mem_cons_self _ _)
              split at hw
              next hcond =>
                rw [Option.some.injEq] at hw
                subst hw
                rw [Bool.and_eq_true] at hcond
                refine ⟨path, rfl, ?_, hhead.2, ?_⟩
                · intro e
                  rw [e] at hcond
                  simp at hcond
                · have hacc : acceptingAt a stateId = true := by
                    rw [acceptingAt, hsome]
                    exact hcond.1
                  exact simulateGo_of_accept a path _ ⟨stateId, hhead.1, hacc⟩
              next hcond =>
                refine ih _ _ ?_ w hw
                intro e he
                rcases List.mem_append.mp he with h | h
                · exact hq e (List.mem_cons_of_mem _ h)
                · exact foldl_preserve (pushEntries a (insert stateId visited) path)
                    (fun b => ∀ e2 ∈ b, e2.1 ∈ runNFA a e2.2 ∧ ∀ s ∈ e2.2, goodSeg s)
                    st.transitions (fun t => t ∈ st.transitions) (fun t ht => ht)
                    (fun b t hQt hPb =>
                      pushEntries_sound a hdet hnw hlit stateId st hsome path
                        hhead.1 hhead.2 (insert stateId visited) b t hQt hPb)
                    [] (by simp) e h

theorem bfs_reach (a : SegmentAutomaton) :
    ∀ (fuel : Nat) (q : List (Nat × List Str)) (visited : Finset Nat),
      (∀ e ∈ q, e.1 ∈ findReachableStates a) →
      ∀ w, findWitnessBfs a fuel q visited = some w →
      ∃ i st, i ∈ findReachableStates a ∧ a.states[i]? = some st ∧
        st.accepting = true := by
  intro fuel
  induction fuel with
  | zero =>
      intro q visited hq w hw
      simp [findWitnessBfs] at hw
  | succ fuel ih =>
      intro q visited hq w hw
      cases q with
      | nil => simp [findWitnessBfs] at hw
      | cons entry rest =>
          obtain ⟨stateId, path⟩ := entry
          simp only [findWitnessBfs] at hw
          split at hw
          next hvis =>
            exact ih rest visited (fun e he => hq e (List.mem_cons_of_mem _ he)) w hw
          next hvis =>
            split at hw
            next hnone =>
              exact ih rest _ (fun e he => hq e (List.mem_cons_of_mem _ he)) w hw
            next st hsome =>
              have hhead := hq (stateId, path) (List.mem_cons_self _ _)
              split at hw
              next hcond =>
                rw [Bool.and_eq_true] at hcond
                exact ⟨stateId, st, hhead, hsome, hcond.1⟩
              next hcond =>
                refine ih _ _ ?_ w hw
                intro e he
                rcases List.mem_append.mp he with h | h
                · exact hq e (List.mem_cons_of_mem _ h)
                · exact foldl_preserve (pushEntries a (insert stateId visited) path)
                    (fun b => ∀ e2 ∈ b, e2.1 ∈ findReachableStates a)
                    st.transitions (fun t => t ∈ st.transitions) (fun t ht => ht)
                    (fun b t hQt hPb =>
                      pushEntries_reach a stateId st hsome hhead path
                        (insert stateId visited) b t hQt hPb)
                    [] (by simp) e h

theorem acceptingConsistent_of_b (a : SegmentAutomaton) (h : accConsB a = true) :
    acceptingConsistent a := by
  intro i st hst hacc
  rw [accConsB, List.all_eq_true] at h
  have hlt : i < a.states.length := (List.getElem?_eq_some.mp hst).1
  have h2 := h i (List.mem_range.mpr hlt)
  rw [hst] at h2
  simp only [hacc, Bool.not_true, Bool.false_or] at h2
  exact List.elem_iff.mp h2

theorem noWildcardTrans_of_b (a : SegmentAutomaton) (h : noWildB a = true) :
    noWildcardTrans a := by
  intro st hst t ht
  rw [noWildB, List.all_eq_true] at h
  have h2 := h st hst
  rw [List.all_eq_true] at h2
  have h3 := h2 t ht
  simp only [Bool.not_eq_true'] at h3
  simp [h3]

theorem litSegsWellFormed_of_b (a : SegmentAutomaton) (h : litSegsOkB a = true) :
    litSegsWellFormed a := by
  intro st hst t ht seg tgt heq
  rw [litSegsOkB, List.all_eq_true] at h
  have h2 := h st hst
  rw [List.all_eq_true] at h2
  have h3 := h2 t ht
  subst heq
  rw [Bool.and_eq_true] at h3
  refine ⟨?_, ?_⟩
  · intro e
    rw [e] at h3
    simp at h3
  · intro hm
    have hcm := contains_of_mem seg '/' hm
    rw [hcm] at h3
    simp at h3

/-- Claim C8 (amended): if isEmpty reports an empty language and the
acceptingStates list covers the accepting bits, findWitness returns none;
and on an NFA-flagged automaton without wildcard transitions whose literal
labels are well-formed path segments, any path findWitness returns is
accepted by the simulation.  (The unrestricted converse of the original
claim is false: findWitness does not verify synthesized wildcard samples.) -/
theorem claim_C8_amended (a : SegmentAutomaton) :
    (acceptingConsistent a → isEmpty a = true → findWitness a = none) ∧
    (a.isDeterministic = false → noWildcardTrans a → litSegsWellFormed a →
      ∀ w, findWitness a = some w → simulateNFA a (pathToSegments w) = true) := by
  constructor
  · intro hcons hempty
    cases hfw : findWitness a with
    | none => rfl
    | some w =>
        exfalso
        simp only [findWitness] at hfw
        split at hfw
        next hex =>
          have hex2 := of_decide_eq_true hex
          obtain ⟨s0, hs0, hacc⟩ := hex2
          have hs0r : s0 ∈ findReachableStates a :=
            reach_closure_sub a a.initialState (initial_mem_findReachableStates a) hs0
          obtain ⟨st, hsome2, hacc2⟩ : ∃ st, a.states[s0]? = some st ∧
              st.accepting = true := by
            unfold acceptingAt at hacc
            cases hsh : a.states[s0]? with
            | none => rw [hsh] at hacc; simp at hacc
            | some st => rw [hsh] at hacc; exact ⟨st, rfl, hacc⟩
          have hmemacc : s0 ∈ a.acceptingStates := hcons s0 st hsome2 hacc2
          rw [isEmpty, List.all_eq_true] at hempty
          have hcontra := hempty s0 hmemacc
          simp at hcontra
          exact hcontra hs0r
        next hex =>
          have hinv : ∀ e ∈ ((a.initialState, ([] : List Str)) ::
              ((finsetAsc (epsilonClosureFrom a a.initialState)).filter
                (fun s => s ≠ a.initialState)).map (fun s => (s, ([] : List Str)))),
              e.1 ∈ findReachableStates a := by
            intro e he
            rcases List.mem_cons.mp he with h | h
            · rw [h]
              exact initial_mem_findReachableStates a
            · obtain ⟨s0, hs0, heq⟩ := List.mem_map.mp h
              rw [List.mem_filter] at hs0
              rw [← heq]
              exact reach_closure_sub a a.initialState
                (initial_mem_findReachableStates a) (mem_of_finsetAsc _ s0 hs0.1)
          obtain ⟨i, st, hir, hsome2, hacc2⟩ := bfs_reach a _ _ _ hinv w hfw
          have hmemacc : i ∈ a.acceptingStates := hcons i st hsome2 hacc2
          rw [isEmpty, List.all_eq_true] at hempty
          have hcontra := hempty i hmemacc
          simp at hcontra
          exact hcontra hir
  · intro hdet hnw hlit w hfw
    simp only [findWitness] at hfw
    split at hfw
    next hex =>
      rw [Option.some.injEq] at hfw
      subst hfw
      have hps : pathToSegments ['/'] = [] := rfl
      rw [hps, simulateNFA, simulateGo]
      exact decide_eq_true (of_decide_eq_true hex)
    next hex =>
      have hinv : ∀ e ∈ ((a.initialState, ([] : List Str)) ::
          ((finsetAsc (epsilonClosureFrom a a.initialState)).filter
            (fun s => s ≠ a.initialState)).map (fun s => (s, ([] : List Str)))),
          e.1 ∈ runNFA a e.2 ∧ ∀ s ∈ e.2, goodSeg s := by
        intro e he
        rcases List.mem_cons.mp he with h | h
        · rw [h]
          refine ⟨?_, by simp⟩
          exact subset_epsilonClosure a {a.initialState} (Finset.mem_singleton_self _)
        · obtain ⟨s0, hs0, heq⟩ := List.mem_map.mp h
          rw [List.mem_filter] at hs0
          rw [← heq]
          refine ⟨?_, by simp⟩
          exact mem_of_finsetAsc _ s0 hs0.1
      obtain ⟨segs, hweq, hne2, hgood2, hsim2⟩ :=
        bfs_sound a hdet hnw hlit _ _ _ hinv w hfw
      rw [hweq, pathToSegments_round segs hne2 hgood2]
      exact hsim2

/-- Witness for the amended claim C8: the empty-language automaton yields no
witness, and the witness of the two-literal-segment automaton is a path the
automaton accepts. -/
theorem claim_C8_witness :
    findWitness autEmptyLang = none ∧
    simulateNFA autLitAB (pathToSegments (strL ("/a/b"))) = true := by
  constructor
  · exact (claim_C8_amended autEmptyLang).1
      (acceptingConsistent_of_b _ (by decide)) (by decide)
  · exact (claim_C8_amended autLitAB).2 (by decide)
      (noWildcardTrans_of_b _ (by decide))
      (litSegsWellFormed_of_b _ (by decide))
      (strL ("/a/b")) (by decide)
